import Mathlib

/-
  Verification of the void domain-blocking daemon (repository lc/void).

  Shallow embedding of the Go sources:
    - namespace Rules   : src/internal/rules/store.go (rule store with expiry heap)
    - namespace Engine  : the engine command handlers (handleBlock, handleRefreshExpire)
    - namespace Filesys : the AtomicWrite helper of the filesys package
    - namespace Resolver: src/internal/dnsresolver/resolver.go (LookupHost)
    - namespace Codec   : the PF anchor codec, modelled from the specification
      (its implementation is not among the provided sources, only its tests).

  Conventions: instants (time.Time) are nanosecond counts as Nat, with 0 as the
  zero instant; durations passed to handlers are Int (Go time.Duration);
  IP addresses (net.IPAddr) are represented by their textual key, a String.
-/

namespace Rules

/-- Embeds the Go struct rules.Rule of src/internal/rules/store.go. -/
structure Rule where
  ID : String
  Domain : String
  IPs : List String
  Expires : Nat
  Permanent : Bool
  ResolvedAt : Nat
deriving Repr, DecidableEq, Inhabited

/-- Embeds the Go struct entry of store.go: a rule record together with its
back-index inside the expiry heap. The Go pointer graph is modelled by an
arena (a list of entries) and indices into it; byID, byDom and the heap all
hold arena indices, mirroring the shared pointers of the source. -/
structure Entry where
  rule : Rule
  heapIdx : Int
deriving Repr, DecidableEq, Inhabited

/-- Model of Go strings.ToLower on a single character, restricted to the
ASCII letters, which is what DNS domain keys exercise. -/
def lowerChar (c : Char) : Char :=
  if 65 ≤ c.toNat ∧ c.toNat ≤ 90 then Char.ofNat (c.toNat + 32) else c

/-- Model of Go strings.ToLower. -/
def lowerStr (s : String) : String := ⟨s.data.map lowerChar⟩

/-- Association-list model of a Go map with String keys and values that are
arena indices. -/
abbrev SMap := List (String × Nat)

/-- Lookup in the map model. -/
def mapGet : SMap → String → Option Nat
  | [], _ => none
  | (k2, v) :: t, k => if k2 = k then some v else mapGet t k

/-- Assignment m[k] = v in the map model: replaces the binding if the key is
present, otherwise appends a new binding. -/
def mapSet : SMap → String → Nat → SMap
  | [], k, v => [(k, v)]
  | (k2, v2) :: t, k, v => if k2 = k then (k, v) :: t else (k2, v2) :: mapSet t k v

/-- Deletion delete(m, k) in the map model. -/
def mapDel (m : SMap) (k : String) : SMap := m.filter (fun p => p.1 ≠ k)

/-- Embeds the Go struct MemoryStore: the two maps, the expiry heap (a list of
arena indices) and the entry arena standing for the Go heap of entry records. -/
structure MemoryStore where
  byID : SMap
  byDom : SMap
  expH : List Nat
  entries : List Entry
deriving Repr, DecidableEq, Inhabited

/-- Embeds NewStore of store.go. -/
def NewStore : MemoryStore := ⟨[], [], [], []⟩

/-- Reads the arena entry at an index (Go pointer dereference). -/
def entryAt (es : List Entry) (i : Nat) : Entry := es.getD i default

/-- Writes the heapIdx field of the arena entry at an index. -/
def setHeapIdx (es : List Entry) (i : Nat) (v : Int) : List Entry :=
  es.set i { entryAt es i with heapIdx := v }

/-- Embeds expiryHeap.Less of store.go: strict comparison of the Expires
fields of the entries at two heap positions. -/
def hLess (s : MemoryStore) (i j : Nat) : Bool :=
  (entryAt s.entries (s.expH.getD i 0)).rule.Expires <
    (entryAt s.entries (s.expH.getD j 0)).rule.Expires

/-- Embeds expiryHeap.Swap of store.go: exchanges two heap positions and
rewrites the back-indices of the two moved entries. -/
def hSwap (s : MemoryStore) (i j : Nat) : MemoryStore :=
  let ei := s.expH.getD i 0
  let ej := s.expH.getD j 0
  { s with
    expH := (s.expH.set i ej).set j ei
    entries := setHeapIdx (setHeapIdx s.entries ej i) ei j }

/-- Embeds the up sift of container/heap (called by heap.Push and heap.Fix).
The first argument is recursion fuel; the parent index decreases strictly, so
fuel j+1 suffices when starting at position j. -/
def siftUp : Nat → MemoryStore → Nat → MemoryStore
  | 0, s, _ => s
  | fuel + 1, s, j =>
    let i := (j - 1) / 2
    if i = j ∨ hLess s j i = false then s
    else siftUp fuel (hSwap s i j) i

/-- Embeds the down sift of container/heap; returns the final position as
well (the Go version reports whether the element moved). Fuel n suffices. -/
def siftDown : Nat → MemoryStore → Nat → Nat → MemoryStore × Nat
  | 0, s, i, _ => (s, i)
  | fuel + 1, s, i, n =>
    let j1 := 2 * i + 1
    if n ≤ j1 then (s, i)
    else
      let j := if j1 + 1 < n ∧ hLess s (j1 + 1) j1 = true then j1 + 1 else j1
      if hLess s j i = false then (s, i)
      else siftDown fuel (hSwap s i j) j n

/-- Embeds heap.Push combined with expiryHeap.Push: records the back-index,
appends the arena index to the heap and sifts it up. -/
def heapPush (s : MemoryStore) (idx : Nat) : MemoryStore :=
  let n := s.expH.length
  let s2 : MemoryStore := { s with entries := setHeapIdx s.entries idx n, expH := s.expH ++ [idx] }
  siftUp (n + 1) s2 n

/-- Embeds expiryHeap.Pop: removes the last heap slot, marking the removed
entry with back-index -1, and returns its arena index. -/
def popLast (s : MemoryStore) : MemoryStore × Nat :=
  let idx := s.expH.getD (s.expH.length - 1) 0
  ({ s with entries := setHeapIdx s.entries idx (-1), expH := s.expH.dropLast }, idx)

/-- Embeds heap.Pop of container/heap: swap root with the last slot, sift the
new root down over the shortened range, then pop the last slot. -/
def heapPop (s : MemoryStore) : MemoryStore × Nat :=
  let n := s.expH.length - 1
  let s1 := hSwap s 0 n
  popLast (siftDown n s1 0 n).1

/-- Embeds heap.Remove of container/heap at heap position i. -/
def heapRemove (s : MemoryStore) (i : Nat) : MemoryStore × Nat :=
  let n := s.expH.length - 1
  if i = n then popLast s
  else
    let s1 := hSwap s i n
    let p := siftDown n s1 i n
    popLast (if p.2 = i then siftUp (i + 1) p.1 i else p.1)

/-- Embeds heap.Fix of container/heap at heap position i. -/
def heapFix (s : MemoryStore) (i : Nat) : MemoryStore :=
  let p := siftDown s.expH.length s i s.expH.length
  if p.2 = i then siftUp (i + 1) p.1 i else p.1

/-- Embeds MemoryStore.Upsert of store.go. Returns the new store and the
changed flag. -/
def Upsert (s : MemoryStore) (r : Rule) : MemoryStore × Bool :=
  let dom := lowerStr r.Domain
  match mapGet s.byDom dom with
  | some i =>
    let cur := entryAt s.entries i
    if cur.rule.Permanent = false ∧ r.Permanent = true then
      let es2 := s.entries.set i { cur with rule := { cur.rule with Permanent := true, Expires := 0 } }
      ((heapRemove { s with entries := es2 } cur.heapIdx.toNat).1, true)
    else
      let es2 := s.entries.set i
        { cur with rule := { cur.rule with IPs := r.IPs, ResolvedAt := r.ResolvedAt, Expires := r.Expires } }
      ({ s with entries := es2 }, true)
  | none =>
    let idx := s.entries.length
    let s2 : MemoryStore :=
      { s with
        entries := s.entries ++ [({ rule := r, heapIdx := 0 } : Entry)]
        byID := mapSet s.byID r.ID idx
        byDom := mapSet s.byDom dom idx }
    if r.Permanent = false then (heapPush s2 idx, true) else (s2, true)

/-- Embeds MemoryStore.UpdateResolvedAt of store.go, including the second
lookup that uses the unlowered domain of the record. -/
def UpdateResolvedAt (s : MemoryStore) (id : String) (ts : Nat) : MemoryStore × Bool :=
  match mapGet s.byID id with
  | none => (s, false)
  | some i =>
    let cur := entryAt s.entries i
    let s2 : MemoryStore := { s with entries := s.entries.set i { cur with rule := { cur.rule with ResolvedAt := ts } } }
    let s3 := if cur.rule.Permanent = false then heapFix s2 cur.heapIdx.toNat else s2
    match mapGet s3.byDom cur.rule.Domain with
    | none => (s3, false)
    | some j =>
      let cur2 := entryAt s3.entries j
      ({ s3 with entries := s3.entries.set j { cur2 with rule := { cur2.rule with ResolvedAt := ts } } }, true)

/-- Embeds MemoryStore.Remove of store.go. -/
def Remove (s : MemoryStore) (id : String) : MemoryStore × Option Rule :=
  match mapGet s.byID id with
  | none => (s, none)
  | some i =>
    let cur := entryAt s.entries i
    let s2 : MemoryStore :=
      { s with byID := mapDel s.byID cur.rule.ID, byDom := mapDel s.byDom (lowerStr cur.rule.Domain) }
    if cur.rule.Permanent = false then ((heapRemove s2 cur.heapIdx.toNat).1, some cur.rule)
    else (s2, some cur.rule)

/-- Embeds MemoryStore.NextExpiry of store.go. -/
def NextExpiry (s : MemoryStore) : Option Nat :=
  match s.expH with
  | [] => none
  | i :: _ => some (entryAt s.entries i).rule.Expires

/-- Embeds the pop loop of MemoryStore.ExpireNow; fuel is the heap size. -/
def expireLoop : Nat → MemoryStore → Nat → List Rule → MemoryStore × List Rule
  | 0, s, _, acc => (s, acc.reverse)
  | fuel + 1, s, now, acc =>
    match s.expH with
    | [] => (s, acc.reverse)
    | rootIdx :: _ =>
      if now < (entryAt s.entries rootIdx).rule.Expires then (s, acc.reverse)
      else
        let p := heapPop s
        let e := entryAt p.1.entries p.2
        let s2 : MemoryStore :=
          { p.1 with byID := mapDel p.1.byID e.rule.ID, byDom := mapDel p.1.byDom (lowerStr e.rule.Domain) }
        expireLoop fuel s2 now (e.rule :: acc)

/-- Embeds MemoryStore.ExpireNow of store.go. -/
def ExpireNow (s : MemoryStore) (now : Nat) : MemoryStore × List Rule :=
  expireLoop s.expH.length s now []

/-- Embeds MemoryStore.Snapshot of store.go: value copies of the records the
id map references, in map order. -/
def Snapshot (s : MemoryStore) : List Rule :=
  s.byID.map (fun p => (entryAt s.entries p.2).rule)

/-- A store mutation, one of the four operations the claims quantify over. -/
inductive Op
  | upsert (r : Rule)
  | updateResolvedAt (id : String) (ts : Nat)
  | remove (id : String)
  | expireNow (now : Nat)
deriving Repr, DecidableEq

/-- Applies one operation, discarding the returned values. -/
def applyOp (s : MemoryStore) : Op → MemoryStore
  | .upsert r => (Upsert s r).1
  | .updateResolvedAt id ts => (UpdateResolvedAt s id ts).1
  | .remove id => (Remove s id).1
  | .expireNow now => (ExpireNow s now).1

/-- Runs a sequence of operations from the empty store. -/
def runOps (ops : List Op) : MemoryStore := ops.foldl applyOp NewStore

/-- The min-heap ordering property of the expiry heap: every non-root heap
position is not smaller than its parent under the Expires key. -/
def minHeapOk (s : MemoryStore) : Prop :=
  ∀ j, j < s.expH.length → 0 < j →
    (entryAt s.entries (s.expH.getD ((j - 1) / 2) 0)).rule.Expires ≤
      (entryAt s.entries (s.expH.getD j 0)).rule.Expires

instance (s : MemoryStore) : Decidable (minHeapOk s) := by
  unfold minHeapOk
  infer_instance

theorem rulesOf_setHeapIdx (es : List Entry) (i : Nat) (v : Int) :
    (setHeapIdx es i v).map Entry.rule = es.map Entry.rule := by
  induction es generalizing i with
  | nil => rfl
  | cons e t ih =>
    cases i with
    | zero => simp [setHeapIdx, entryAt]
    | succ n =>
      have h := ih n
      simp only [setHeapIdx, entryAt, List.getD_cons_succ, List.set_cons_succ, List.map_cons] at *
      rw [h]

theorem length_setHeapIdx (es : List Entry) (i : Nat) (v : Int) :
    (setHeapIdx es i v).length = es.length := by
  simp [setHeapIdx]

/-- The parts of the store that heap maintenance never changes: both maps and
the rule payloads of the arena (sifting moves only back-indices and heap
slots). -/
def framesStore (s2 s : MemoryStore) : Prop :=
  s2.byID = s.byID ∧ s2.byDom = s.byDom ∧ s2.entries.map Entry.rule = s.entries.map Entry.rule

theorem framesStore_refl (s : MemoryStore) : framesStore s s := ⟨rfl, rfl, rfl⟩

theorem framesStore_trans {s3 s2 s1 : MemoryStore} (h2 : framesStore s3 s2)
    (h1 : framesStore s2 s1) : framesStore s3 s1 :=
  ⟨h2.1.trans h1.1, h2.2.1.trans h1.2.1, h2.2.2.trans h1.2.2⟩

theorem framesStore_hSwap (s : MemoryStore) (i j : Nat) : framesStore (hSwap s i j) s := by
  refine ⟨rfl, rfl, ?_⟩
  simp [hSwap, rulesOf_setHeapIdx]

theorem framesStore_siftUp (fuel : Nat) : ∀ (s : MemoryStore) (j : Nat),
    framesStore (siftUp fuel s j) s := by
  induction fuel with
  | zero => intro s j; exact framesStore_refl s
  | succ fuel ih =>
    intro s j
    unfold siftUp
    dsimp only
    split
    · exact framesStore_refl s
    · exact framesStore_trans (ih _ _) (framesStore_hSwap s _ j)

theorem framesStore_siftDown (fuel : Nat) : ∀ (s : MemoryStore) (i n : Nat),
    framesStore (siftDown fuel s i n).1 s := by
  induction fuel with
  | zero => intro s i n; exact framesStore_refl s
  | succ fuel ih =>
    intro s i n
    unfold siftDown
    dsimp only
    split
    · exact framesStore_refl s
    · split <;> split
      · exact framesStore_refl s
      · exact framesStore_trans (ih _ _ _) (framesStore_hSwap s i _)
      · exact framesStore_refl s
      · exact framesStore_trans (ih _ _ _) (framesStore_hSwap s i _)

theorem framesStore_heapPush (s : MemoryStore) (idx : Nat) :
    framesStore (heapPush s idx) s := by
  refine framesStore_trans (framesStore_siftUp _ _ _) ⟨rfl, rfl, ?_⟩
  simp [rulesOf_setHeapIdx]

theorem framesStore_popLast (s : MemoryStore) : framesStore (popLast s).1 s := by
  refine ⟨rfl, rfl, ?_⟩
  simp [popLast, rulesOf_setHeapIdx]

theorem framesStore_heapPop (s : MemoryStore) : framesStore (heapPop s).1 s :=
  framesStore_trans (framesStore_popLast _)
    (framesStore_trans (framesStore_siftDown _ _ _ _) (framesStore_hSwap s 0 _))

theorem framesStore_heapRemove (s : MemoryStore) (i : Nat) :
    framesStore (heapRemove s i).1 s := by
  unfold heapRemove
  dsimp only
  split
  · exact framesStore_popLast s
  · refine framesStore_trans (framesStore_popLast _) ?_
    split
    · exact framesStore_trans (framesStore_siftUp _ _ _)
        (framesStore_trans (framesStore_siftDown _ _ _ _) (framesStore_hSwap s i _))
    · exact framesStore_trans (framesStore_siftDown _ _ _ _) (framesStore_hSwap s i _)

theorem framesStore_heapFix (s : MemoryStore) (i : Nat) :
    framesStore (heapFix s i) s := by
  unfold heapFix
  dsimp only
  split
  · exact framesStore_trans (framesStore_siftUp _ _ _) (framesStore_siftDown _ _ _ _)
  · exact framesStore_siftDown _ _ _ _

theorem mapGet_mem {m : SMap} {k : String} {v : Nat} (h : mapGet m k = some v) : (k, v) ∈ m := by
  induction m with
  | nil => simp [mapGet] at h
  | cons p t ih =>
    by_cases hk : p.1 = k
    · obtain ⟨k2, v2⟩ := p
      simp only [mapGet] at h
      rw [if_pos hk] at h
      cases h
      subst hk
      exact List.mem_cons_self _ _
    · obtain ⟨k2, v2⟩ := p
      simp only [mapGet] at h
      rw [if_neg hk] at h
      exact List.mem_cons_of_mem _ (ih h)

theorem mem_mapSet {m : SMap} {k : String} {v : Nat} {p : String × Nat}
    (h : p ∈ mapSet m k v) : p ∈ m ∨ p = (k, v) := by
  induction m with
  | nil => simp [mapSet] at h; simp [h]
  | cons q t ih =>
    simp only [mapSet] at h
    split at h
    · rcases List.mem_cons.mp h with h1 | h1
      · exact Or.inr h1
      · exact Or.inl (List.mem_cons_of_mem _ h1)
    · rcases List.mem_cons.mp h with h1 | h1
      · exact Or.inl (List.mem_cons.mpr (Or.inl h1))
      · rcases ih h1 with h2 | h2
        · exact Or.inl (List.mem_cons_of_mem _ h2)
        · exact Or.inr h2

theorem mem_mapDel {m : SMap} {k : String} {p : String × Nat} (h : p ∈ mapDel m k) : p ∈ m :=
  List.mem_of_mem_filter h

theorem entryAt_mem {es : List Entry} {i : Nat} (h : i < es.length) : entryAt es i ∈ es := by
  unfold entryAt
  rw [List.getD_eq_getElem es default h]
  exact List.getElem_mem h

/-- Well-formedness of a rule record as the data model states it: the
permanent flag holds exactly when the expiry instant is zero. -/
def WFRule (r : Rule) : Prop := r.Permanent = true ↔ r.Expires = 0

instance : DecidablePred WFRule := fun r => by unfold WFRule; infer_instance

/-- Invariant carried through the C3 induction: every arena entry is
well-formed and both maps reference only valid arena indices. -/
def InvWF (s : MemoryStore) : Prop :=
  (∀ e ∈ s.entries, WFRule e.rule) ∧
    (∀ p ∈ s.byID, p.2 < s.entries.length) ∧ (∀ p ∈ s.byDom, p.2 < s.entries.length)

/-- Side condition of the amended C3 claim for one upsert against the current
store: a non-permanent rule is never upserted over an existing permanent rule
of the same domain. -/
def upsertNoDowngrade (s : MemoryStore) (r : Rule) : Prop :=
  ∀ i, mapGet s.byDom (lowerStr r.Domain) = some i →
    ((entryAt s.entries i).rule.Permanent = true → r.Permanent = true)

instance upsertNoDowngrade.dec (s : MemoryStore) (r : Rule) :
    Decidable (upsertNoDowngrade s r) :=
  match h : mapGet s.byDom (lowerStr r.Domain) with
  | some i =>
    decidable_of_iff ((entryAt s.entries i).rule.Permanent = true → r.Permanent = true)
      (by
        constructor
        · intro hh j hj
          rw [h] at hj
          cases hj
          exact hh
        · intro hh
          exact hh i h)
  | none =>
    isTrue (by
      intro j hj
      rw [h] at hj
      cases hj)

/-- The C3 side condition along a run: every upserted rule is well-formed and
never downgrades an existing permanent rule of its domain. -/
def OpsOkWF : MemoryStore → List Op → Prop
  | _, [] => True
  | s, op :: rest =>
    (match op with
      | .upsert r => WFRule r ∧ upsertNoDowngrade s r
      | _ => True) ∧ OpsOkWF (applyOp s op) rest

instance OpsOkWF.dec : (s : MemoryStore) → (ops : List Op) → Decidable (OpsOkWF s ops)
  | _, [] => isTrue trivial
  | s, .upsert r :: rest =>
    haveI d1 : Decidable (OpsOkWF (applyOp s (.upsert r)) rest) := OpsOkWF.dec _ rest
    decidable_of_iff ((WFRule r ∧ upsertNoDowngrade s r) ∧ OpsOkWF (applyOp s (.upsert r)) rest)
      Iff.rfl
  | s, .updateResolvedAt id ts :: rest =>
    haveI d1 : Decidable (OpsOkWF (applyOp s (.updateResolvedAt id ts)) rest) := OpsOkWF.dec _ rest
    decidable_of_iff (True ∧ OpsOkWF (applyOp s (.updateResolvedAt id ts)) rest) Iff.rfl
  | s, .remove id :: rest =>
    haveI d1 : Decidable (OpsOkWF (applyOp s (.remove id)) rest) := OpsOkWF.dec _ rest
    decidable_of_iff (True ∧ OpsOkWF (applyOp s (.remove id)) rest) Iff.rfl
  | s, .expireNow now :: rest =>
    haveI d1 : Decidable (OpsOkWF (applyOp s (.expireNow now)) rest) := OpsOkWF.dec _ rest
    decidable_of_iff (True ∧ OpsOkWF (applyOp s (.expireNow now)) rest) Iff.rfl

theorem InvWF_of_framesStore {s2 s : MemoryStore} (hf : framesStore s2 s) (h : InvWF s) :
    InvWF s2 := by
  obtain ⟨hID, hDom, hE⟩ := hf
  have hlen : s2.entries.length = s.entries.length := by
    have := congrArg List.length hE
    simpa using this
  refine ⟨?_, ?_, ?_⟩
  · intro e he
    have : e.rule ∈ s2.entries.map Entry.rule := List.mem_map_of_mem _ he
    rw [hE] at this
    obtain ⟨e2, he2, hr⟩ := List.mem_map.mp this
    rw [← hr]
    exact h.1 e2 he2
  · intro p hp
    rw [hID] at hp
    rw [hlen]
    exact h.2.1 p hp
  · intro p hp
    rw [hDom] at hp
    rw [hlen]
    exact h.2.2 p hp

theorem InvWF_upsert {s : MemoryStore} {r : Rule} (h : InvWF s) (hWF : WFRule r)
    (hnd : upsertNoDowngrade s r) : InvWF (Upsert s r).1 := by
  unfold Upsert
  dsimp only
  cases hdom : mapGet s.byDom (lowerStr r.Domain) with
  | some i =>
    have hib : i < s.entries.length := h.2.2 _ (mapGet_mem hdom)
    have hcur : WFRule (entryAt s.entries i).rule := h.1 _ (entryAt_mem hib)
    dsimp only
    split
    · rename_i hcond
      refine InvWF_of_framesStore (framesStore_heapRemove _ _) ⟨?_, ?_, ?_⟩
      · intro e he
        rcases List.mem_or_eq_of_mem_set he with h1 | h1
        · exact h.1 e h1
        · rw [h1]
          unfold WFRule
          simp
      · intro p hp
        rw [List.length_set]
        exact h.2.1 p hp
      · intro p hp
        rw [List.length_set]
        exact h.2.2 p hp
    · rename_i hcond
      refine ⟨?_, ?_, ?_⟩
      · intro e he
        rcases List.mem_or_eq_of_mem_set he with h1 | h1
        · exact h.1 e h1
        · rw [h1]
          unfold WFRule
          dsimp only
          cases hp : (entryAt s.entries i).rule.Permanent with
          | true =>
            have hrp : r.Permanent = true := hnd i hdom hp
            have : r.Expires = 0 := hWF.mp hrp
            simp [this]
          | false =>
            have hrp : r.Permanent = false := by
              by_contra hx
              exact hcond ⟨hp, by revert hx; cases r.Permanent <;> simp⟩
            have : ¬ r.Expires = 0 := by
              intro hz
              have := hWF.mpr hz
              rw [hrp] at this
              cases this
            simp [this]
      · intro p hp
        rw [List.length_set]
        exact h.2.1 p hp
      · intro p hp
        rw [List.length_set]
        exact h.2.2 p hp
  | none =>
    dsimp only
    have hbase : InvWF
        { s with
          entries := s.entries ++ [({ rule := r, heapIdx := 0 } : Entry)]
          byID := mapSet s.byID r.ID s.entries.length
          byDom := mapSet s.byDom (lowerStr r.Domain) s.entries.length } := by
      refine ⟨?_, ?_, ?_⟩
      · intro e he
        rcases List.mem_append.mp he with h1 | h1
        · exact h.1 e h1
        · rw [List.mem_singleton.mp h1]
          exact hWF
      · intro p hp
        simp only [List.length_append, List.length_cons, List.length_nil]
        rcases mem_mapSet hp with h1 | h1
        · exact Nat.lt_succ_of_lt (h.2.1 p h1)
        · rw [h1]
          exact Nat.lt_succ_self _
      · intro p hp
        simp only [List.length_append, List.length_cons, List.length_nil]
        rcases mem_mapSet hp with h1 | h1
        · exact Nat.lt_succ_of_lt (h.2.2 p h1)
        · rw [h1]
          exact Nat.lt_succ_self _
    split
    · exact InvWF_of_framesStore (framesStore_heapPush _ _) hbase
    · exact hbase

theorem InvWF_updateResolvedAt {s : MemoryStore} {id : String} {ts : Nat} (h : InvWF s) :
    InvWF (UpdateResolvedAt s id ts).1 := by
  unfold UpdateResolvedAt
  cases hid : mapGet s.byID id with
  | none => exact h
  | some i =>
    dsimp only
    have hib : i < s.entries.length := h.2.1 _ (mapGet_mem hid)
    have hcur : WFRule (entryAt s.entries i).rule := h.1 _ (entryAt_mem hib)
    set e2 : Entry := { entryAt s.entries i with rule := { (entryAt s.entries i).rule with ResolvedAt := ts } } with he2
    set s2 : MemoryStore := { s with entries := s.entries.set i e2 } with hs2
    have h2 : InvWF s2 := by
      refine ⟨?_, ?_, ?_⟩
      · intro e he
        rcases List.mem_or_eq_of_mem_set he with h1 | h1
        · exact h.1 e h1
        · rw [h1]
          exact hcur
      · intro p hp
        rw [hs2]
        dsimp only
        rw [List.length_set]
        exact h.2.1 p hp
      · intro p hp
        rw [hs2]
        dsimp only
        rw [List.length_set]
        exact h.2.2 p hp
    have h3 : InvWF (if (entryAt s.entries i).rule.Permanent = false
        then heapFix s2 (entryAt s.entries i).heapIdx.toNat else s2) := by
      split
      · exact InvWF_of_framesStore (framesStore_heapFix _ _) h2
      · exact h2
    set s3 := if (entryAt s.entries i).rule.Permanent = false
      then heapFix s2 (entryAt s.entries i).heapIdx.toNat else s2 with hs3
    cases hdom : mapGet s3.byDom (entryAt s.entries i).rule.Domain with
    | none => exact h3
    | some j =>
      dsimp only
      have hjb : j < s3.entries.length := h3.2.2 _ (mapGet_mem hdom)
      have hcur2 : WFRule (entryAt s3.entries j).rule := h3.1 _ (entryAt_mem hjb)
      refine ⟨?_, ?_, ?_⟩
      · intro e he
        rcases List.mem_or_eq_of_mem_set he with h1 | h1
        · exact h3.1 e h1
        · rw [h1]
          exact hcur2
      · intro p hp
        rw [List.length_set]
        exact h3.2.1 p hp
      · intro p hp
        rw [List.length_set]
        exact h3.2.2 p hp

theorem InvWF_remove {s : MemoryStore} {id : String} (h : InvWF s) : InvWF (Remove s id).1 := by
  unfold Remove
  cases hid : mapGet s.byID id with
  | none => exact h
  | some i =>
    dsimp only
    have hbase : InvWF
        { s with byID := mapDel s.byID (entryAt s.entries i).rule.ID
                 byDom := mapDel s.byDom (lowerStr (entryAt s.entries i).rule.Domain) } := by
      refine ⟨h.1, ?_, ?_⟩
      · intro p hp
        exact h.2.1 p (mem_mapDel hp)
      · intro p hp
        exact h.2.2 p (mem_mapDel hp)
    split
    · exact InvWF_of_framesStore (framesStore_heapRemove _ _) hbase
    · exact hbase

theorem InvWF_expireLoop (fuel : Nat) : ∀ (s : MemoryStore) (now : Nat) (acc : List Rule),
    InvWF s → InvWF (expireLoop fuel s now acc).1 := by
  induction fuel with
  | zero => intro s now acc h; exact h
  | succ fuel ih =>
    intro s now acc h
    unfold expireLoop
    cases s.expH with
    | nil => exact h
    | cons rootIdx t =>
      dsimp only
      split
      · exact h
      · refine ih _ now _ ?_
        have hpop : InvWF (heapPop s).1 := InvWF_of_framesStore (framesStore_heapPop _) h
        refine ⟨hpop.1, ?_, ?_⟩
        · intro p hp
          exact hpop.2.1 p (mem_mapDel hp)
        · intro p hp
          exact hpop.2.2 p (mem_mapDel hp)

theorem InvWF_applyOp {s : MemoryStore} {op : Op} (h : InvWF s)
    (hok : match op with | .upsert r => WFRule r ∧ upsertNoDowngrade s r | _ => True) :
    InvWF (applyOp s op) := by
  cases op with
  | upsert r => exact InvWF_upsert h hok.1 hok.2
  | updateResolvedAt id ts => exact InvWF_updateResolvedAt h
  | remove id => exact InvWF_remove h
  | expireNow now => exact InvWF_expireLoop _ _ _ _ h

theorem InvWF_foldl : ∀ (ops : List Op) (s : MemoryStore), InvWF s → OpsOkWF s ops →
    InvWF (ops.foldl applyOp s) := by
  intro ops
  induction ops with
  | nil => intro s h _; exact h
  | cons op rest ih =>
    intro s h hok
    exact ih _ (InvWF_applyOp h hok.1) hok.2

end Rules

/-- C3 amended: after every finite sequence of operations from the empty
store in which every upserted rule is well-formed (Permanent holds exactly
when Expires is the zero instant) and no non-permanent rule is upserted over
an existing permanent rule of the same domain, every rule in the store
satisfies Permanent exactly when its Expires is the zero instant. Without
the no-downgrade restriction the statement is false, as the C3
counterexample shows. -/
theorem permanent_iff_zero_expires_of_no_downgrade (ops : List Rules.Op)
    (h : Rules.OpsOkWF Rules.NewStore ops) :
    ∀ r ∈ Rules.Snapshot (Rules.runOps ops), (r.Permanent = true ↔ r.Expires = 0) := by
  have hInv : Rules.InvWF (Rules.runOps ops) := by
    refine Rules.InvWF_foldl ops Rules.NewStore ⟨?_, ?_, ?_⟩ h <;> intro x hx <;> cases hx
  intro r hr
  obtain ⟨p, hp, hrp⟩ := List.mem_map.mp hr
  have hb : p.2 < (Rules.runOps ops).entries.length := hInv.2.1 p hp
  have := hInv.1 _ (Rules.entryAt_mem hb)
  rw [hrp] at this
  exact this

namespace C3W

/-- Witness operations for the amended C3 claim: a temporary rule, an upgrade
of the same domain to permanent, and an expiry pass. -/
def ops : List Rules.Op :=
  [ .upsert { ID := "a", Domain := "d.com", IPs := [], Expires := 9, Permanent := false, ResolvedAt := 0 },
    .upsert { ID := "b", Domain := "d.com", IPs := [], Expires := 0, Permanent := true, ResolvedAt := 0 },
    .upsert { ID := "c", Domain := "e.com", IPs := [], Expires := 4, Permanent := false, ResolvedAt := 1 },
    .expireNow 5 ]

end C3W

/-- Witness for the amended C3 theorem at a concrete operation sequence. -/
theorem permanent_iff_zero_expires_witness :
    Rules.OpsOkWF Rules.NewStore C3W.ops ∧
      ∀ r ∈ Rules.Snapshot (Rules.runOps C3W.ops), (r.Permanent = true ↔ r.Expires = 0) :=
  ⟨by decide, permanent_iff_zero_expires_of_no_downgrade C3W.ops (by decide)⟩

namespace C1

/-- Operation sequence exercising Upsert of an existing temporary domain with
a changed expiry: rule b2 overwrites the expiry of the heap root in place. -/
def ops : List Rules.Op :=
  [ .upsert { ID := "a", Domain := "a.com", IPs := [], Expires := 10, Permanent := false, ResolvedAt := 0 },
    .upsert { ID := "b", Domain := "b.com", IPs := [], Expires := 5, Permanent := false, ResolvedAt := 0 },
    .upsert { ID := "b2", Domain := "b.com", IPs := [], Expires := 20, Permanent := false, ResolvedAt := 0 } ]

end C1

/-- C1: refuted on the code as written. After upserting a.com with expiry 10,
b.com with expiry 5, and then b.com again with expiry 20, the heap root holds
expiry 20 above a child with expiry 10: Upsert rewrites Expires of an
existing temporary rule in place without re-establishing heap order (no
heap.Fix call in the update branch of MemoryStore.Upsert), so the expiry
heap of the resulting store is not a min-heap ordered by Expires. -/
theorem upsert_overwrite_breaks_min_heap_order : ¬ Rules.minHeapOk (Rules.runOps C1.ops) := by decide

namespace C5

/-- The same heap-breaking sequence as for claim C1. -/
def ops : List Rules.Op :=
  [ .upsert { ID := "a", Domain := "a.com", IPs := [], Expires := 10, Permanent := false, ResolvedAt := 0 },
    .upsert { ID := "b", Domain := "b.com", IPs := [], Expires := 5, Permanent := false, ResolvedAt := 0 },
    .upsert { ID := "b2", Domain := "b.com", IPs := [], Expires := 20, Permanent := false, ResolvedAt := 0 } ]

end C5

/-- C5: refuted on the code as written. In the reachable store produced by
the C5 operation sequence (whose heap order was broken by Upsert), ExpireNow
at instant 15 returns no rules, although the store still holds the
non-permanent rule a.com with Expires 10 and 10 is at most 15: the pop loop
stops at the out-of-order root with Expires 20, so ExpireNow does not return
exactly the non-permanent rules with Expires at most now. -/
theorem expireNow_misses_due_rule :
    (Rules.ExpireNow (Rules.runOps C5.ops) 15).2 = [] ∧
      ∃ r ∈ Rules.Snapshot (Rules.runOps C5.ops), r.Permanent = false ∧ r.Expires ≤ 15 := by
  decide

namespace C3

/-- A permanent rule for d.com followed by a temporary upsert on the same
domain: the update branch of Upsert copies the non-zero Expires onto the
still-permanent record. -/
def ops : List Rules.Op :=
  [ .upsert { ID := "a", Domain := "d.com", IPs := [], Expires := 0, Permanent := true, ResolvedAt := 0 },
    .upsert { ID := "b", Domain := "d.com", IPs := [], Expires := 5, Permanent := false, ResolvedAt := 0 } ]

end C3

/-- C3 counterexample: after upserting a well-formed non-permanent rule over
an existing permanent rule of the same domain, the store holds a rule that is
permanent and still has a non-zero Expires, contradicting the claimed
equivalence between Permanent and a zero Expires. -/
theorem upsert_leaves_permanent_with_expiry :
    ∃ r ∈ Rules.Snapshot (Rules.runOps C3.ops), r.Permanent = true ∧ r.Expires ≠ 0 := by
  decide

namespace C4

/-- Upsert of a rule whose id already exists under a different domain: the id
map binding is overwritten while the domain map gains a second binding. -/
def ops : List Rules.Op :=
  [ .upsert { ID := "a", Domain := "x.com", IPs := [], Expires := 0, Permanent := true, ResolvedAt := 0 },
    .upsert { ID := "a", Domain := "y.com", IPs := [], Expires := 0, Permanent := true, ResolvedAt := 0 } ]

end C4

/-- C4 counterexample: after upserting a rule whose id already exists under a
different domain, the id map and the domain map no longer have the same size,
so they cannot have identical value sets. -/
theorem upsert_duplicate_id_desyncs_maps :
    (Rules.runOps C4.ops).byID.length ≠ (Rules.runOps C4.ops).byDom.length := by
  decide

namespace C9

/-- A single rule whose stored domain contains an upper-case letter. -/
def ops : List Rules.Op :=
  [ .upsert { ID := "a", Domain := "X.com", IPs := [], Expires := 10, Permanent := false, ResolvedAt := 0 } ]

end C9

/-- C9 counterexample: UpdateResolvedAt returns false for an existing rule
whose stored domain contains an upper-case letter, because the second lookup
of the function uses the unlowered domain as a key of the lower-cased domain
map. -/
theorem updateResolvedAt_false_for_uppercase_domain :
    (Rules.UpdateResolvedAt (Rules.runOps C9.ops) "a" 7).2 = false ∧
      ∃ r ∈ Rules.Snapshot (Rules.runOps C9.ops), r.ID = "a" := by
  decide

namespace Rules

theorem set_getD_self {α : Type _} (l : List α) (d : α) :
    ∀ i, i < l.length → l.set i (l.getD i d) = l := by
  induction l with
  | nil => intro i hi; cases hi
  | cons x t ih =>
    intro i hi
    cases i with
    | zero => simp
    | succ n =>
      have hn : n < t.length := Nat.lt_of_succ_lt_succ hi
      simp only [List.getD_cons_succ, List.set_cons_succ]
      rw [ih n hn]

theorem set_cons_perm {α : Type _} (d : α) :
    ∀ (t : List α) (m : Nat) (x : α), m < t.length → (t.getD m d :: t.set m x).Perm (x :: t) := by
  intro t
  induction t with
  | nil => intro m x hm; cases hm
  | cons y t2 ih =>
    intro m x hm
    cases m with
    | zero =>
      simp only [List.getD_cons_zero, List.set_cons_zero]
      exact List.Perm.swap x y t2
    | succ n =>
      have hn : n < t2.length := Nat.lt_of_succ_lt_succ hm
      simp only [List.getD_cons_succ, List.set_cons_succ]
      refine (List.Perm.swap y (t2.getD n d) (t2.set n x)).trans ?_
      exact ((ih n x hn).cons y).trans (List.Perm.swap x y t2)

theorem set_swap_perm {α : Type _} (d : α) :
    ∀ (l : List α) (i j : Nat), i < l.length → j < l.length →
      ((l.set i (l.getD j d)).set j (l.getD i d)).Perm l := by
  intro l
  induction l with
  | nil => intro i j hi _; cases hi
  | cons x t ih =>
    intro i j hi hj
    cases i with
    | zero =>
      cases j with
      | zero => simp
      | succ m =>
        have hm : m < t.length := Nat.lt_of_succ_lt_succ hj
        simp only [List.getD_cons_zero, List.getD_cons_succ, List.set_cons_zero,
          List.set_cons_succ]
        exact set_cons_perm d t m x hm
    | succ n =>
      have hn : n < t.length := Nat.lt_of_succ_lt_succ hi
      cases j with
      | zero =>
        simp only [List.getD_cons_zero, List.getD_cons_succ, List.set_cons_zero,
          List.set_cons_succ]
        exact set_cons_perm d t n x hn
      | succ m =>
        have hm : m < t.length := Nat.lt_of_succ_lt_succ hj
        simp only [List.getD_cons_succ, List.set_cons_succ]
        exact (ih n m hn hm).cons x

theorem getD_set_ne {α : Type _} (l : List α) {i m : Nat} (h : i ≠ m) (a d : α) :
    (l.set i a).getD m d = l.getD m d := by
  rw [List.getD_eq_getElem?_getD, List.getD_eq_getElem?_getD, List.getElem?_set_ne h]

theorem getD_set_same {α : Type _} (l : List α) {i : Nat} (h : i < l.length) (a d : α) :
    (l.set i a).getD i d = a := by
  rw [List.getD_eq_getElem?_getD, List.getElem?_set_eq h]
  rfl

theorem setHeapIdx_oob {es : List Entry} {i : Nat} (h : es.length ≤ i) (v : Int) :
    setHeapIdx es i v = es := List.set_eq_of_length_le h

theorem entryAt_setHeapIdx_same {es : List Entry} {i : Nat} (h : i < es.length) (v : Int) :
    entryAt (setHeapIdx es i v) i = { entryAt es i with heapIdx := v } := by
  unfold setHeapIdx entryAt
  rw [List.getD_eq_getElem?_getD, List.getElem?_set_eq]
  · rfl
  · exact h

theorem entryAt_setHeapIdx_ne {es : List Entry} {i b : Nat} (h : i ≠ b) (v : Int) :
    entryAt (setHeapIdx es i v) b = entryAt es b := by
  unfold setHeapIdx entryAt
  simp only [List.getD_eq_getElem?_getD]
  rw [List.getElem?_set_ne h]

theorem ruleAt_eq_of_framesStore {s2 s : MemoryStore} (hf : framesStore s2 s) (i : Nat) :
    (entryAt s2.entries i).rule = (entryAt s.entries i).rule := by
  have h1 : s2.entries[i]?.map Entry.rule = s.entries[i]?.map Entry.rule := by
    rw [← List.getElem?_map, ← List.getElem?_map, hf.2.2]
  have h2 : ∀ (o : Option Entry), (o.getD default).rule = (o.map Entry.rule).getD (Entry.rule default) := by
    intro o
    cases o <;> rfl
  unfold entryAt
  rw [List.getD_eq_getElem?_getD, List.getD_eq_getElem?_getD, h2, h2, h1]

theorem entries_length_of_framesStore {s2 s : MemoryStore} (hf : framesStore s2 s) :
    s2.entries.length = s.entries.length := by
  have := congrArg List.length hf.2.2
  simpa using this

theorem mapGet_eq_none_iff {m : SMap} {k : String} :
    mapGet m k = none ↔ k ∉ m.map Prod.fst := by
  induction m with
  | nil => simp [mapGet]
  | cons p t ih =>
    obtain ⟨k2, v2⟩ := p
    simp only [mapGet, List.map_cons, List.mem_cons]
    by_cases hk : k2 = k
    · subst hk
      simp
    · rw [if_neg hk]
      rw [ih]
      constructor
      · intro h1 h2
        rcases h2 with h2 | h2
        · exact hk h2.symm
        · exact h1 h2
      · intro h1 h2
        exact h1 (Or.inr h2)

theorem mapGet_of_mem_nodup {m : SMap} {k : String} {v : Nat}
    (hnd : (m.map Prod.fst).Nodup) (hmem : (k, v) ∈ m) : mapGet m k = some v := by
  induction m with
  | nil => cases hmem
  | cons p t ih =>
    obtain ⟨k2, v2⟩ := p
    simp only [List.map_cons, List.nodup_cons] at hnd
    rcases List.mem_cons.mp hmem with h1 | h1
    · cases h1
      simp [mapGet]
    · have hk : k2 ≠ k := by
        intro he
        subst he
        exact hnd.1 (List.mem_map_of_mem Prod.fst h1)
      simp only [mapGet, if_neg hk]
      exact ih hnd.2 h1

theorem mapSet_of_get_none {m : SMap} {k : String} (v : Nat) (h : mapGet m k = none) :
    mapSet m k v = m ++ [(k, v)] := by
  induction m with
  | nil => rfl
  | cons p t ih =>
    obtain ⟨k2, v2⟩ := p
    simp only [mapGet] at h
    by_cases hk : k2 = k
    · rw [if_pos hk] at h
      cases h
    · rw [if_neg hk] at h
      simp only [mapSet, if_neg hk, List.cons_append]
      rw [ih h]

theorem mapDel_eq_self {m : SMap} {k : String} (h : k ∉ m.map Prod.fst) : mapDel m k = m := by
  unfold mapDel
  refine List.filter_eq_self.mpr ?_
  intro p hp
  have : p.1 ≠ k := by
    intro he
    exact h (he ▸ List.mem_map_of_mem Prod.fst hp)
  simpa using this

theorem mapDel_perm {m : SMap} {k : String} {v : Nat}
    (hnd : (m.map Prod.fst).Nodup) (hmem : (k, v) ∈ m) :
    m.Perm ((k, v) :: mapDel m k) := by
  induction m with
  | nil => cases hmem
  | cons p t ih =>
    obtain ⟨k2, v2⟩ := p
    simp only [List.map_cons, List.nodup_cons] at hnd
    rcases List.mem_cons.mp hmem with h1 | h1
    · cases h1
      have hdel : mapDel ((k, v) :: t) k = mapDel t k := by
        simp [mapDel, List.filter_cons]
      rw [hdel, mapDel_eq_self hnd.1]
    · have hk : k2 ≠ k := by
        intro he
        subst he
        exact hnd.1 (List.mem_map_of_mem Prod.fst h1)
      have hdel : mapDel ((k2, v2) :: t) k = (k2, v2) :: mapDel t k := by
        unfold mapDel
        rw [List.filter_cons]
        simp [hk]
      rw [hdel]
      refine ((ih hnd.2 h1).cons (k2, v2)).trans ?_
      exact List.Perm.swap (k, v) (k2, v2) (mapDel t k)

theorem keys_mapDel (m : SMap) (k : String) :
    (mapDel m k).map Prod.fst = (m.map Prod.fst).filter (fun x => x ≠ k) := by
  unfold mapDel
  rw [@List.map_filter _ _ (fun x => decide (x ≠ k)) Prod.fst m]
  rfl

end Rules

namespace Rules

/-- Structural soundness of the heap layer: no duplicate arena indices, all
heap slots reference valid arena entries, and every referenced entry stores
its own heap position as back-index. -/
def HeapInv (s : MemoryStore) : Prop :=
  s.expH.Nodup ∧ (∀ i ∈ s.expH, i < s.entries.length) ∧
    (∀ k, k < s.expH.length → (entryAt s.entries (s.expH.getD k 0)).heapIdx = (k : Int))

theorem getD_mem {l : List Nat} {k : Nat} (h : k < l.length) : l.getD k 0 ∈ l := by
  rw [List.getD_eq_getElem l 0 h]
  exact List.getElem_mem h

theorem getD_inj_of_nodup {l : List Nat} (hnd : l.Nodup) {a b : Nat}
    (ha : a < l.length) (hb : b < l.length) (he : l.getD a 0 = l.getD b 0) : a = b := by
  rw [List.getD_eq_getElem l 0 ha, List.getD_eq_getElem l 0 hb] at he
  exact (List.Nodup.getElem_inj_iff hnd).mp he

theorem hSwap_expH_length (s : MemoryStore) (i j : Nat) :
    (hSwap s i j).expH.length = s.expH.length := by
  simp [hSwap]

theorem hSwap_entries_length (s : MemoryStore) (i j : Nat) :
    (hSwap s i j).entries.length = s.entries.length := by
  simp [hSwap, length_setHeapIdx]

theorem hSwap_getD_ne (s : MemoryStore) {i j m : Nat} (hi : i ≠ m) (hj : j ≠ m) :
    (hSwap s i j).expH.getD m 0 = s.expH.getD m 0 := by
  simp only [hSwap]
  rw [getD_set_ne _ hj, getD_set_ne _ hi]

theorem hSwap_getD_snd (s : MemoryStore) {i j : Nat} (hj : j < s.expH.length) :
    (hSwap s i j).expH.getD j 0 = s.expH.getD i 0 := by
  simp only [hSwap]
  rw [getD_set_same]
  rw [List.length_set]
  exact hj

theorem hSwap_getD_fst (s : MemoryStore) {i j : Nat} (hij : i ≠ j) (hi : i < s.expH.length) :
    (hSwap s i j).expH.getD i 0 = s.expH.getD j 0 := by
  simp only [hSwap]
  rw [getD_set_ne _ (fun he => hij he.symm), getD_set_same _ hi]

theorem hSwap_expH_perm (s : MemoryStore) {i j : Nat}
    (hi : i < s.expH.length) (hj : j < s.expH.length) : (hSwap s i j).expH.Perm s.expH := by
  simp only [hSwap]
  exact set_swap_perm 0 s.expH i j hi hj

theorem HeapInv_hSwap {s : MemoryStore} {i j : Nat} (h : HeapInv s)
    (hi : i < s.expH.length) (hj : j < s.expH.length) : HeapInv (hSwap s i j) := by
  obtain ⟨hnd, hbound, hback⟩ := h
  have hperm := hSwap_expH_perm s hi hj
  have hlen := hSwap_expH_length s i j
  have heibound : s.expH.getD i 0 < s.entries.length := hbound _ (getD_mem hi)
  have hejbound : s.expH.getD j 0 < s.entries.length := hbound _ (getD_mem hj)
  refine ⟨hperm.symm.nodup hnd, ?_, ?_⟩
  · intro x hx
    rw [hSwap_entries_length]
    exact hbound x (hperm.mem_iff.mp hx)
  · intro k hk
    rw [hlen] at hk
    by_cases hij : i = j
    · subst hij
      have hexp : (hSwap s i i).expH = s.expH := by
        simp only [hSwap]
        rw [set_getD_self _ _ _ hi, set_getD_self _ _ _ hi]
      rw [hexp]
      by_cases htgt : s.expH.getD k 0 = s.expH.getD i 0
      · have hki : k = i := getD_inj_of_nodup hnd hk hi htgt
        subst hki
        simp only [hSwap, htgt]
        rw [entryAt_setHeapIdx_same (by rw [length_setHeapIdx]; exact heibound) _]
      · simp only [hSwap]
        rw [entryAt_setHeapIdx_ne (fun he => htgt he.symm), entryAt_setHeapIdx_ne (fun he => htgt he.symm)]
        exact hback k hk
    · have heinej : s.expH.getD i 0 ≠ s.expH.getD j 0 := by
        intro he
        exact hij (getD_inj_of_nodup hnd hi hj he)
      by_cases hkj : k = j
      · subst hkj
        rw [hSwap_getD_snd s hj]
        simp only [hSwap]
        rw [entryAt_setHeapIdx_same (by rw [length_setHeapIdx]; exact heibound) _]
      · by_cases hki : k = i
        · subst hki
          rw [hSwap_getD_fst s hij hi]
          simp only [hSwap]
          rw [entryAt_setHeapIdx_ne heinej, entryAt_setHeapIdx_same hejbound]
        · rw [hSwap_getD_ne s (fun he => hki he.symm) (fun he => hkj he.symm)]
          have htgti : s.expH.getD k 0 ≠ s.expH.getD i 0 := by
            intro he
            exact hki (getD_inj_of_nodup hnd hk hi he)
          have htgtj : s.expH.getD k 0 ≠ s.expH.getD j 0 := by
            intro he
            exact hkj (getD_inj_of_nodup hnd hk hj he)
          simp only [hSwap]
          rw [entryAt_setHeapIdx_ne (fun he => htgti he.symm),
            entryAt_setHeapIdx_ne (fun he => htgtj he.symm)]
          exact hback k hk

end Rules

namespace Rules

theorem siftUp_spec (fuel : Nat) : ∀ (s : MemoryStore) (j : Nat), HeapInv s →
    j < s.expH.length →
    HeapInv (siftUp fuel s j) ∧ (siftUp fuel s j).expH.Perm s.expH ∧
      (∀ m, j < m → (siftUp fuel s j).expH.getD m 0 = s.expH.getD m 0) := by
  induction fuel with
  | zero => intro s j h _; exact ⟨h, List.Perm.refl _, fun m _ => rfl⟩
  | succ fuel ih =>
    intro s j h hj
    unfold siftUp
    dsimp only
    split
    · exact ⟨h, List.Perm.refl _, fun m _ => rfl⟩
    · rename_i hcond
      have hij : (j - 1) / 2 ≠ j := fun he => hcond (Or.inl he)
      have hilt : (j - 1) / 2 < j := by omega
      have hi : (j - 1) / 2 < s.expH.length := Nat.lt_trans hilt hj
      have h1 : HeapInv (hSwap s ((j - 1) / 2) j) := HeapInv_hSwap h hi hj
      have h1len : (hSwap s ((j - 1) / 2) j).expH.length = s.expH.length :=
        hSwap_expH_length s _ j
      obtain ⟨h2, h2perm, h2pres⟩ := ih (hSwap s ((j - 1) / 2) j) ((j - 1) / 2) h1
        (by rw [h1len]; exact hi)
      refine ⟨h2, h2perm.trans (hSwap_expH_perm s hi hj), ?_⟩
      intro m hm
      rw [h2pres m (Nat.lt_trans hilt hm)]
      exact hSwap_getD_ne s (Nat.ne_of_lt (Nat.lt_trans hilt hm)) (Nat.ne_of_lt hm)

theorem siftDown_spec (fuel : Nat) : ∀ (s : MemoryStore) (i n : Nat), HeapInv s →
    n ≤ s.expH.length →
    HeapInv (siftDown fuel s i n).1 ∧ (siftDown fuel s i n).1.expH.Perm s.expH ∧
      (∀ m, n ≤ m → (siftDown fuel s i n).1.expH.getD m 0 = s.expH.getD m 0) := by
  induction fuel with
  | zero => intro s i n h _; exact ⟨h, List.Perm.refl _, fun m _ => rfl⟩
  | succ fuel ih =>
    intro s i n h hn
    unfold siftDown
    dsimp only
    split
    · exact ⟨h, List.Perm.refl _, fun m _ => rfl⟩
    · rename_i hno
      have hj1 : 2 * i + 1 < n := Nat.lt_of_not_le hno
      have hin : i < n := by omega
      have hilen : i < s.expH.length := Nat.lt_of_lt_of_le hin hn
      split
      · rename_i hcnd
        have hjn : 2 * i + 1 + 1 < n := hcnd.1
        have hjlen : 2 * i + 1 + 1 < s.expH.length := Nat.lt_of_lt_of_le hjn hn
        split
        · exact ⟨h, List.Perm.refl _, fun m _ => rfl⟩
        · have h1 : HeapInv (hSwap s i (2 * i + 1 + 1)) := HeapInv_hSwap h hilen hjlen
          obtain ⟨h2, h2perm, h2pres⟩ := ih (hSwap s i (2 * i + 1 + 1)) (2 * i + 1 + 1) n h1
            (by rw [hSwap_expH_length]; exact hn)
          refine ⟨h2, h2perm.trans (hSwap_expH_perm s hilen hjlen), ?_⟩
          intro m hm
          rw [h2pres m hm]
          exact hSwap_getD_ne s (Nat.ne_of_lt (by omega)) (Nat.ne_of_lt (by omega))
      · rename_i hcnd
        have hjlen : 2 * i + 1 < s.expH.length := Nat.lt_of_lt_of_le hj1 hn
        split
        · exact ⟨h, List.Perm.refl _, fun m _ => rfl⟩
        · have h1 : HeapInv (hSwap s i (2 * i + 1)) := HeapInv_hSwap h hilen hjlen
          obtain ⟨h2, h2perm, h2pres⟩ := ih (hSwap s i (2 * i + 1)) (2 * i + 1) n h1
            (by rw [hSwap_expH_length]; exact hn)
          refine ⟨h2, h2perm.trans (hSwap_expH_perm s hilen hjlen), ?_⟩
          intro m hm
          rw [h2pres m hm]
          exact hSwap_getD_ne s (Nat.ne_of_lt (by omega)) (Nat.ne_of_lt (by omega))

end Rules

namespace Rules

theorem heapPush_spec {s : MemoryStore} {idx : Nat} (h : HeapInv s)
    (hb : idx < s.entries.length) (hfresh : idx ∉ s.expH) :
    HeapInv (heapPush s idx) ∧ (heapPush s idx).expH.Perm (idx :: s.expH) := by
  obtain ⟨hnd, hbound, hback⟩ := h
  unfold heapPush
  dsimp only
  set s2 : MemoryStore :=
    { s with entries := setHeapIdx s.entries idx s.expH.length, expH := s.expH ++ [idx] } with hs2
  have h2 : HeapInv s2 := by
    refine ⟨?_, ?_, ?_⟩
    · exact (List.perm_append_singleton idx s.expH).symm.nodup (List.nodup_cons.mpr ⟨hfresh, hnd⟩)
    · intro x hx
      rw [hs2]
      dsimp only
      rw [length_setHeapIdx]
      rcases List.mem_append.mp hx with h1 | h1
      · exact hbound x h1
      · rw [List.mem_singleton.mp h1]
        exact hb
    · intro k hk
      rw [hs2] at hk ⊢
      dsimp only at hk ⊢
      simp only [List.length_append, List.length_cons, List.length_nil] at hk
      by_cases hkn : k < s.expH.length
      · have hgk : (s.expH ++ [idx]).getD k 0 = s.expH.getD k 0 := by
          rw [List.getD_eq_getElem?_getD, List.getD_eq_getElem?_getD, List.getElem?_append,
            if_pos hkn]
        rw [hgk]
        have hne : idx ≠ s.expH.getD k 0 := by
          intro he
          exact hfresh (he ▸ getD_mem hkn)
        rw [entryAt_setHeapIdx_ne hne]
        exact hback k hkn
      · have hkeq : k = s.expH.length := by omega
        subst hkeq
        have hgk : (s.expH ++ [idx]).getD s.expH.length 0 = idx := by
          rw [List.getD_eq_getElem?_getD, List.getElem?_append, if_neg (by omega)]
          simp
        rw [hgk, entryAt_setHeapIdx_same hb]
  have hlen2 : s2.expH.length = s.expH.length + 1 := by
    rw [hs2]
    simp
  obtain ⟨h3, h3perm, _⟩ := siftUp_spec (s.expH.length + 1) s2 s.expH.length h2 (by omega)
  refine ⟨h3, h3perm.trans ?_⟩
  rw [hs2]
  exact List.perm_append_singleton idx s.expH

theorem popLast_spec {s : MemoryStore} (h : HeapInv s) (hne : s.expH ≠ []) :
    HeapInv (popLast s).1 ∧ ((popLast s).2 :: (popLast s).1.expH).Perm s.expH ∧
      (popLast s).2 = s.expH.getD (s.expH.length - 1) 0 := by
  obtain ⟨hnd, hbound, hback⟩ := h
  have hlpos : 0 < s.expH.length := List.length_pos.mpr hne
  have hlast : s.expH.length - 1 < s.expH.length := by omega
  unfold popLast
  dsimp only
  refine ⟨⟨?_, ?_, ?_⟩, ?_, rfl⟩
  · exact (List.dropLast_sublist s.expH).nodup hnd
  · intro x hx
    rw [length_setHeapIdx]
    exact hbound x ((List.dropLast_sublist s.expH).mem hx)
  · intro k hk
    rw [List.length_dropLast] at hk
    have hgk : s.expH.dropLast.getD k 0 = s.expH.getD k 0 := by
      rw [List.getD_eq_getElem?_getD, List.getD_eq_getElem?_getD, List.getElem?_dropLast,
        if_pos hk]
    rw [hgk]
    have hne2 : s.expH.getD (s.expH.length - 1) 0 ≠ s.expH.getD k 0 := by
      intro he
      have := getD_inj_of_nodup hnd hlast (by omega) he
      omega
    rw [entryAt_setHeapIdx_ne hne2]
    exact hback k (by omega)
  · have hsplit : s.expH.dropLast ++ [s.expH.getD (s.expH.length - 1) 0] = s.expH := by
      have := List.dropLast_append_getLast hne
      rw [List.getLast_eq_getElem s.expH hne] at this
      rw [List.getD_eq_getElem s.expH 0 hlast]
      exact this
    have h1 : (s.expH.getD (s.expH.length - 1) 0 :: s.expH.dropLast).Perm
        (s.expH.dropLast ++ [s.expH.getD (s.expH.length - 1) 0]) :=
      (List.perm_append_singleton _ _).symm
    rw [hsplit] at h1
    exact h1

end Rules

namespace Rules

theorem heapPop_spec {s : MemoryStore} (h : HeapInv s) (hne : s.expH ≠ []) :
    HeapInv (heapPop s).1 ∧ ((heapPop s).2 :: (heapPop s).1.expH).Perm s.expH ∧
      (heapPop s).2 = s.expH.getD 0 0 := by
  have hlpos : 0 < s.expH.length := List.length_pos.mpr hne
  have hnlen : s.expH.length - 1 < s.expH.length := by omega
  unfold heapPop
  dsimp only
  have h1 : HeapInv (hSwap s 0 (s.expH.length - 1)) := HeapInv_hSwap h hlpos hnlen
  have h1len : (hSwap s 0 (s.expH.length - 1)).expH.length = s.expH.length :=
    hSwap_expH_length s 0 (s.expH.length - 1)
  obtain ⟨h2, h2perm, h2pres⟩ := siftDown_spec (s.expH.length - 1)
    (hSwap s 0 (s.expH.length - 1)) 0 (s.expH.length - 1) h1 (by omega)
  have h2len : (siftDown (s.expH.length - 1) (hSwap s 0 (s.expH.length - 1)) 0
      (s.expH.length - 1)).1.expH.length = s.expH.length := by
    rw [h2perm.length_eq, h1len]
  have hposn : (siftDown (s.expH.length - 1) (hSwap s 0 (s.expH.length - 1)) 0
      (s.expH.length - 1)).1.expH.getD (s.expH.length - 1) 0 = s.expH.getD 0 0 := by
    rw [h2pres (s.expH.length - 1) (Nat.le_refl _), hSwap_getD_snd s hnlen]
  have hne2 : (siftDown (s.expH.length - 1) (hSwap s 0 (s.expH.length - 1)) 0
      (s.expH.length - 1)).1.expH ≠ [] := by
    intro hnil
    rw [hnil] at h2len
    simp at h2len
    omega
  obtain ⟨h3, h3perm, h3val⟩ := popLast_spec h2 hne2
  refine ⟨h3, ?_, ?_⟩
  · exact h3perm.trans (h2perm.trans (hSwap_expH_perm s hlpos hnlen))
  · rw [h3val, h2len, hposn]

theorem heapRemove_spec {s : MemoryStore} {k : Nat} (h : HeapInv s) (hk : k < s.expH.length) :
    HeapInv (heapRemove s k).1 ∧ ((heapRemove s k).2 :: (heapRemove s k).1.expH).Perm s.expH ∧
      (heapRemove s k).2 = s.expH.getD k 0 := by
  have hne : s.expH ≠ [] := by
    intro hnil
    rw [hnil] at hk
    cases hk
  unfold heapRemove
  dsimp only
  by_cases hkn : k = s.expH.length - 1
  · rw [if_pos hkn]
    obtain ⟨h3, h3perm, h3val⟩ := popLast_spec h hne
    exact ⟨h3, h3perm, by rw [h3val, hkn]⟩
  · rw [if_neg hkn]
    have hklt : k < s.expH.length - 1 := by omega
    have hnlen : s.expH.length - 1 < s.expH.length := by omega
    have h1 : HeapInv (hSwap s k (s.expH.length - 1)) := HeapInv_hSwap h hk hnlen
    have h1len : (hSwap s k (s.expH.length - 1)).expH.length = s.expH.length :=
      hSwap_expH_length s k (s.expH.length - 1)
    obtain ⟨h2, h2perm, h2pres⟩ := siftDown_spec (s.expH.length - 1)
      (hSwap s k (s.expH.length - 1)) k (s.expH.length - 1) h1 (by omega)
    have h2len : (siftDown (s.expH.length - 1) (hSwap s k (s.expH.length - 1)) k
        (s.expH.length - 1)).1.expH.length = s.expH.length := by
      rw [h2perm.length_eq, h1len]
    have hposn2 : (siftDown (s.expH.length - 1) (hSwap s k (s.expH.length - 1)) k
        (s.expH.length - 1)).1.expH.getD (s.expH.length - 1) 0 = s.expH.getD k 0 := by
      rw [h2pres (s.expH.length - 1) (Nat.le_refl _), hSwap_getD_snd s hnlen]
    split
    · obtain ⟨h4, h4perm, h4pres⟩ := siftUp_spec (k + 1)
        (siftDown (s.expH.length - 1) (hSwap s k (s.expH.length - 1)) k
          (s.expH.length - 1)).1 k h2 (by rw [h2len]; exact hk)
      have h4len : (siftUp (k + 1) (siftDown (s.expH.length - 1)
          (hSwap s k (s.expH.length - 1)) k (s.expH.length - 1)).1 k).expH.length =
          s.expH.length := by
        rw [h4perm.length_eq, h2len]
      have hne4 : (siftUp (k + 1) (siftDown (s.expH.length - 1)
          (hSwap s k (s.expH.length - 1)) k (s.expH.length - 1)).1 k).expH ≠ [] := by
        intro hnil
        rw [hnil] at h4len
        simp at h4len
        omega
      obtain ⟨h5, h5perm, h5val⟩ := popLast_spec h4 hne4
      refine ⟨h5, ?_, ?_⟩
      · exact h5perm.trans (h4perm.trans (h2perm.trans (hSwap_expH_perm s hk hnlen)))
      · rw [h5val, h4len, h4pres (s.expH.length - 1) (by omega), hposn2]
    · have hne3 : (siftDown (s.expH.length - 1) (hSwap s k (s.expH.length - 1)) k
          (s.expH.length - 1)).1.expH ≠ [] := by
        intro hnil
        rw [hnil] at h2len
        simp at h2len
        omega
      obtain ⟨h5, h5perm, h5val⟩ := popLast_spec h2 hne3
      refine ⟨h5, ?_, ?_⟩
      · exact h5perm.trans (h2perm.trans (hSwap_expH_perm s hk hnlen))
      · rw [h5val, h2len, hposn2]

theorem heapFix_spec {s : MemoryStore} {k : Nat} (h : HeapInv s) (hk : k < s.expH.length) :
    HeapInv (heapFix s k) ∧ (heapFix s k).expH.Perm s.expH := by
  unfold heapFix
  dsimp only
  obtain ⟨h2, h2perm, _⟩ := siftDown_spec s.expH.length s k s.expH.length h (Nat.le_refl _)
  split
  · obtain ⟨h3, h3perm, _⟩ := siftUp_spec (k + 1)
      (siftDown s.expH.length s k s.expH.length).1 k h2 (by rw [h2perm.length_eq]; exact hk)
    exact ⟨h3, h3perm.trans h2perm⟩
  · exact ⟨h2, h2perm⟩

end Rules

namespace Rules

/-- Index multiset of a map model. -/
def idxs (m : SMap) : List Nat := m.map Prod.snd

/-- Key list of a map model. -/
def keys (m : SMap) : List String := m.map Prod.fst

/-- Structural invariant of reachable stores for the uniqueness claims: keys
of both maps agree with the stored records, keys and referenced arena indices
are duplicate free, both maps reference the same index multiset, and the heap
holds exactly the non-permanent referenced records with correct back-indices. -/
structure Inv4 (s : MemoryStore) : Prop where
  idKey : ∀ p ∈ s.byID, p.2 < s.entries.length ∧ p.1 = (entryAt s.entries p.2).rule.ID
  domKey : ∀ p ∈ s.byDom,
    p.2 < s.entries.length ∧ p.1 = lowerStr (entryAt s.entries p.2).rule.Domain
  idKeysNodup : (keys s.byID).Nodup
  domKeysNodup : (keys s.byDom).Nodup
  idIdxNodup : (idxs s.byID).Nodup
  idxPerm : (idxs s.byID).Perm (idxs s.byDom)
  heapSub : ∀ i ∈ s.expH, i ∈ idxs s.byID ∧ (entryAt s.entries i).rule.Permanent = false
  heapComplete : ∀ p ∈ s.byID, (entryAt s.entries p.2).rule.Permanent = false → p.2 ∈ s.expH
  heapNodup : s.expH.Nodup
  backIdx : ∀ k, k < s.expH.length → (entryAt s.entries (s.expH.getD k 0)).heapIdx = (k : Int)

theorem Inv4.heapInv {s : MemoryStore} (h : Inv4 s) : HeapInv s := by
  refine ⟨h.heapNodup, ?_, h.backIdx⟩
  intro i hi
  obtain ⟨hmem, _⟩ := h.heapSub i hi
  obtain ⟨p, hp, hpe⟩ := List.mem_map.mp hmem
  rw [← hpe]
  exact (h.idKey p hp).1

theorem entryAt_set_same {es : List Entry} {i : Nat} (h : i < es.length) (e : Entry) :
    entryAt (es.set i e) i = e := by
  unfold entryAt
  rw [List.getD_eq_getElem?_getD, List.getElem?_set_eq h]
  rfl

theorem entryAt_set_ne {es : List Entry} {i b : Nat} (h : i ≠ b) (e : Entry) :
    entryAt (es.set i e) b = entryAt es b := by
  unfold entryAt
  simp only [List.getD_eq_getElem?_getD]
  rw [List.getElem?_set_ne h]

theorem mem_idxs {m : SMap} {i : Nat} : i ∈ idxs m ↔ ∃ p ∈ m, p.2 = i := by
  unfold idxs
  rw [List.mem_map]

theorem idxs_mapDel_sublist (m : SMap) (k : String) : (idxs (mapDel m k)).Sublist (idxs m) :=
  List.Sublist.map Prod.snd (List.filter_sublist m)

theorem keys_mapDel_sublist (m : SMap) (k : String) : (keys (mapDel m k)).Sublist (keys m) :=
  List.Sublist.map Prod.fst (List.filter_sublist m)

theorem idxs_perm_of_del {m : SMap} {k : String} {v : Nat}
    (hnd : (keys m).Nodup) (hmem : (k, v) ∈ m) : (idxs m).Perm (v :: idxs (mapDel m k)) := by
  have h1 := mapDel_perm hnd hmem
  have h2 := h1.map Prod.snd
  exact h2

theorem not_mem_idxs_mapDel {m : SMap} {k : String} {v : Nat}
    (hnd : (keys m).Nodup) (hidx : (idxs m).Nodup) (hmem : (k, v) ∈ m) :
    v ∉ idxs (mapDel m k) := by
  intro hv
  have h1 := idxs_perm_of_del hnd hmem
  have h2 : (idxs m).Nodup := hidx
  have h3 : (v :: idxs (mapDel m k)).Nodup := h1.nodup h2
  exact (List.nodup_cons.mp h3).1 hv

theorem mem_of_perm_cons_of_ne {x i : Nat} {rest old : List Nat}
    (hp : (i :: rest).Perm old) (hx : x ∈ old) (hne : x ≠ i) : x ∈ rest := by
  have := hp.symm.mem_iff.mp hx
  rcases List.mem_cons.mp this with h1 | h1
  · exact absurd h1 hne
  · exact h1

theorem heap_pos_of_mem {s : MemoryStore} (h : Inv4 s) {i : Nat} (hi : i ∈ s.expH) :
    (entryAt s.entries i).heapIdx.toNat < s.expH.length ∧
      s.expH.getD (entryAt s.entries i).heapIdx.toNat 0 = i := by
  obtain ⟨k, hk, hke⟩ := List.mem_iff_getElem.mp hi
  have hgd : s.expH.getD k 0 = i := by
    rw [List.getD_eq_getElem s.expH 0 hk]
    exact hke
  have hb := h.backIdx k hk
  rw [hgd] at hb
  rw [hb]
  simp only [Int.toNat_natCast]
  exact ⟨hk, hgd⟩

end Rules

namespace Rules

theorem entryAt_append_lt {es : List Entry} {l : List Entry} {i : Nat} (h : i < es.length) :
    entryAt (es ++ l) i = entryAt es i := by
  unfold entryAt
  simp only [List.getD_eq_getElem?_getD]
  rw [List.getElem?_append, if_pos h]

theorem entryAt_append_self {es : List Entry} {e : Entry} :
    entryAt (es ++ [e]) es.length = e := by
  unfold entryAt
  rw [List.getD_eq_getElem?_getD, List.getElem?_append, if_neg (by omega)]
  simp

theorem HeapInv_set_entry {s : MemoryStore} {i : Nat} {e : Entry} (h : HeapInv s)
    (he : e.heapIdx = (entryAt s.entries i).heapIdx) :
    HeapInv { s with entries := s.entries.set i e } := by
  obtain ⟨hnd, hbound, hback⟩ := h
  refine ⟨hnd, ?_, ?_⟩
  · intro x hx
    dsimp only
    rw [List.length_set]
    exact hbound x hx
  · intro k hk
    dsimp only at hk ⊢
    by_cases hil : i < s.entries.length
    · by_cases hgi : s.expH.getD k 0 = i
      · rw [hgi, entryAt_set_same hil, he, ← hgi]
        exact hback k hk
      · rw [entryAt_set_ne (fun hx => hgi hx.symm)]
        exact hback k hk
    · rw [List.set_eq_of_length_le (Nat.le_of_not_lt hil)]
      exact hback k hk

theorem Inv4_set_entry {s : MemoryStore} {i : Nat} {e : Entry} (h : Inv4 s)
    (hID : e.rule.ID = (entryAt s.entries i).rule.ID)
    (hDom : e.rule.Domain = (entryAt s.entries i).rule.Domain)
    (hPerm : e.rule.Permanent = (entryAt s.entries i).rule.Permanent)
    (hIdx : e.heapIdx = (entryAt s.entries i).heapIdx) :
    Inv4 { s with entries := s.entries.set i e } := by
  have hifield : ∀ j, ((entryAt (s.entries.set i e) j).rule.ID = (entryAt s.entries j).rule.ID ∧
      (entryAt (s.entries.set i e) j).rule.Domain = (entryAt s.entries j).rule.Domain ∧
      (entryAt (s.entries.set i e) j).rule.Permanent = (entryAt s.entries j).rule.Permanent) := by
    intro j
    by_cases hil : i < s.entries.length
    · by_cases hij : j = i
      · subst hij
        rw [entryAt_set_same hil]
        exact ⟨hID, hDom, hPerm⟩
      · rw [entryAt_set_ne (fun hx => hij hx.symm)]
        exact ⟨rfl, rfl, rfl⟩
    · rw [List.set_eq_of_length_le (Nat.le_of_not_lt hil)]
      exact ⟨rfl, rfl, rfl⟩
  have hheap := HeapInv_set_entry h.heapInv hIdx
  refine ⟨?_, ?_, h.idKeysNodup, h.domKeysNodup, h.idIdxNodup, h.idxPerm, ?_, ?_,
    h.heapNodup, hheap.2.2⟩
  · intro p hp
    refine ⟨by dsimp only; rw [List.length_set]; exact (h.idKey p hp).1, ?_⟩
    rw [(hifield p.2).1]
    exact (h.idKey p hp).2
  · intro p hp
    refine ⟨by dsimp only; rw [List.length_set]; exact (h.domKey p hp).1, ?_⟩
    rw [(hifield p.2).2.1]
    exact (h.domKey p hp).2
  · intro x hx
    refine ⟨(h.heapSub x hx).1, ?_⟩
    rw [(hifield x).2.2]
    exact (h.heapSub x hx).2
  · intro p hp hperm
    rw [(hifield p.2).2.2] at hperm
    exact h.heapComplete p hp hperm

theorem Inv4_unlink {s s2 : MemoryStore} (i : Nat) (h : Inv4 s)
    (hpID : ((entryAt s.entries i).rule.ID, i) ∈ s.byID)
    (hmapID : s2.byID = mapDel s.byID (entryAt s.entries i).rule.ID)
    (hmapDom : s2.byDom = mapDel s.byDom (lowerStr (entryAt s.entries i).rule.Domain))
    (hrules : ∀ j, (entryAt s2.entries j).rule = (entryAt s.entries j).rule)
    (hlen : s2.entries.length = s.entries.length)
    (hhi : HeapInv s2)
    (hmem : ∀ x, x ∈ s2.expH ↔ x ∈ s.expH ∧ x ≠ i) : Inv4 s2 := by
  have hpDom : (lowerStr (entryAt s.entries i).rule.Domain, i) ∈ s.byDom := by
    have hIdm : i ∈ idxs s.byID := mem_idxs.mpr ⟨_, hpID, rfl⟩
    have hDm : i ∈ idxs s.byDom := h.idxPerm.mem_iff.mp hIdm
    obtain ⟨q, hq, hqe⟩ := mem_idxs.mp hDm
    have hkey := (h.domKey q hq).2
    rw [hqe] at hkey
    have hqeq : q = (lowerStr (entryAt s.entries i).rule.Domain, i) := by
      have h1 : q.1 = lowerStr (entryAt s.entries i).rule.Domain := hkey
      have h2 : q.2 = i := hqe
      obtain ⟨q1, q2⟩ := q
      simp only at h1 h2
      rw [h1, h2]
    rw [← hqeq]
    exact hq
  have hpermID : (idxs s.byID).Perm (i :: idxs (mapDel s.byID (entryAt s.entries i).rule.ID)) :=
    idxs_perm_of_del h.idKeysNodup hpID
  have hpermDom : (idxs s.byDom).Perm
      (i :: idxs (mapDel s.byDom (lowerStr (entryAt s.entries i).rule.Domain))) :=
    idxs_perm_of_del h.domKeysNodup hpDom
  have hinotID : i ∉ idxs s2.byID := by
    rw [hmapID]
    exact not_mem_idxs_mapDel h.idKeysNodup h.idIdxNodup hpID
  refine ⟨?_, ?_, ?_, ?_, ?_, ?_, ?_, ?_, hhi.1, hhi.2.2⟩
  · intro p hp
    rw [hmapID] at hp
    have hp2 := mem_mapDel hp
    refine ⟨by rw [hlen]; exact (h.idKey p hp2).1, ?_⟩
    rw [hrules p.2]
    exact (h.idKey p hp2).2
  · intro p hp
    rw [hmapDom] at hp
    have hp2 := mem_mapDel hp
    refine ⟨by rw [hlen]; exact (h.domKey p hp2).1, ?_⟩
    rw [hrules p.2]
    exact (h.domKey p hp2).2
  · rw [hmapID]
    exact (keys_mapDel_sublist _ _).nodup h.idKeysNodup
  · rw [hmapDom]
    exact (keys_mapDel_sublist _ _).nodup h.domKeysNodup
  · rw [hmapID]
    exact (idxs_mapDel_sublist _ _).nodup h.idIdxNodup
  · rw [hmapID, hmapDom]
    have h1 := hpermID.symm.trans (h.idxPerm.trans hpermDom)
    exact h1.cons_inv
  · intro x hx
    obtain ⟨hxo, hxi⟩ := (hmem x).mp hx
    obtain ⟨hxid, hxperm⟩ := h.heapSub x hxo
    refine ⟨?_, by rw [hrules x]; exact hxperm⟩
    rw [hmapID]
    exact mem_of_perm_cons_of_ne hpermID.symm hxid hxi
  · intro p hp hperm
    rw [hmapID] at hp
    have hp2 := mem_mapDel hp
    rw [hrules p.2] at hperm
    have hmemold := h.heapComplete p hp2 hperm
    have hpne : p.2 ≠ i := by
      intro he
      apply hinotID
      rw [← he]
      rw [hmapID]
      exact mem_idxs.mpr ⟨p, hp, rfl⟩
    exact (hmem p.2).mpr ⟨hmemold, hpne⟩

theorem Inv4_upgrade_like {s s2 : MemoryStore} (i : Nat) (h : Inv4 s)
    (hID : s2.byID = s.byID) (hDom : s2.byDom = s.byDom)
    (hlen : s2.entries.length = s.entries.length)
    (hrule_ne : ∀ j, j ≠ i → (entryAt s2.entries j).rule = (entryAt s.entries j).rule)
    (hID_i : (entryAt s2.entries i).rule.ID = (entryAt s.entries i).rule.ID)
    (hDom_i : (entryAt s2.entries i).rule.Domain = (entryAt s.entries i).rule.Domain)
    (hPerm_i : (entryAt s2.entries i).rule.Permanent = true)
    (hhi : HeapInv s2)
    (hmem : ∀ x, x ∈ s2.expH ↔ x ∈ s.expH ∧ x ≠ i) : Inv4 s2 := by
  have hfield : ∀ j, ((entryAt s2.entries j).rule.ID = (entryAt s.entries j).rule.ID ∧
      (entryAt s2.entries j).rule.Domain = (entryAt s.entries j).rule.Domain) := by
    intro j
    by_cases hij : j = i
    · subst hij
      exact ⟨hID_i, hDom_i⟩
    · rw [hrule_ne j hij]
      exact ⟨rfl, rfl⟩
  refine ⟨?_, ?_, ?_, ?_, ?_, ?_, ?_, ?_, hhi.1, hhi.2.2⟩
  · intro p hp
    rw [hID] at hp
    refine ⟨by rw [hlen]; exact (h.idKey p hp).1, ?_⟩
    rw [(hfield p.2).1]
    exact (h.idKey p hp).2
  · intro p hp
    rw [hDom] at hp
    refine ⟨by rw [hlen]; exact (h.domKey p hp).1, ?_⟩
    rw [(hfield p.2).2]
    exact (h.domKey p hp).2
  · rw [hID]; exact h.idKeysNodup
  · rw [hDom]; exact h.domKeysNodup
  · rw [hID]; exact h.idIdxNodup
  · rw [hID, hDom]; exact h.idxPerm
  · intro x hx
    obtain ⟨hxo, hxi⟩ := (hmem x).mp hx
    obtain ⟨hxid, hxperm⟩ := h.heapSub x hxo
    refine ⟨by rw [hID]; exact hxid, ?_⟩
    rw [hrule_ne x hxi]
    exact hxperm
  · intro p hp hperm
    rw [hID] at hp
    by_cases hpi : p.2 = i
    · rw [hpi, hPerm_i] at hperm
      cases hperm
    · rw [hrule_ne p.2 hpi] at hperm
      exact (hmem p.2).mpr ⟨h.heapComplete p hp hperm, hpi⟩

end Rules

namespace Rules

theorem Inv4_of_frames_perm {s2 s : MemoryStore} (h : Inv4 s) (hf : framesStore s2 s)
    (hperm : s2.expH.Perm s.expH) (hhi : HeapInv s2) : Inv4 s2 := by
  have hlen := entries_length_of_framesStore hf
  refine ⟨?_, ?_, ?_, ?_, ?_, ?_, ?_, ?_, hhi.1, hhi.2.2⟩
  · intro p hp
    rw [hf.1] at hp
    refine ⟨by rw [hlen]; exact (h.idKey p hp).1, ?_⟩
    rw [ruleAt_eq_of_framesStore hf]
    exact (h.idKey p hp).2
  · intro p hp
    rw [hf.2.1] at hp
    refine ⟨by rw [hlen]; exact (h.domKey p hp).1, ?_⟩
    rw [ruleAt_eq_of_framesStore hf]
    exact (h.domKey p hp).2
  · rw [hf.1]; exact h.idKeysNodup
  · rw [hf.2.1]; exact h.domKeysNodup
  · rw [hf.1]; exact h.idIdxNodup
  · rw [hf.1, hf.2.1]; exact h.idxPerm
  · intro x hx
    have hxo := hperm.mem_iff.mp hx
    obtain ⟨hxid, hxperm⟩ := h.heapSub x hxo
    refine ⟨by rw [hf.1]; exact hxid, ?_⟩
    rw [ruleAt_eq_of_framesStore hf]
    exact hxperm
  · intro p hp hperm2
    rw [hf.1] at hp
    rw [ruleAt_eq_of_framesStore hf] at hperm2
    exact hperm.symm.mem_iff.mp (h.heapComplete p hp hperm2)

theorem mem_heap_after_pop {i : Nat} {rest old : List Nat}
    (hperm : (i :: rest).Perm old) (hnd : old.Nodup) :
    ∀ x, x ∈ rest ↔ x ∈ old ∧ x ≠ i := by
  have hndc : (i :: rest).Nodup := hperm.symm.nodup hnd
  intro x
  constructor
  · intro hx
    refine ⟨hperm.mem_iff.mp (List.mem_cons_of_mem i hx), ?_⟩
    intro he
    subst he
    exact (List.nodup_cons.mp hndc).1 hx
  · rintro ⟨hxo, hxi⟩
    exact mem_of_perm_cons_of_ne hperm hxo hxi

/-- Per-upsert side condition of the amended C4 claim: on an insert of a new
domain, the id of the upserted rule is not already a key of the store. -/
def upsertIdFresh (s : MemoryStore) (r : Rule) : Prop :=
  mapGet s.byDom (lowerStr r.Domain) = none → mapGet s.byID r.ID = none

instance (s : MemoryStore) (r : Rule) : Decidable (upsertIdFresh s r) := by
  unfold upsertIdFresh
  infer_instance

theorem Inv4_upsert {s : MemoryStore} {r : Rule} (h : Inv4 s) (hfresh : upsertIdFresh s r) :
    Inv4 (Upsert s r).1 := by
  unfold Upsert
  dsimp only
  cases hdom : mapGet s.byDom (lowerStr r.Domain) with
  | some i =>
    have hpair : (lowerStr r.Domain, i) ∈ s.byDom := mapGet_mem hdom
    have hib : i < s.entries.length := (h.domKey _ hpair).1
    dsimp only
    split
    · rename_i hcond
      have hIdm : i ∈ idxs s.byID := h.idxPerm.symm.mem_iff.mp (mem_idxs.mpr ⟨_, hpair, rfl⟩)
      obtain ⟨p, hp, hpe⟩ := mem_idxs.mp hIdm
      have himem : i ∈ s.expH := by
        have hc := h.heapComplete p hp
        rw [hpe] at hc
        exact hc hcond.1
      obtain ⟨hklen, hkval⟩ := heap_pos_of_mem h himem
      set sB : MemoryStore := { s with entries := s.entries.set i { entryAt s.entries i with rule := { (entryAt s.entries i).rule with Permanent := true, Expires := 0 } } } with hsB
      have hB : HeapInv sB := HeapInv_set_entry h.heapInv rfl
      obtain ⟨hR, hRperm, hRval⟩ := heapRemove_spec hB hklen
      have hRvali : (heapRemove sB (entryAt s.entries i).heapIdx.toNat).2 = i := by
        rw [hRval]
        exact hkval
      rw [hRvali] at hRperm
      have hfr := framesStore_heapRemove sB (entryAt s.entries i).heapIdx.toNat
      refine Inv4_upgrade_like i h ?_ ?_ ?_ ?_ ?_ ?_ ?_ hR ?_
      · rw [hfr.1]
      · rw [hfr.2.1]
      · rw [entries_length_of_framesStore hfr]
        dsimp only
        rw [List.length_set]
      · intro j hj
        rw [ruleAt_eq_of_framesStore hfr]
        dsimp only
        rw [entryAt_set_ne (fun hx => hj hx.symm)]
      · rw [ruleAt_eq_of_framesStore hfr]
        dsimp only
        rw [entryAt_set_same hib]
      · rw [ruleAt_eq_of_framesStore hfr]
        dsimp only
        rw [entryAt_set_same hib]
      · rw [ruleAt_eq_of_framesStore hfr]
        dsimp only
        rw [entryAt_set_same hib]
      · exact mem_heap_after_pop hRperm h.heapNodup
    · exact Inv4_set_entry h rfl rfl rfl rfl
  | none =>
    have hid := hfresh hdom
    dsimp only
    set sI : MemoryStore := { s with entries := s.entries ++ [({ rule := r, heapIdx := 0 } : Entry)], byID := mapSet s.byID r.ID s.entries.length, byDom := mapSet s.byDom (lowerStr r.Domain) s.entries.length } with hsI
    have hIDapp : sI.byID = s.byID ++ [(r.ID, s.entries.length)] := by
      rw [hsI]
      exact mapSet_of_get_none _ hid
    have hDomapp : sI.byDom = s.byDom ++ [(lowerStr r.Domain, s.entries.length)] := by
      rw [hsI]
      exact mapSet_of_get_none _ hdom
    have hEnt : sI.entries = s.entries ++ [({ rule := r, heapIdx := 0 } : Entry)] := by rw [hsI]
    have hHeapI : sI.expH = s.expH := by rw [hsI]
    have hLenI : sI.entries.length = s.entries.length + 1 := by
      rw [hEnt]
      simp
    have hidxbound : ∀ x ∈ idxs s.byID, x < s.entries.length := by
      intro x hx
      obtain ⟨p, hp, hpe⟩ := mem_idxs.mp hx
      rw [← hpe]
      exact (h.idKey p hp).1
    have hheapbound : ∀ x ∈ s.expH, x < s.entries.length := by
      intro x hx
      exact hidxbound x (h.heapSub x hx).1
    have hruleAt_lt : ∀ j, j < s.entries.length → entryAt sI.entries j = entryAt s.entries j := by
      intro j hj
      rw [hEnt, entryAt_append_lt hj]
    have hruleAt_new : entryAt sI.entries s.entries.length = { rule := r, heapIdx := 0 } := by
      rw [hEnt, entryAt_append_self]
    have hidKeyB : ∀ p ∈ sI.byID, p.2 < sI.entries.length ∧ p.1 = (entryAt sI.entries p.2).rule.ID := by
      intro p hp
      rw [hIDapp] at hp
      rcases List.mem_append.mp hp with h1 | h1
      · have hb := (h.idKey p h1).1
        refine ⟨by omega, ?_⟩
        rw [hruleAt_lt p.2 hb]
        exact (h.idKey p h1).2
      · rw [List.mem_singleton.mp h1]
        refine ⟨by omega, ?_⟩
        dsimp only
        rw [hruleAt_new]
    have hdomKeyB : ∀ p ∈ sI.byDom, p.2 < sI.entries.length ∧ p.1 = lowerStr (entryAt sI.entries p.2).rule.Domain := by
      intro p hp
      rw [hDomapp] at hp
      rcases List.mem_append.mp hp with h1 | h1
      · have hb := (h.domKey p h1).1
        refine ⟨by omega, ?_⟩
        rw [hruleAt_lt p.2 hb]
        exact (h.domKey p h1).2
      · rw [List.mem_singleton.mp h1]
        refine ⟨by omega, ?_⟩
        dsimp only
        rw [hruleAt_new]
    have hkeysIDB : (keys sI.byID).Nodup := by
      rw [hIDapp]
      unfold keys
      rw [List.map_append]
      refine (List.perm_append_singleton _ _).symm.nodup (List.nodup_cons.mpr ⟨?_, h.idKeysNodup⟩)
      exact mapGet_eq_none_iff.mp hid
    have hkeysDomB : (keys sI.byDom).Nodup := by
      rw [hDomapp]
      unfold keys
      rw [List.map_append]
      refine (List.perm_append_singleton _ _).symm.nodup (List.nodup_cons.mpr ⟨?_, h.domKeysNodup⟩)
      exact mapGet_eq_none_iff.mp hdom
    have hidxIDB : (idxs sI.byID).Nodup := by
      rw [hIDapp]
      unfold idxs
      rw [List.map_append]
      refine (List.perm_append_singleton _ _).symm.nodup (List.nodup_cons.mpr ⟨?_, h.idIdxNodup⟩)
      intro hmem
      exact Nat.lt_irrefl _ (hidxbound _ hmem)
    have hidxPermB : (idxs sI.byID).Perm (idxs sI.byDom) := by
      rw [hIDapp, hDomapp]
      unfold idxs
      rw [List.map_append, List.map_append]
      exact h.idxPerm.append_right _
    have hnewmem : s.entries.length ∈ idxs sI.byID := by
      rw [hIDapp]
      unfold idxs
      rw [List.map_append]
      exact List.mem_append.mpr (Or.inr (by simp))
    have holdmem : ∀ x ∈ idxs s.byID, x ∈ idxs sI.byID := by
      intro x hx
      rw [hIDapp]
      unfold idxs at hx ⊢
      rw [List.map_append]
      exact List.mem_append.mpr (Or.inl hx)
    have hBheap : HeapInv sI := by
      refine ⟨by rw [hHeapI]; exact h.heapNodup, ?_, ?_⟩
      · intro x hx
        rw [hHeapI] at hx
        have := hheapbound x hx
        omega
      · intro k hk
        rw [hHeapI] at hk ⊢
        rw [hruleAt_lt _ (hheapbound _ (getD_mem hk))]
        exact h.backIdx k hk
    split
    · rename_i hrperm
      have hidxlt : s.entries.length < sI.entries.length := by omega
      have hidxfresh : s.entries.length ∉ sI.expH := by
        rw [hHeapI]
        intro hmem
        exact Nat.lt_irrefl _ (hheapbound _ hmem)
      obtain ⟨hP, hPperm⟩ := heapPush_spec hBheap hidxlt hidxfresh
      have hfr := framesStore_heapPush sI s.entries.length
      have hlenP : (heapPush sI s.entries.length).entries.length = sI.entries.length :=
        entries_length_of_framesStore hfr
      rw [hHeapI] at hPperm
      refine ⟨?_, ?_, ?_, ?_, ?_, ?_, ?_, ?_, hP.1, hP.2.2⟩
      · intro p hp
        rw [hfr.1] at hp
        refine ⟨by rw [hlenP]; exact (hidKeyB p hp).1, ?_⟩
        rw [ruleAt_eq_of_framesStore hfr]
        exact (hidKeyB p hp).2
      · intro p hp
        rw [hfr.2.1] at hp
        refine ⟨by rw [hlenP]; exact (hdomKeyB p hp).1, ?_⟩
        rw [ruleAt_eq_of_framesStore hfr]
        exact (hdomKeyB p hp).2
      · rw [hfr.1]
        exact hkeysIDB
      · rw [hfr.2.1]
        exact hkeysDomB
      · rw [hfr.1]
        exact hidxIDB
      · rw [hfr.1, hfr.2.1]
        exact hidxPermB
      · intro x hx
        have hxm : x ∈ s.entries.length :: s.expH := hPperm.mem_iff.mp hx
        rw [hfr.1]
        rcases List.mem_cons.mp hxm with h1 | h1
        · subst h1
          refine ⟨hnewmem, ?_⟩
          rw [ruleAt_eq_of_framesStore hfr, hruleAt_new]
          exact hrperm
        · obtain ⟨hxid, hxperm⟩ := h.heapSub x h1
          refine ⟨holdmem x hxid, ?_⟩
          rw [ruleAt_eq_of_framesStore hfr, hruleAt_lt x (hidxbound x hxid)]
          exact hxperm
      · intro p hp hperm2
        rw [hfr.1, hIDapp] at hp
        rw [ruleAt_eq_of_framesStore hfr] at hperm2
        refine hPperm.symm.mem_iff.mp ?_
        rcases List.mem_append.mp hp with h1 | h1
        · rw [hruleAt_lt p.2 (h.idKey p h1).1] at hperm2
          exact List.mem_cons_of_mem _ (h.heapComplete p h1 hperm2)
        · rw [List.mem_singleton.mp h1]
          exact List.mem_cons_self _ _
    · rename_i hrperm
      refine ⟨hidKeyB, hdomKeyB, hkeysIDB, hkeysDomB, hidxIDB, hidxPermB, ?_, ?_,
        by rw [hHeapI]; exact h.heapNodup, hBheap.2.2⟩
      · intro x hx
        rw [hHeapI] at hx
        obtain ⟨hxid, hxperm⟩ := h.heapSub x hx
        refine ⟨holdmem x hxid, ?_⟩
        rw [hruleAt_lt x (hidxbound x hxid)]
        exact hxperm
      · intro p hp hperm2
        rw [hIDapp] at hp
        rw [hHeapI]
        rcases List.mem_append.mp hp with h1 | h1
        · rw [hruleAt_lt p.2 (h.idKey p h1).1] at hperm2
          exact h.heapComplete p h1 hperm2
        · rw [List.mem_singleton.mp h1] at hperm2
          dsimp only at hperm2
          rw [hruleAt_new] at hperm2
          have hrp : r.Permanent = true := by
            revert hrperm
            cases r.Permanent <;> simp
          rw [hrp] at hperm2
          cases hperm2

end Rules

namespace Rules

theorem Inv4_updateResolvedAt {s : MemoryStore} {id : String} {ts : Nat} (h : Inv4 s) :
    Inv4 (UpdateResolvedAt s id ts).1 := by
  unfold UpdateResolvedAt
  cases hid : mapGet s.byID id with
  | none => exact h
  | some i =>
    dsimp only
    have hpair : (id, i) ∈ s.byID := mapGet_mem hid
    have hib : i < s.entries.length := (h.idKey _ hpair).1
    set e2 : Entry := { entryAt s.entries i with rule := { (entryAt s.entries i).rule with ResolvedAt := ts } } with he2
    set s2 : MemoryStore := { s with entries := s.entries.set i e2 } with hs2
    have h2 : Inv4 s2 := Inv4_set_entry h rfl rfl rfl rfl
    have h3 : Inv4 (if (entryAt s.entries i).rule.Permanent = false
        then heapFix s2 (entryAt s.entries i).heapIdx.toNat else s2) := by
      split
      · rename_i hperm
        have himem : i ∈ s.expH := h.heapComplete _ hpair hperm
        obtain ⟨hklen, hkval⟩ := heap_pos_of_mem h himem
        have hk2 : (entryAt s.entries i).heapIdx.toNat < s2.expH.length := hklen
        obtain ⟨hF, hFperm⟩ := heapFix_spec h2.heapInv hk2
        exact Inv4_of_frames_perm h2 (framesStore_heapFix s2 _) hFperm hF
      · exact h2
    set s3 := if (entryAt s.entries i).rule.Permanent = false
      then heapFix s2 (entryAt s.entries i).heapIdx.toNat else s2 with hs3
    cases hdom2 : mapGet s3.byDom (entryAt s.entries i).rule.Domain with
    | none => exact h3
    | some j =>
      dsimp only
      exact Inv4_set_entry h3 rfl rfl rfl rfl

theorem Inv4_remove {s : MemoryStore} {id : String} (h : Inv4 s) : Inv4 (Remove s id).1 := by
  unfold Remove
  cases hid : mapGet s.byID id with
  | none => exact h
  | some i =>
    dsimp only
    have hpair : (id, i) ∈ s.byID := mapGet_mem hid
    have hib : i < s.entries.length := (h.idKey _ hpair).1
    have hkey : id = (entryAt s.entries i).rule.ID := (h.idKey _ hpair).2
    have hpID : ((entryAt s.entries i).rule.ID, i) ∈ s.byID := by
      rw [← hkey]
      exact hpair
    have hhi2 : HeapInv { s with byID := mapDel s.byID (entryAt s.entries i).rule.ID, byDom := mapDel s.byDom (lowerStr (entryAt s.entries i).rule.Domain) } := h.heapInv
    split
    · rename_i hperm
      have himem : i ∈ s.expH := h.heapComplete _ hpair hperm
      obtain ⟨hklen, hkval⟩ := heap_pos_of_mem h himem
      have hk2 : (entryAt s.entries i).heapIdx.toNat < ({ s with byID := mapDel s.byID (entryAt s.entries i).rule.ID, byDom := mapDel s.byDom (lowerStr (entryAt s.entries i).rule.Domain) } : MemoryStore).expH.length := hklen
      obtain ⟨hR, hRperm, hRval⟩ := heapRemove_spec hhi2 hk2
      have hRvali : (heapRemove { s with byID := mapDel s.byID (entryAt s.entries i).rule.ID, byDom := mapDel s.byDom (lowerStr (entryAt s.entries i).rule.Domain) } (entryAt s.entries i).heapIdx.toNat).2 = i := by
        rw [hRval]
        exact hkval
      rw [hRvali] at hRperm
      have hfr := framesStore_heapRemove { s with byID := mapDel s.byID (entryAt s.entries i).rule.ID, byDom := mapDel s.byDom (lowerStr (entryAt s.entries i).rule.Domain) } (entryAt s.entries i).heapIdx.toNat
      refine Inv4_unlink i h hpID ?_ ?_ ?_ ?_ hR ?_
      · rw [hfr.1]
      · rw [hfr.2.1]
      · intro j
        exact ruleAt_eq_of_framesStore hfr j
      · exact (entries_length_of_framesStore hfr).trans rfl
      · exact mem_heap_after_pop hRperm h.heapNodup
    · rename_i hperm
      have hinotheap : i ∉ s.expH := by
        intro hmem
        exact hperm (h.heapSub i hmem).2
      refine Inv4_unlink i h hpID rfl rfl (fun j => rfl) rfl hhi2 ?_
      intro x
      constructor
      · intro hx
        refine ⟨hx, ?_⟩
        intro he
        subst he
        exact hinotheap hx
      · intro hx
        exact hx.1

theorem Inv4_expireLoop (fuel : Nat) : ∀ (s : MemoryStore) (now : Nat) (acc : List Rule),
    Inv4 s → Inv4 (expireLoop fuel s now acc).1 := by
  induction fuel with
  | zero => intro s now acc h; exact h
  | succ fuel ih =>
    intro s now acc h
    unfold expireLoop
    cases hheap : s.expH with
    | nil => exact h
    | cons rootIdx t =>
      dsimp only
      split
      · exact h
      · have hne : s.expH ≠ [] := by
          rw [hheap]
          exact List.cons_ne_nil _ _
        have hroot : s.expH.getD 0 0 = rootIdx := by
          rw [hheap]
          rfl
        have hrootmem : rootIdx ∈ s.expH := by
          rw [hheap]
          exact List.mem_cons_self _ _
        obtain ⟨hP, hPperm, hPval⟩ := heapPop_spec h.heapInv hne
        rw [hroot] at hPval
        rw [hPval] at hPperm
        have hfr := framesStore_heapPop s
        have hrule : (entryAt (heapPop s).1.entries (heapPop s).2).rule =
            (entryAt s.entries rootIdx).rule := by
          rw [hPval]
          exact ruleAt_eq_of_framesStore hfr rootIdx
        refine ih _ now _ ?_
        obtain ⟨hrid, hrperm⟩ := h.heapSub rootIdx hrootmem
        obtain ⟨p, hp, hpe⟩ := mem_idxs.mp hrid
        have hpID : ((entryAt s.entries rootIdx).rule.ID, rootIdx) ∈ s.byID := by
          have hkey := (h.idKey p hp).2
          rw [hpe] at hkey
          have hpeq : p = ((entryAt s.entries rootIdx).rule.ID, rootIdx) := by
            obtain ⟨p1, p2⟩ := p
            simp only at hkey hpe
            rw [hkey, hpe]
          rw [← hpeq]
          exact hp
        refine Inv4_unlink rootIdx h hpID ?_ ?_ ?_ ?_ hP ?_
        · dsimp only
          rw [hfr.1, hrule]
        · dsimp only
          rw [hfr.2.1, hrule]
        · intro j
          exact ruleAt_eq_of_framesStore hfr j
        · show (heapPop s).1.entries.length = s.entries.length
          exact entries_length_of_framesStore hfr
        · exact mem_heap_after_pop hPperm h.heapNodup

theorem Inv4_applyOp {s : MemoryStore} {op : Op} (h : Inv4 s)
    (hok : match op with | .upsert r => upsertIdFresh s r | _ => True) :
    Inv4 (applyOp s op) := by
  cases op with
  | upsert r => exact Inv4_upsert h hok
  | updateResolvedAt id ts => exact Inv4_updateResolvedAt h
  | remove id => exact Inv4_remove h
  | expireNow now => exact Inv4_expireLoop _ _ _ _ h

/-- The C4 side condition along a run: every upsert that inserts a new domain
carries an id that is not yet a key of the store. -/
def OpsOkUniq : MemoryStore → List Op → Prop
  | _, [] => True
  | s, op :: rest =>
    (match op with
      | .upsert r => upsertIdFresh s r
      | _ => True) ∧ OpsOkUniq (applyOp s op) rest

instance OpsOkUniq.dec : (s : MemoryStore) → (ops : List Op) → Decidable (OpsOkUniq s ops)
  | _, [] => isTrue trivial
  | s, .upsert r :: rest =>
    haveI d1 : Decidable (OpsOkUniq (applyOp s (.upsert r)) rest) := OpsOkUniq.dec _ rest
    decidable_of_iff (upsertIdFresh s r ∧ OpsOkUniq (applyOp s (.upsert r)) rest) Iff.rfl
  | s, .updateResolvedAt id ts :: rest =>
    haveI d1 : Decidable (OpsOkUniq (applyOp s (.updateResolvedAt id ts)) rest) := OpsOkUniq.dec _ rest
    decidable_of_iff (True ∧ OpsOkUniq (applyOp s (.updateResolvedAt id ts)) rest) Iff.rfl
  | s, .remove id :: rest =>
    haveI d1 : Decidable (OpsOkUniq (applyOp s (.remove id)) rest) := OpsOkUniq.dec _ rest
    decidable_of_iff (True ∧ OpsOkUniq (applyOp s (.remove id)) rest) Iff.rfl
  | s, .expireNow now :: rest =>
    haveI d1 : Decidable (OpsOkUniq (applyOp s (.expireNow now)) rest) := OpsOkUniq.dec _ rest
    decidable_of_iff (True ∧ OpsOkUniq (applyOp s (.expireNow now)) rest) Iff.rfl

theorem Inv4_NewStore : Inv4 NewStore := by
  constructor
  · intro p hp
    cases hp
  · intro p hp
    cases hp
  · exact List.nodup_nil
  · exact List.nodup_nil
  · exact List.nodup_nil
  · exact List.Perm.refl _
  · intro i hi
    cases hi
  · intro p hp
    cases hp
  · exact List.nodup_nil
  · intro k hk
    exact absurd hk (Nat.not_lt_zero k)

theorem Inv4_foldl : ∀ (ops : List Op) (s : MemoryStore), Inv4 s → OpsOkUniq s ops →
    Inv4 (ops.foldl applyOp s) := by
  intro ops
  induction ops with
  | nil => intro s h _; exact h
  | cons op rest ih =>
    intro s h hok
    exact ih _ (Inv4_applyOp h hok.1) hok.2

end Rules

namespace Rules

theorem key_unique : ∀ (m : SMap), (keys m).Nodup →
    ∀ {p q : String × Nat}, p ∈ m → q ∈ m → p.1 = q.1 → p = q := by
  intro m
  induction m with
  | nil =>
    intro _ p q hp _ _
    cases hp
  | cons x t ih =>
    intro hnd p q hp hq hk
    have hnd2 : x.1 ∉ List.map Prod.fst t ∧ (List.map Prod.fst t).Nodup := by
      simpa [keys] using hnd
    rcases List.mem_cons.mp hp with h1 | h1 <;> rcases List.mem_cons.mp hq with h2 | h2
    · rw [h1, h2]
    · exfalso
      apply hnd2.1
      rw [← h1, hk]
      exact List.mem_map_of_mem Prod.fst h2
    · exfalso
      apply hnd2.1
      rw [← h2, ← hk]
      exact List.mem_map_of_mem Prod.fst h1
    · exact ih hnd2.2 h1 h2 hk

theorem lowerChar_idem (c : Char) : lowerChar (lowerChar c) = lowerChar c := by
  by_cases h : 65 ≤ c.toNat ∧ c.toNat ≤ 90
  · have h1 : lowerChar c = Char.ofNat (c.toNat + 32) := by
      unfold lowerChar
      rw [if_pos h]
    have hval : (Char.ofNat (c.toNat + 32)).toNat = c.toNat + 32 := by
      unfold Char.ofNat
      rw [dif_pos (Or.inl (by omega))]
      rfl
    rw [h1]
    unfold lowerChar
    rw [if_neg (by rw [hval]; omega)]
  · have h1 : lowerChar c = c := by
      unfold lowerChar
      rw [if_neg h]
    rw [h1, h1]

theorem lowerStr_idem (s : String) : lowerStr (lowerStr s) = lowerStr s := by
  unfold lowerStr
  apply congrArg String.mk
  rw [List.map_map]
  exact List.map_congr_left (fun c _ => lowerChar_idem c)

theorem lowerStr_fix {x y : String} (h : x = lowerStr y) : lowerStr x = x := by
  rw [h, lowerStr_idem]

end Rules

/-- C4 amended: after every finite sequence of operations from the empty
store in which every upsert that inserts a new domain carries an id that is
not already a key of the id map, the id map and the domain map have the same
size and reference the same multiset of rule records. Without the
fresh-id restriction the statement is false, as the C4 counterexample shows. -/
theorem maps_agree_of_fresh_ids (ops : List Rules.Op)
    (h : Rules.OpsOkUniq Rules.NewStore ops) :
    (Rules.runOps ops).byID.length = (Rules.runOps ops).byDom.length ∧
      ((Rules.runOps ops).byID.map
          (fun p => (Rules.entryAt (Rules.runOps ops).entries p.2).rule)).Perm
        ((Rules.runOps ops).byDom.map
          (fun p => (Rules.entryAt (Rules.runOps ops).entries p.2).rule)) := by
  have hInv := Rules.Inv4_foldl ops Rules.NewStore Rules.Inv4_NewStore h
  have hperm := hInv.idxPerm
  constructor
  · have h1 := hperm.length_eq
    unfold Rules.idxs at h1
    simpa using h1
  · have h2 := hperm.map (fun i => (Rules.entryAt (Rules.runOps ops).entries i).rule)
    unfold Rules.idxs at h2
    rw [List.map_map, List.map_map] at h2
    exact h2

namespace C4W

/-- Witness operations for the amended C4 claim. -/
def ops : List Rules.Op :=
  [ .upsert { ID := "a", Domain := "x.com", IPs := [], Expires := 0, Permanent := true, ResolvedAt := 0 },
    .upsert { ID := "b", Domain := "y.com", IPs := [], Expires := 5, Permanent := false, ResolvedAt := 0 },
    .remove "a",
    .upsert { ID := "c", Domain := "x.com", IPs := [], Expires := 7, Permanent := false, ResolvedAt := 1 },
    .expireNow 6,
    .updateResolvedAt "c" 9 ]

end C4W

/-- Witness for the amended C4 theorem at a concrete operation sequence. -/
theorem maps_agree_of_fresh_ids_witness :
    Rules.OpsOkUniq Rules.NewStore C4W.ops ∧
      ((Rules.runOps C4W.ops).byID.length = (Rules.runOps C4W.ops).byDom.length ∧
        ((Rules.runOps C4W.ops).byID.map
            (fun p => (Rules.entryAt (Rules.runOps C4W.ops).entries p.2).rule)).Perm
          ((Rules.runOps C4W.ops).byDom.map
            (fun p => (Rules.entryAt (Rules.runOps C4W.ops).entries p.2).rule))) :=
  ⟨by decide, maps_agree_of_fresh_ids C4W.ops (by decide)⟩

namespace Rules

theorem byDom_lookup_of_lowercase {s : MemoryStore} (hInv : Inv4 s) {i : Nat} {id : String}
    (hpair : (id, i) ∈ s.byID)
    (hlc : (entryAt s.entries i).rule.Domain = lowerStr (entryAt s.entries i).rule.Domain) :
    mapGet s.byDom (entryAt s.entries i).rule.Domain = some i := by
  have hIdm : i ∈ idxs s.byID := mem_idxs.mpr ⟨_, hpair, rfl⟩
  have hDm : i ∈ idxs s.byDom := hInv.idxPerm.mem_iff.mp hIdm
  obtain ⟨q, hq, hqe⟩ := mem_idxs.mp hDm
  have hkey := (hInv.domKey q hq).2
  rw [hqe] at hkey
  have hqeq : q = (lowerStr (entryAt s.entries i).rule.Domain, i) := by
    have h1 : q.1 = lowerStr (entryAt s.entries i).rule.Domain := hkey
    have h2 : q.2 = i := hqe
    obtain ⟨q1, q2⟩ := q
    simp only at h1 h2
    rw [h1, h2]
  have hget : mapGet s.byDom (lowerStr (entryAt s.entries i).rule.Domain) = some i := by
    apply mapGet_of_mem_nodup hInv.domKeysNodup
    rw [← hqeq]
    exact hq
  rw [hlc]
  exact hget

theorem byDom_lookup_of_not_lowercase {s : MemoryStore} (hInv : Inv4 s) {i : Nat}
    (hnlc : (entryAt s.entries i).rule.Domain ≠ lowerStr (entryAt s.entries i).rule.Domain) :
    mapGet s.byDom (entryAt s.entries i).rule.Domain = none := by
  cases hg : mapGet s.byDom (entryAt s.entries i).rule.Domain with
  | none => rfl
  | some j =>
    exfalso
    have hmem := mapGet_mem hg
    have hkey := (hInv.domKey _ hmem).2
    exact hnlc (lowerStr_fix hkey).symm

theorem ruleAt_set_resolvedAt (s' : MemoryStore) (i ts : Nat)
    (hib' : i < s'.entries.length) (j : Nat) :
    (entryAt (s'.entries.set i { entryAt s'.entries i with rule := { (entryAt s'.entries i).rule with ResolvedAt := ts } }) j).rule =
      if j = i then { (entryAt s'.entries j).rule with ResolvedAt := ts }
      else (entryAt s'.entries j).rule := by
  by_cases hj : j = i
  · rw [if_pos hj, hj, entryAt_set_same hib']
  · rw [if_neg hj, entryAt_set_ne (fun he => hj he.symm)]

theorem snapshot_mapped {s sF : MemoryStore} (hInv : Inv4 s) {i : Nat} {id : String} {ts : Nat}
    (hpair : (id, i) ∈ s.byID) (hID : sF.byID = s.byID)
    (hr : ∀ j, (entryAt sF.entries j).rule =
      if j = i then { (entryAt s.entries j).rule with ResolvedAt := ts }
      else (entryAt s.entries j).rule) :
    Snapshot sF = (Snapshot s).map
      (fun r => if r.ID = id then { r with ResolvedAt := ts } else r) := by
  unfold Snapshot
  rw [hID, List.map_map]
  apply List.map_congr_left
  intro p hp
  dsimp only [Function.comp]
  by_cases hpi : p.2 = i
  · rw [hr p.2, if_pos hpi, hpi, if_pos ((hInv.idKey _ hpair).2.symm)]
  · rw [hr p.2, if_neg hpi]
    have hcond : (entryAt s.entries p.2).rule.ID ≠ id := by
      intro he
      have hp1 : p.1 = id := by rw [(hInv.idKey p hp).2, he]
      have hpq := key_unique s.byID hInv.idKeysNodup hp hpair (by rw [hp1])
      exact hpi (by rw [hpq])
    rw [if_neg hcond]

/-- C9 amended: for every store satisfying the structural invariant of
reachable stores, UpdateResolvedAt returns true exactly when a rule with the
given id exists and its stored domain equals its lower-cased form (the second
lookup of the function uses the unlowered domain against the lower-cased
domain map, so a mixed-case domain makes it return false); whenever the id is
absent the store is unchanged, and whenever the id is present the rule with
that id has its ResolvedAt set to ts while every other field and every other
rule is unchanged. -/
theorem updateResolvedAt_found_iff_lowercase (s : MemoryStore) (hInv : Inv4 s)
    (id : String) (ts : Nat) :
    ((UpdateResolvedAt s id ts).2 = true ↔
        ∃ i, mapGet s.byID id = some i ∧
          (entryAt s.entries i).rule.Domain = lowerStr (entryAt s.entries i).rule.Domain) ∧
      (mapGet s.byID id = none → (UpdateResolvedAt s id ts).1 = s) ∧
      (∀ i, mapGet s.byID id = some i →
        Snapshot (UpdateResolvedAt s id ts).1 =
          (Snapshot s).map (fun r => if r.ID = id then { r with ResolvedAt := ts } else r)) := by
  unfold UpdateResolvedAt
  cases hid : mapGet s.byID id with
  | none =>
    refine ⟨?_, fun _ => rfl, ?_⟩
    · constructor
      · intro hfalse
        simp at hfalse
      · rintro ⟨i2, hi2, _⟩
        cases hi2
    · intro i2 hi2
      cases hi2
  | some i =>
    dsimp only
    have hpair : (id, i) ∈ s.byID := mapGet_mem hid
    have hib : i < s.entries.length := (hInv.idKey _ hpair).1
    set e2 : Entry := { entryAt s.entries i with rule := { (entryAt s.entries i).rule with ResolvedAt := ts } } with he2
    set s2 : MemoryStore := { s with entries := s.entries.set i e2 } with hs2
    set s3 : MemoryStore := if (entryAt s.entries i).rule.Permanent = false then heapFix s2 (entryAt s.entries i).heapIdx.toNat else s2 with hs3
    have hfr2 : framesStore s3 s2 := by
      rw [hs3]
      split
      · exact framesStore_heapFix _ _
      · exact framesStore_refl _
    have hID3 : s3.byID = s.byID := by rw [hfr2.1, hs2]
    have hDom3 : s3.byDom = s.byDom := by rw [hfr2.2.1, hs2]
    have hlen3 : s3.entries.length = s.entries.length := by
      rw [entries_length_of_framesStore hfr2, hs2]
      simp
    have hr3 : ∀ j, (entryAt s3.entries j).rule = (if j = i
        then { (entryAt s.entries j).rule with ResolvedAt := ts }
        else (entryAt s.entries j).rule) := by
      intro j
      rw [ruleAt_eq_of_framesStore hfr2 j, hs2, he2]
      exact ruleAt_set_resolvedAt s i ts hib j
    cases hdom2 : mapGet s3.byDom (entryAt s.entries i).rule.Domain with
    | none =>
      rw [hDom3] at hdom2
      refine ⟨?_, ?_, ?_⟩
      · constructor
        · intro hfalse
          simp at hfalse
        · rintro ⟨i2, hi2, hlc⟩
          cases hi2
          have hcontra := byDom_lookup_of_lowercase hInv hpair hlc
          rw [hdom2] at hcontra
          cases hcontra
      · intro hnone
        cases hnone
      · intro i2 hi2
        cases hi2
        exact snapshot_mapped hInv hpair hID3 hr3
    | some j =>
      rw [hDom3] at hdom2
      have hmemj := mapGet_mem hdom2
      have hkeyj := (hInv.domKey _ hmemj).2
      have hlc : (entryAt s.entries i).rule.Domain =
          lowerStr (entryAt s.entries i).rule.Domain := (lowerStr_fix hkeyj).symm
      have hji : j = i := by
        have h1 := byDom_lookup_of_lowercase hInv hpair hlc
        rw [hdom2] at h1
        cases h1
        rfl
      refine ⟨?_, ?_, ?_⟩
      · constructor
        · intro _
          exact ⟨i, rfl, hlc⟩
        · intro _
          rfl
      · intro hnone
        cases hnone
      · intro i2 hi2
        cases hi2
        refine snapshot_mapped hInv hpair ?_ ?_
        · exact hID3
        · intro j2
          have hibj : j < s3.entries.length := by
            rw [hlen3, hji]
            exact hib
          refine (ruleAt_set_resolvedAt s3 j ts hibj j2).trans ?_
          rw [hji]
          by_cases hj2 : j2 = i
          · rw [if_pos hj2, if_pos hj2, hr3 j2, if_pos hj2]
          · rw [if_neg hj2, if_neg hj2, hr3 j2, if_neg hj2]

end Rules

namespace C9W

/-- Witness store operations for the amended C9 claim: one temporary rule
with an all-lower-case domain. -/
def ops : List Rules.Op :=
  [ .upsert { ID := "a", Domain := "d.com", IPs := ["1.2.3.4"], Expires := 5, Permanent := false, ResolvedAt := 1 } ]

end C9W

/-- Witness for the amended C9 theorem at a concrete store. -/
theorem updateResolvedAt_found_iff_lowercase_witness :
    Rules.Inv4 (Rules.runOps C9W.ops) ∧
      (((Rules.UpdateResolvedAt (Rules.runOps C9W.ops) "a" 7).2 = true ↔
          ∃ i, Rules.mapGet (Rules.runOps C9W.ops).byID "a" = some i ∧
            (Rules.entryAt (Rules.runOps C9W.ops).entries i).rule.Domain =
              Rules.lowerStr (Rules.entryAt (Rules.runOps C9W.ops).entries i).rule.Domain) ∧
        (Rules.mapGet (Rules.runOps C9W.ops).byID "a" = none →
          (Rules.UpdateResolvedAt (Rules.runOps C9W.ops) "a" 7).1 = Rules.runOps C9W.ops) ∧
        (∀ i, Rules.mapGet (Rules.runOps C9W.ops).byID "a" = some i →
          Rules.Snapshot (Rules.UpdateResolvedAt (Rules.runOps C9W.ops) "a" 7).1 =
            (Rules.Snapshot (Rules.runOps C9W.ops)).map
              (fun r => if r.ID = "a" then { r with ResolvedAt := 7 } else r))) :=
  ⟨by constructor <;> decide,
    Rules.updateResolvedAt_found_iff_lowercase (Rules.runOps C9W.ops)
      (by constructor <;> decide) "a" 7⟩

namespace Engine

/-- Embeds Engine.handleBlock of the engine source. The resolver call is
replaced by its result under the caller's context (an error or the resolved
address list), and the generated uuid by the freshId parameter; ttl is the
requested duration and now the current instant. Returns the store, the
needs-sync flag, and whether an error was returned. -/
def handleBlock (s : Rules.MemoryStore) (resolved : Except Unit (List String))
    (freshId : String) (domain : String) (ttl : Int) (now : Nat) :
    Rules.MemoryStore × Bool × Bool :=
  match resolved with
  | .error _ => (s, false, true)
  | .ok ips =>
    if ips.length = 0 then (s, false, true)
    else
      let base : Rules.Rule :=
        { ID := freshId, Domain := domain, IPs := ips, Expires := 0, Permanent := false, ResolvedAt := now }
      let rule : Rules.Rule :=
        if 0 < ttl then { base with Expires := now + ttl.toNat, Permanent := false }
        else { base with Permanent := true }
      let p := Rules.Upsert s rule
      (p.1, p.2, false)

end Engine

/-- C6: on a resolver error or an empty resolved address list, handleBlock
leaves the store unchanged, requests no PF sync and reports an error;
otherwise it upserts a rule carrying the freshly allocated id, the requested
domain, the resolved addresses and resolution time now, with expiry now plus
ttl and not permanent when ttl is positive, else permanent with zero expiry,
and the needs-sync flag is the changed flag of that upsert. -/
theorem handleBlock_stores_fresh_rule_or_nothing
    (s : Rules.MemoryStore) (resolved : Except Unit (List String))
    (freshId : String) (domain : String) (ttl : Int) (now : Nat) :
    ((((∃ e, resolved = Except.error e) ∨ resolved = Except.ok []) →
        Engine.handleBlock s resolved freshId domain ttl now = (s, false, true)) ∧
      (∀ ips, resolved = Except.ok ips → ips ≠ [] →
        ∃ r : Rules.Rule,
          r.ID = freshId ∧ r.Domain = domain ∧ r.IPs = ips ∧ r.ResolvedAt = now ∧
          (0 < ttl → r.Expires = now + ttl.toNat ∧ r.Permanent = false) ∧
          (¬ 0 < ttl → r.Permanent = true ∧ r.Expires = 0) ∧
          Engine.handleBlock s resolved freshId domain ttl now =
            ((Rules.Upsert s r).1, (Rules.Upsert s r).2, false))) := by
  constructor
  · intro h
    rcases h with ⟨e, he⟩ | he <;> rw [he] <;> rfl
  · intro ips hok hne
    rw [hok]
    unfold Engine.handleBlock
    dsimp only
    rw [if_neg (fun h0 => hne (List.eq_nil_of_length_eq_zero h0))]
    by_cases hp : 0 < ttl
    · refine ⟨{ ID := freshId, Domain := domain, IPs := ips, Expires := now + ttl.toNat, Permanent := false, ResolvedAt := now },
        rfl, rfl, rfl, rfl, fun _ => ⟨rfl, rfl⟩, fun hnp => absurd hp hnp, ?_⟩
      rw [if_pos hp]
    · refine ⟨{ ID := freshId, Domain := domain, IPs := ips, Expires := 0, Permanent := true, ResolvedAt := now },
        rfl, rfl, rfl, rfl, fun hp2 => absurd hp2 hp, fun _ => ⟨rfl, rfl⟩, ?_⟩
      rw [if_neg hp]

namespace Rules

theorem mapGet_mapSet_same (m : SMap) (k : String) (v : Nat) :
    mapGet (mapSet m k v) k = some v := by
  induction m with
  | nil =>
    unfold mapSet mapGet
    rw [if_pos rfl]
  | cons x t ih =>
    obtain ⟨k3, v3⟩ := x
    unfold mapSet
    by_cases hx : k3 = k
    · rw [if_pos hx]
      unfold mapGet
      rw [if_pos rfl]
    · rw [if_neg hx]
      unfold mapGet
      rw [if_neg hx]
      exact ih

theorem mapGet_mapSet_ne (m : SMap) {k k2 : String} (h : k2 ≠ k) (v : Nat) :
    mapGet (mapSet m k v) k2 = mapGet m k2 := by
  induction m with
  | nil =>
    unfold mapSet mapGet
    rw [if_neg (fun he => h he.symm)]
    rfl
  | cons x t ih =>
    obtain ⟨k3, v3⟩ := x
    unfold mapSet
    by_cases hx : k3 = k
    · rw [if_pos hx]
      unfold mapGet
      rw [if_neg (fun he => h he.symm), if_neg (by rw [hx]; exact fun he => h he.symm)]
    · rw [if_neg hx]
      unfold mapGet
      by_cases h32 : k3 = k2
      · rw [if_pos h32, if_pos h32]
      · rw [if_neg h32, if_neg h32]
        exact ih

theorem idx_unique {m : SMap} (hnd : (idxs m).Nodup) {p q : String × Nat}
    (hp : p ∈ m) (hq : q ∈ m) (he : p.2 = q.2) : p = q :=
  List.inj_on_of_nodup_map hnd hp hq he

theorem byDom_lookup_lowered {s : MemoryStore} (hInv : Inv4 s) {i : Nat} {id : String}
    (hpair : (id, i) ∈ s.byID) :
    mapGet s.byDom (lowerStr (entryAt s.entries i).rule.Domain) = some i := by
  have hIdm : i ∈ idxs s.byID := mem_idxs.mpr ⟨_, hpair, rfl⟩
  have hDm : i ∈ idxs s.byDom := hInv.idxPerm.mem_iff.mp hIdm
  obtain ⟨q, hq, hqe⟩ := mem_idxs.mp hDm
  have hkey := (hInv.domKey q hq).2
  rw [hqe] at hkey
  have hqeq : q = (lowerStr (entryAt s.entries i).rule.Domain, i) := by
    obtain ⟨q1, q2⟩ := q
    simp only at hkey hqe
    rw [hkey, hqe]
  apply mapGet_of_mem_nodup hInv.domKeysNodup
  rw [← hqeq]
  exact hq

theorem rule_mem_snapshot {s : MemoryStore} {id : String} {i : Nat}
    (h : mapGet s.byID id = some i) : (entryAt s.entries i).rule ∈ Snapshot s := by
  have hmem := mapGet_mem h
  unfold Snapshot
  exact List.mem_map.mpr ⟨(id, i), hmem, rfl⟩

theorem upsert_update_effect {s : MemoryStore} {u : Rule} {i : Nat}
    (hib : i < s.entries.length)
    (hdom : mapGet s.byDom (lowerStr u.Domain) = some i)
    (hcond : ¬ ((entryAt s.entries i).rule.Permanent = false ∧ u.Permanent = true)) :
    (Upsert s u).1.byID = s.byID ∧ (Upsert s u).1.byDom = s.byDom ∧
      (Upsert s u).1.entries.length = s.entries.length ∧
      ∀ j, (entryAt (Upsert s u).1.entries j).rule =
        if j = i then { (entryAt s.entries j).rule with IPs := u.IPs, ResolvedAt := u.ResolvedAt, Expires := u.Expires }
        else (entryAt s.entries j).rule := by
  unfold Upsert
  dsimp only
  rw [hdom]
  dsimp only
  rw [if_neg hcond]
  refine ⟨rfl, rfl, ?_, ?_⟩
  · dsimp only
    rw [List.length_set]
  · intro j
    dsimp only
    by_cases hj : j = i
    · rw [if_pos hj, hj, entryAt_set_same hib]
    · rw [if_neg hj, entryAt_set_ne (fun he => hj he.symm)]

theorem updateResolvedAt_effect {s : MemoryStore} (hInv : Inv4 s) {id : String} {i : Nat} (ts : Nat)
    (hid : mapGet s.byID id = some i) :
    (UpdateResolvedAt s id ts).1.byID = s.byID ∧
      (UpdateResolvedAt s id ts).1.byDom = s.byDom ∧
      (UpdateResolvedAt s id ts).1.entries.length = s.entries.length ∧
      ∀ j, (entryAt (UpdateResolvedAt s id ts).1.entries j).rule =
        if j = i then { (entryAt s.entries j).rule with ResolvedAt := ts }
        else (entryAt s.entries j).rule := by
  have hpair : (id, i) ∈ s.byID := mapGet_mem hid
  have hib : i < s.entries.length := (hInv.idKey _ hpair).1
  unfold UpdateResolvedAt
  rw [hid]
  dsimp only
  set e2 : Entry := { entryAt s.entries i with rule := { (entryAt s.entries i).rule with ResolvedAt := ts } } with he2
  set s2 : MemoryStore := { s with entries := s.entries.set i e2 } with hs2
  set s3 : MemoryStore := if (entryAt s.entries i).rule.Permanent = false then heapFix s2 (entryAt s.entries i).heapIdx.toNat else s2 with hs3
  have hfr2 : framesStore s3 s2 := by
    rw [hs3]
    split
    · exact framesStore_heapFix _ _
    · exact framesStore_refl _
  have hID3 : s3.byID = s.byID := by rw [hfr2.1, hs2]
  have hDom3 : s3.byDom = s.byDom := by rw [hfr2.2.1, hs2]
  have hlen3 : s3.entries.length = s.entries.length := by
    rw [entries_length_of_framesStore hfr2, hs2]
    simp
  have hr3 : ∀ j, (entryAt s3.entries j).rule = (if j = i
      then { (entryAt s.entries j).rule with ResolvedAt := ts }
      else (entryAt s.entries j).rule) := by
    intro j
    rw [ruleAt_eq_of_framesStore hfr2 j, hs2, he2]
    exact ruleAt_set_resolvedAt s i ts hib j
  cases hdom2 : mapGet s3.byDom (entryAt s.entries i).rule.Domain with
  | none => exact ⟨hID3, hDom3, hlen3, hr3⟩
  | some j =>
    rw [hDom3] at hdom2
    have hmemj := mapGet_mem hdom2
    have hkeyj := (hInv.domKey _ hmemj).2
    have hlc : (entryAt s.entries i).rule.Domain =
        lowerStr (entryAt s.entries i).rule.Domain := (lowerStr_fix hkeyj).symm
    have hji : j = i := by
      have h1 := byDom_lookup_of_lowercase hInv hpair hlc
      rw [hdom2] at h1
      cases h1
      rfl
    refine ⟨hID3, hDom3, ?_, ?_⟩
    · dsimp only
      rw [List.length_set]
      exact hlen3
    · intro j2
      have hibj : j < s3.entries.length := by
        rw [hlen3, hji]
        exact hib
      refine (ruleAt_set_resolvedAt s3 j ts hibj j2).trans ?_
      rw [hji]
      by_cases hj2 : j2 = i
      · rw [if_pos hj2, if_pos hj2, hr3 j2, if_pos hj2]
      · rw [if_neg hj2, if_neg hj2, hr3 j2, if_neg hj2]

end Rules

namespace Engine

/-- Embeds the staleness test of handleRefreshExpire: a zero resolution time,
or an elapsed time since resolution exceeding nine tenths of the refresh
interval; the elapsed time is signed as a Go duration and the threshold is
the integer division the Go expression dnsRefresh*9/10 performs. -/
def staleGo (dnsRefresh now : Nat) (r : Rules.Rule) : Bool :=
  r.ResolvedAt == 0 || decide (((dnsRefresh * 9 / 10 : Nat) : Int) < (now : Int) - (r.ResolvedAt : Int))

/-- Embeds the count-decrement loop of ipsEqual over the second slice: a key
with an exhausted count fails the comparison, otherwise its count is
decremented. -/
def ipsEqualLoop : Rules.SMap → List String → Bool
  | _, [] => true
  | counts, k :: rest =>
    if (Rules.mapGet counts k).getD 0 = 0 then false
    else ipsEqualLoop (Rules.mapSet counts k ((Rules.mapGet counts k).getD 0 - 1)) rest

/-- Embeds ipsEqual of the engine source; addresses are modelled by their
ipKey strings (printed address plus zone), so the key extraction is the
identity here. The first slice is counted into a map and the second slice
drains it. -/
def ipsEqual (a b : List String) : Bool :=
  if a.length ≠ b.length then false
  else if a.length = 0 then true
  else ipsEqualLoop (a.foldl (fun m k => Rules.mapSet m k ((Rules.mapGet m k).getD 0 + 1)) []) b

/-- Embeds the body of the refresh loop of handleRefreshExpire for one rule
of the snapshot: stale rules are re-resolved (the resolver result per domain
is the resolve parameter); on changed addresses the updated rule is upserted
preserving id, domain, expiry and permanence with the resolution time set to
now, otherwise only the resolution time is refreshed. The accumulator carries
the store, the changed flag, the count of collected refresh errors and the
domains passed to the resolver. -/
def refreshStep (resolve : String → Except Unit (List String)) (dnsRefresh now : Nat)
    (acc : Rules.MemoryStore × Bool × Nat × List String) (rule : Rules.Rule) :
    Rules.MemoryStore × Bool × Nat × List String :=
  if staleGo dnsRefresh now rule then
    match resolve rule.Domain with
    | .error _ => (acc.1, acc.2.1, acc.2.2.1 + 1, acc.2.2.2 ++ [rule.Domain])
    | .ok newIPs =>
      if ipsEqual rule.IPs newIPs = false then
        let updatedRule : Rules.Rule :=
          { ID := rule.ID, Domain := rule.Domain, IPs := newIPs,
            Expires := rule.Expires, Permanent := rule.Permanent, ResolvedAt := now }
        let p := Rules.Upsert acc.1 updatedRule
        (p.1, acc.2.1 || p.2, acc.2.2.1, acc.2.2.2 ++ [rule.Domain])
      else
        let p := Rules.UpdateResolvedAt acc.1 rule.ID now
        (p.1, acc.2.1 || p.2, acc.2.2.1, acc.2.2.2 ++ [rule.Domain])
  else (acc.1, acc.2.1, acc.2.2.1, acc.2.2.2)

/-- Embeds Engine.handleRefreshExpire: expire due rules first, then walk a
snapshot of the store refreshing stale rules. Returns the store, the changed
flag, the number of collected refresh errors and the ghost trace of domains
passed to the resolver. -/
def handleRefreshExpire (s : Rules.MemoryStore)
    (resolve : String → Except Unit (List String)) (dnsRefresh now : Nat) :
    Rules.MemoryStore × Bool × Nat × List String :=
  let p := Rules.ExpireNow s now
  (Rules.Snapshot p.1).foldl (refreshStep resolve dnsRefresh now)
    (p.1, decide (0 < p.2.length), 0, [])

/-- The per-rule outcome of one refresh pass, used to describe the loop: a
stale rule whose re-resolution succeeds gets the new addresses when they
differ from the old ones as counted multisets, and in either case its
resolution time becomes now; all other rules are untouched. -/
def refreshedRule (resolve : String → Except Unit (List String)) (dnsRefresh now : Nat)
    (r : Rules.Rule) : Rules.Rule :=
  if staleGo dnsRefresh now r then
    match resolve r.Domain with
    | .error _ => r
    | .ok newIPs =>
      if ipsEqual r.IPs newIPs = false then { r with IPs := newIPs, ResolvedAt := now }
      else { r with ResolvedAt := now }
  else r

theorem staleGo_iff_claim (dnsRefresh now : Nat) (r : Rules.Rule) :
    staleGo dnsRefresh now r = true ↔
      (r.ResolvedAt = 0 ∨ 9 * (dnsRefresh : Int) < 10 * ((now : Int) - (r.ResolvedAt : Int))) := by
  unfold staleGo
  rw [Bool.or_eq_true, beq_iff_eq, decide_eq_true_eq]
  constructor
  · rintro (h | h)
    · exact Or.inl h
    · right
      omega
  · rintro (h | h)
    · exact Or.inl h
    · right
      omega

theorem countGet_foldl (a : List String) : ∀ (m : Rules.SMap) (k : String),
    (Rules.mapGet (a.foldl (fun m k => Rules.mapSet m k ((Rules.mapGet m k).getD 0 + 1)) m) k).getD 0 =
      (Rules.mapGet m k).getD 0 + a.count k := by
  induction a with
  | nil =>
    intro m k
    simp
  | cons x rest ih =>
    intro m k
    rw [List.foldl_cons, ih]
    by_cases hk : k = x
    · subst hk
      rw [Rules.mapGet_mapSet_same, List.count_cons_self]
      simp only [Option.getD_some]
      omega
    · rw [Rules.mapGet_mapSet_ne _ hk, List.count_cons_of_ne hk]

theorem ipsEqualLoop_true_iff (b : List String) : ∀ m : Rules.SMap,
    ipsEqualLoop m b = true ↔ ∀ k, b.count k ≤ (Rules.mapGet m k).getD 0 := by
  induction b with
  | nil =>
    intro m
    unfold ipsEqualLoop
    simp
  | cons x rest ih =>
    intro m
    unfold ipsEqualLoop
    by_cases h0 : (Rules.mapGet m x).getD 0 = 0
    · rw [if_pos h0]
      constructor
      · intro h
        simp at h
      · intro hall
        exfalso
        have hx := hall x
        rw [List.count_cons_self] at hx
        omega
    · rw [if_neg h0, ih]
      constructor
      · intro h k
        by_cases hk : k = x
        · subst hk
          have h1 := h k
          rw [Rules.mapGet_mapSet_same] at h1
          simp only [Option.getD_some] at h1
          rw [List.count_cons_self]
          omega
        · have h1 := h k
          rw [Rules.mapGet_mapSet_ne _ hk] at h1
          rw [List.count_cons_of_ne hk]
          exact h1
      · intro h k
        by_cases hk : k = x
        · subst hk
          have h1 := h k
          rw [List.count_cons_self] at h1
          rw [Rules.mapGet_mapSet_same]
          simp only [Option.getD_some]
          omega
        · have h1 := h k
          rw [List.count_cons_of_ne hk] at h1
          rw [Rules.mapGet_mapSet_ne _ hk]
          exact h1

theorem ipsEqual_true_counts {a b : List String} (h : ipsEqual a b = true) :
    a.length = b.length ∧ ∀ k, b.count k ≤ a.count k := by
  unfold ipsEqual at h
  by_cases hlen : a.length ≠ b.length
  · rw [if_pos hlen] at h
    simp at h
  · rw [if_neg hlen] at h
    by_cases h0 : a.length = 0
    · rw [if_pos h0] at h
      have ha : a = [] := List.eq_nil_of_length_eq_zero h0
      have hb : b = [] := List.eq_nil_of_length_eq_zero (by omega)
      subst ha
      subst hb
      exact ⟨rfl, fun k => Nat.le_refl _⟩
    · rw [if_neg h0] at h
      have hloop := (ipsEqualLoop_true_iff b _).mp h
      refine ⟨by omega, fun k => ?_⟩
      have h2 := hloop k
      rw [countGet_foldl a [] k] at h2
      simpa [Rules.mapGet] using h2

theorem ipsEqual_true_mem {a b : List String} (h : ipsEqual a b = true) :
    ∀ x, x ∈ a ↔ x ∈ b := by
  obtain ⟨hlen, hcount⟩ := ipsEqual_true_counts h
  have hle : (b : Multiset String) ≤ (a : Multiset String) := by
    rw [Multiset.le_iff_count]
    intro x
    simpa using hcount x
  have heq : (b : Multiset String) = (a : Multiset String) := by
    refine Multiset.eq_of_le_of_card_le hle ?_
    simpa using hlen.le
  intro x
  constructor
  · intro hx
    have hx2 : x ∈ (b : Multiset String) := by
      rw [heq]
      simpa using hx
    simpa using hx2
  · intro hx
    have hx2 : x ∈ (a : Multiset String) := by
      rw [← heq]
      simpa using hx
    simpa using hx2

theorem ipsEqual_false_of_set_ne {a b : List String} (h : ¬ (∀ x, x ∈ a ↔ x ∈ b)) :
    ipsEqual a b = false := by
  cases he : ipsEqual a b
  · rfl
  · exact absurd (ipsEqual_true_mem he) h

end Engine

namespace Engine

theorem refresh_upsert_branch {t : Rules.MemoryStore} (hInv : Rules.Inv4 t)
    {r : Rules.Rule} {i0 : Nat} (hget : Rules.mapGet t.byID r.ID = some i0)
    (hent : (Rules.entryAt t.entries i0).rule = r) (newIPs : List String) (now : Nat) :
    Rules.Inv4 (Rules.Upsert t { ID := r.ID, Domain := r.Domain, IPs := newIPs, Expires := r.Expires, Permanent := r.Permanent, ResolvedAt := now }).1 ∧
      (Rules.Upsert t { ID := r.ID, Domain := r.Domain, IPs := newIPs, Expires := r.Expires, Permanent := r.Permanent, ResolvedAt := now }).1.byID = t.byID ∧
      ∀ j, (Rules.entryAt (Rules.Upsert t { ID := r.ID, Domain := r.Domain, IPs := newIPs, Expires := r.Expires, Permanent := r.Permanent, ResolvedAt := now }).1.entries j).rule =
        if j = i0 then { r with IPs := newIPs, ResolvedAt := now }
        else (Rules.entryAt t.entries j).rule := by
  have hpair := Rules.mapGet_mem hget
  have hib : i0 < t.entries.length := (hInv.idKey _ hpair).1
  have hdl := Rules.byDom_lookup_lowered hInv hpair
  rw [hent] at hdl
  have hcond : ¬ ((Rules.entryAt t.entries i0).rule.Permanent = false ∧
      ({ ID := r.ID, Domain := r.Domain, IPs := newIPs, Expires := r.Expires, Permanent := r.Permanent, ResolvedAt := now } : Rules.Rule).Permanent = true) := by
    rw [hent]
    rintro ⟨h1, h2⟩
    rw [show ({ ID := r.ID, Domain := r.Domain, IPs := newIPs, Expires := r.Expires, Permanent := r.Permanent, ResolvedAt := now } : Rules.Rule).Permanent = r.Permanent from rfl, h1] at h2
    exact Bool.false_ne_true h2
  obtain ⟨eID, eDom, eLen, eRule⟩ :=
    @Rules.upsert_update_effect t
      { ID := r.ID, Domain := r.Domain, IPs := newIPs, Expires := r.Expires, Permanent := r.Permanent, ResolvedAt := now }
      i0 hib hdl hcond
  refine ⟨?_, eID, ?_⟩
  · refine Rules.Inv4_upsert hInv ?_
    intro hnone
    rw [show Rules.lowerStr ({ ID := r.ID, Domain := r.Domain, IPs := newIPs, Expires := r.Expires, Permanent := r.Permanent, ResolvedAt := now } : Rules.Rule).Domain = Rules.lowerStr r.Domain from rfl, hdl] at hnone
    cases hnone
  · intro j
    rw [eRule j]
    by_cases hj : j = i0
    · rw [if_pos hj, if_pos hj, hj, hent]
    · rw [if_neg hj, if_neg hj]

theorem refresh_update_branch {t : Rules.MemoryStore} (hInv : Rules.Inv4 t)
    {r : Rules.Rule} {i0 : Nat} (hget : Rules.mapGet t.byID r.ID = some i0)
    (hent : (Rules.entryAt t.entries i0).rule = r) (now : Nat) :
    Rules.Inv4 (Rules.UpdateResolvedAt t r.ID now).1 ∧
      (Rules.UpdateResolvedAt t r.ID now).1.byID = t.byID ∧
      ∀ j, (Rules.entryAt (Rules.UpdateResolvedAt t r.ID now).1.entries j).rule =
        if j = i0 then { r with ResolvedAt := now }
        else (Rules.entryAt t.entries j).rule := by
  obtain ⟨eID, eDom, eLen, eRule⟩ := Rules.updateResolvedAt_effect hInv now hget
  refine ⟨Rules.Inv4_updateResolvedAt hInv, eID, ?_⟩
  intro j
  rw [eRule j]
  by_cases hj : j = i0
  · rw [if_pos hj, if_pos hj, hj, hent]
  · rw [if_neg hj, if_neg hj]

theorem refreshLoop_spec (resolve : String → Except Unit (List String)) (dnsRefresh now : Nat)
    (rs : List Rules.Rule) :
    ∀ (t : Rules.MemoryStore) (changed : Bool) (errs : Nat) (lk : List String),
      Rules.Inv4 t →
      (rs.map Rules.Rule.ID).Nodup →
      (∀ r ∈ rs, ∃ i, Rules.mapGet t.byID r.ID = some i ∧ (Rules.entryAt t.entries i).rule = r) →
      Rules.Inv4 (rs.foldl (refreshStep resolve dnsRefresh now) (t, changed, errs, lk)).1 ∧
        (rs.foldl (refreshStep resolve dnsRefresh now) (t, changed, errs, lk)).1.byID = t.byID ∧
        (rs.foldl (refreshStep resolve dnsRefresh now) (t, changed, errs, lk)).2.2.2 =
          lk ++ (rs.filter (staleGo dnsRefresh now)).map Rules.Rule.Domain ∧
        (∀ r ∈ rs, ∃ i, Rules.mapGet t.byID r.ID = some i ∧
          (Rules.entryAt (rs.foldl (refreshStep resolve dnsRefresh now) (t, changed, errs, lk)).1.entries i).rule =
            refreshedRule resolve dnsRefresh now r) ∧
        (∀ i, (∀ r ∈ rs, Rules.mapGet t.byID r.ID ≠ some i) →
          (Rules.entryAt (rs.foldl (refreshStep resolve dnsRefresh now) (t, changed, errs, lk)).1.entries i).rule =
            (Rules.entryAt t.entries i).rule) := by
  induction rs with
  | nil =>
    intro t changed errs lk hInv hnd hH
    refine ⟨hInv, rfl, by simp, ?_, ?_⟩
    · intro r hr
      exact absurd hr (List.not_mem_nil r)
    · intro i _
      rfl
  | cons r rest ih =>
    intro t changed errs lk hInv hnd hH
    obtain ⟨i0, hget, hent⟩ := hH r (List.mem_cons_self r rest)
    have hnd1 : (Rules.Rule.ID r :: rest.map Rules.Rule.ID).Nodup := by simpa using hnd
    have hndh : r.ID ∉ rest.map Rules.Rule.ID := (List.nodup_cons.mp hnd1).1
    have hndt : (rest.map Rules.Rule.ID).Nodup := (List.nodup_cons.mp hnd1).2
    have hdiff : ∀ r2 ∈ rest, ∀ i2, Rules.mapGet t.byID r2.ID = some i2 → i2 ≠ i0 := by
      intro r2 hr2 i2 hget2 hee
      subst hee
      have hp1 := Rules.mapGet_mem hget2
      have hp2 := Rules.mapGet_mem hget
      have hpq := Rules.idx_unique hInv.idIdxNodup hp1 hp2 rfl
      have hids : r2.ID = r.ID := congrArg Prod.fst hpq
      exact hndh (hids ▸ List.mem_map_of_mem Rules.Rule.ID hr2)
    have main : ∀ (c2 : Bool) (e2 : Nat) (l2 : List String) (t1 : Rules.MemoryStore),
        Rules.Inv4 t1 → t1.byID = t.byID →
        (∀ j, (Rules.entryAt t1.entries j).rule =
          if j = i0 then refreshedRule resolve dnsRefresh now r else (Rules.entryAt t.entries j).rule) →
        l2 = lk ++ (if staleGo dnsRefresh now r then [r.Domain] else []) →
        Rules.Inv4 (rest.foldl (refreshStep resolve dnsRefresh now) (t1, c2, e2, l2)).1 ∧
          (rest.foldl (refreshStep resolve dnsRefresh now) (t1, c2, e2, l2)).1.byID = t.byID ∧
          (rest.foldl (refreshStep resolve dnsRefresh now) (t1, c2, e2, l2)).2.2.2 =
            lk ++ ((r :: rest).filter (staleGo dnsRefresh now)).map Rules.Rule.Domain ∧
          (∀ r2 ∈ r :: rest, ∃ i, Rules.mapGet t.byID r2.ID = some i ∧
            (Rules.entryAt (rest.foldl (refreshStep resolve dnsRefresh now) (t1, c2, e2, l2)).1.entries i).rule =
              refreshedRule resolve dnsRefresh now r2) ∧
          (∀ i, (∀ r2 ∈ r :: rest, Rules.mapGet t.byID r2.ID ≠ some i) →
            (Rules.entryAt (rest.foldl (refreshStep resolve dnsRefresh now) (t1, c2, e2, l2)).1.entries i).rule =
              (Rules.entryAt t.entries i).rule) := by
      intro c2 e2 l2 t1 hbI hbID hbR hl2
      have hH1 : ∀ r2 ∈ rest, ∃ i, Rules.mapGet t1.byID r2.ID = some i ∧
          (Rules.entryAt t1.entries i).rule = r2 := by
        intro r2 hr2
        obtain ⟨i2, hget2, hent2⟩ := hH r2 (List.mem_cons_of_mem r hr2)
        refine ⟨i2, by rw [hbID]; exact hget2, ?_⟩
        rw [hbR i2, if_neg (hdiff r2 hr2 i2 hget2), hent2]
      obtain ⟨fI, fID, ftr, fpost, ffr⟩ := ih t1 c2 e2 l2 hbI hndt hH1
      refine ⟨fI, by rw [fID, hbID], ?_, ?_, ?_⟩
      · rw [ftr, hl2]
        by_cases hst2 : staleGo dnsRefresh now r = true
        · simp [List.filter_cons, hst2, List.append_assoc]
        · simp [List.filter_cons, hst2]
      · intro r2 hr2
        rcases List.mem_cons.mp hr2 with he | hm
        · subst he
          refine ⟨i0, hget, ?_⟩
          rw [ffr i0 ?_, hbR i0, if_pos rfl]
          intro r2 hr2 hco
          rw [hbID] at hco
          exact hdiff r2 hr2 i0 hco rfl
        · obtain ⟨i2, hg2, he2⟩ := fpost r2 hm
          rw [hbID] at hg2
          exact ⟨i2, hg2, he2⟩
      · intro i hni
        have h1 : ∀ r2 ∈ rest, Rules.mapGet t1.byID r2.ID ≠ some i := by
          intro r2 hr2
          rw [hbID]
          exact hni r2 (List.mem_cons_of_mem r hr2)
        rw [ffr i h1, hbR i, if_neg ?_]
        intro hei
        subst hei
        exact hni r (List.mem_cons_self r rest) hget
    rw [List.foldl_cons]
    by_cases hst : staleGo dnsRefresh now r = true
    · cases hres : resolve r.Domain with
      | error e =>
        have hstep : refreshStep resolve dnsRefresh now (t, changed, errs, lk) r =
            (t, changed, errs + 1, lk ++ [r.Domain]) := by
          unfold refreshStep
          rw [if_pos hst, hres]
        have hRr : refreshedRule resolve dnsRefresh now r = r := by
          unfold refreshedRule
          rw [if_pos hst, hres]
        rw [hstep]
        refine main _ _ _ _ hInv rfl ?_ (by rw [if_pos hst])
        intro j
        by_cases hj : j = i0
        · rw [if_pos hj, hRr, hj, hent]
        · rw [if_neg hj]
      | ok newIPs =>
        by_cases hip : ipsEqual r.IPs newIPs = false
        · have hstep : refreshStep resolve dnsRefresh now (t, changed, errs, lk) r =
              ((Rules.Upsert t { ID := r.ID, Domain := r.Domain, IPs := newIPs, Expires := r.Expires, Permanent := r.Permanent, ResolvedAt := now }).1,
                changed || (Rules.Upsert t { ID := r.ID, Domain := r.Domain, IPs := newIPs, Expires := r.Expires, Permanent := r.Permanent, ResolvedAt := now }).2,
                errs, lk ++ [r.Domain]) := by
            unfold refreshStep
            rw [if_pos hst, hres]
            dsimp only
            rw [if_pos hip]
          have hRr : refreshedRule resolve dnsRefresh now r = { r with IPs := newIPs, ResolvedAt := now } := by
            unfold refreshedRule
            rw [if_pos hst, hres]
            dsimp only
            rw [if_pos hip]
          rw [hstep]
          obtain ⟨uI, uID, uR⟩ := refresh_upsert_branch hInv hget hent newIPs now
          refine main _ _ _ _ uI uID ?_ (by rw [if_pos hst])
          intro j
          rw [uR j, hRr]
        · have hstep : refreshStep resolve dnsRefresh now (t, changed, errs, lk) r =
              ((Rules.UpdateResolvedAt t r.ID now).1,
                changed || (Rules.UpdateResolvedAt t r.ID now).2, errs, lk ++ [r.Domain]) := by
            unfold refreshStep
            rw [if_pos hst, hres]
            dsimp only
            rw [if_neg hip]
          have hRr : refreshedRule resolve dnsRefresh now r = { r with ResolvedAt := now } := by
            unfold refreshedRule
            rw [if_pos hst, hres]
            dsimp only
            rw [if_neg hip]
          rw [hstep]
          obtain ⟨uI, uID, uR⟩ := refresh_update_branch hInv hget hent now
          refine main _ _ _ _ uI uID ?_ (by rw [if_pos hst])
          intro j
          rw [uR j, hRr]
    · have hstep : refreshStep resolve dnsRefresh now (t, changed, errs, lk) r =
          (t, changed, errs, lk) := by
        unfold refreshStep
        rw [if_neg hst]
      have hRr : refreshedRule resolve dnsRefresh now r = r := by
        unfold refreshedRule
        rw [if_neg hst]
      rw [hstep]
      refine main _ _ _ _ hInv rfl ?_ (by rw [if_neg hst, List.append_nil])
      intro j
      by_cases hj : j = i0
      · rw [if_pos hj, hRr, hj, hent]
      · rw [if_neg hj]

end Engine

namespace Rules

theorem snapshot_ids_eq_keys {s : MemoryStore} (hInv : Inv4 s) :
    (Snapshot s).map Rule.ID = keys s.byID := by
  unfold Snapshot keys
  rw [List.map_map]
  apply List.map_congr_left
  intro p hp
  dsimp only [Function.comp]
  exact ((hInv.idKey p hp).2).symm

theorem snapshot_lookup {s : MemoryStore} (hInv : Inv4 s) :
    ∀ r ∈ Snapshot s, ∃ i, mapGet s.byID r.ID = some i ∧ (entryAt s.entries i).rule = r := by
  intro r hr
  obtain ⟨p, hp, hpe⟩ := List.mem_map.mp hr
  have hid : p.1 = r.ID := by
    rw [(hInv.idKey p hp).2, hpe]
  have hmem2 : (r.ID, p.2) ∈ s.byID := by
    have hpeq : p = (r.ID, p.2) := by
      obtain ⟨p1, p2⟩ := p
      simp only at hid
      rw [hid]
    rw [← hpeq]
    exact hp
  exact ⟨p.2, mapGet_of_mem_nodup hInv.idKeysNodup hmem2, hpe⟩

end Rules

/-- C7: in a reconcile tick over a store satisfying the structural invariant
of reachable stores, the rules passed to the resolver after the expiry pass
are exactly those of the snapshot satisfying the staleness test, which agrees
with zero resolution time or elapsed time strictly greater than nine tenths
of the refresh interval (the integer-division threshold of the code equals
the exact rational threshold of the spec for integer instants); and every
stale snapshot rule whose re-resolution succeeds with an address list that
differs from the stored one as a set ends up in the final store with the new
addresses, the same id, domain, expiry and permanence, and resolution time
now. -/
theorem reconcile_refreshes_exactly_stale_rules
    (s : Rules.MemoryStore) (hInv : Rules.Inv4 s)
    (resolve : String → Except Unit (List String)) (dnsRefresh now : Nat) :
    (∀ r : Rules.Rule, Engine.staleGo dnsRefresh now r = true ↔
        (r.ResolvedAt = 0 ∨ 9 * (dnsRefresh : Int) < 10 * ((now : Int) - (r.ResolvedAt : Int)))) ∧
      (Engine.handleRefreshExpire s resolve dnsRefresh now).2.2.2 =
        ((Rules.Snapshot (Rules.ExpireNow s now).1).filter (Engine.staleGo dnsRefresh now)).map Rules.Rule.Domain ∧
      ∀ r ∈ Rules.Snapshot (Rules.ExpireNow s now).1,
        Engine.staleGo dnsRefresh now r = true →
        ∀ newIPs, resolve r.Domain = Except.ok newIPs →
          ¬ (∀ x, x ∈ r.IPs ↔ x ∈ newIPs) →
          ∃ r2 ∈ Rules.Snapshot (Engine.handleRefreshExpire s resolve dnsRefresh now).1,
            r2.ID = r.ID ∧ r2.Domain = r.Domain ∧ r2.IPs = newIPs ∧ r2.Expires = r.Expires ∧
              r2.Permanent = r.Permanent ∧ r2.ResolvedAt = now := by
  have hI1 : Rules.Inv4 (Rules.ExpireNow s now).1 := Rules.Inv4_expireLoop _ s now [] hInv
  have hnd : ((Rules.Snapshot (Rules.ExpireNow s now).1).map Rules.Rule.ID).Nodup := by
    rw [Rules.snapshot_ids_eq_keys hI1]
    exact hI1.idKeysNodup
  have hH := Rules.snapshot_lookup hI1
  obtain ⟨fI, fID, ftr, fpost, ffr⟩ :=
    Engine.refreshLoop_spec resolve dnsRefresh now (Rules.Snapshot (Rules.ExpireNow s now).1)
      (Rules.ExpireNow s now).1 (decide (0 < (Rules.ExpireNow s now).2.length)) 0 [] hI1 hnd hH
  refine ⟨Engine.staleGo_iff_claim dnsRefresh now, ?_, ?_⟩
  · have h2 := ftr
    rw [List.nil_append] at h2
    exact h2
  · intro r hr hst newIPs hres hsetne
    obtain ⟨i, hget, hentF⟩ := fpost r hr
    have hip : Engine.ipsEqual r.IPs newIPs = false := Engine.ipsEqual_false_of_set_ne hsetne
    have hRr : Engine.refreshedRule resolve dnsRefresh now r =
        { r with IPs := newIPs, ResolvedAt := now } := by
      unfold Engine.refreshedRule
      rw [if_pos hst, hres]
      dsimp only
      rw [if_pos hip]
    have hgetF : Rules.mapGet (Engine.handleRefreshExpire s resolve dnsRefresh now).1.byID r.ID = some i := by
      have h2 : (Engine.handleRefreshExpire s resolve dnsRefresh now).1.byID =
          (Rules.ExpireNow s now).1.byID := fID
      rw [h2]
      exact hget
    refine ⟨(Rules.entryAt (Engine.handleRefreshExpire s resolve dnsRefresh now).1.entries i).rule,
      Rules.rule_mem_snapshot hgetF, ?_⟩
    have he3 : (Rules.entryAt (Engine.handleRefreshExpire s resolve dnsRefresh now).1.entries i).rule =
        { r with IPs := newIPs, ResolvedAt := now } := by
      rw [← hRr]
      exact hentF
    rw [he3]
    exact ⟨rfl, rfl, rfl, rfl, rfl, rfl⟩

namespace C7W

/-- Witness inputs for the amended C7 theorem: one stale temporary rule and a
resolver that returns a changed address. -/
def ops : List Rules.Op :=
  [ .upsert { ID := "a", Domain := "d.com", IPs := ["1.1.1.1"], Expires := 100, Permanent := false, ResolvedAt := 0 } ]

/-- Witness resolver: every domain resolves to one fixed address. -/
def resolve (d : String) : Except Unit (List String) := .ok ["2.2.2.2"]

end C7W

/-- Witness for the C7 theorem at a concrete store, resolver and tick. -/
theorem reconcile_refreshes_exactly_stale_rules_witness :
    Rules.Inv4 (Rules.runOps C7W.ops) ∧
      ((∀ r : Rules.Rule, Engine.staleGo 10 50 r = true ↔
          (r.ResolvedAt = 0 ∨ 9 * (10 : Int) < 10 * ((50 : Int) - (r.ResolvedAt : Int)))) ∧
        (Engine.handleRefreshExpire (Rules.runOps C7W.ops) C7W.resolve 10 50).2.2.2 =
          ((Rules.Snapshot (Rules.ExpireNow (Rules.runOps C7W.ops) 50).1).filter (Engine.staleGo 10 50)).map Rules.Rule.Domain ∧
        ∀ r ∈ Rules.Snapshot (Rules.ExpireNow (Rules.runOps C7W.ops) 50).1,
          Engine.staleGo 10 50 r = true →
          ∀ newIPs, C7W.resolve r.Domain = Except.ok newIPs →
            ¬ (∀ x, x ∈ r.IPs ↔ x ∈ newIPs) →
            ∃ r2 ∈ Rules.Snapshot (Engine.handleRefreshExpire (Rules.runOps C7W.ops) C7W.resolve 10 50).1,
              r2.ID = r.ID ∧ r2.Domain = r.Domain ∧ r2.IPs = newIPs ∧ r2.Expires = r.Expires ∧
                r2.Permanent = r.Permanent ∧ r2.ResolvedAt = 50) :=
  ⟨by constructor <;> decide,
    reconcile_refreshes_exactly_stale_rules (Rules.runOps C7W.ops) (by constructor <;> decide)
      C7W.resolve 10 50⟩

namespace Filesys

/-- File-system model for AtomicWrite: an association list from file name to
content (a byte list) and mode. -/
abbrev FMap := List (String × (List Nat × Nat))

/-- Lookup of a file. -/
def fGet : FMap → String → Option (List Nat × Nat)
  | [], _ => none
  | (k2, v) :: t, k => if k2 = k then some v else fGet t k

/-- Creation or overwrite of a file. -/
def fSet : FMap → String → (List Nat × Nat) → FMap
  | [], k, v => [(k, v)]
  | (k2, v2) :: t, k, v => if k2 = k then (k, v) :: t else (k2, v2) :: fSet t k v

/-- Unlinking of a file. -/
def fDel (m : FMap) (k : String) : FMap := m.filter (fun p => p.1 ≠ k)

/-- Models os.CreateTemp: an empty file with mode 0600. -/
def fsCreateTemp (fs : FMap) (name : String) : FMap := fSet fs name ([], 384)

/-- Models a full successful write to an open file: content replaced, mode
kept. -/
def fsWriteContent (fs : FMap) (name : String) (data : List Nat) : FMap :=
  match fGet fs name with
  | some (_, m) => fSet fs name (data, m)
  | none => fs

/-- Models Chmod: mode replaced, content kept. -/
def fsChmod (fs : FMap) (name : String) (perm : Nat) : FMap :=
  match fGet fs name with
  | some (c, _) => fSet fs name (c, perm)
  | none => fs

/-- Models Rename: the source entry is unlinked and written over the
destination. -/
def fsRename (fs : FMap) (old2 : String) (new2 : String) : FMap :=
  match fGet fs old2 with
  | some e => fSet (fDel fs old2) new2 e
  | none => fs

/-- Failure oracle for the injected FileOps implementation of AtomicWrite:
which of the calls fail, and the name CreateTemp picks. -/
structure FSOps where
  tmpName : String
  createTempFail : Bool
  writeFail : Bool
  syncFail : Bool
  closeFail : Bool
  chmodFail : Bool
  renameFail : Bool
  removeFail : Bool
deriving Repr, DecidableEq

/-- Models the error-path Remove calls of AtomicWrite: on a Remove failure
the error is only logged and the file stays. -/
def removeTemp (ops : FSOps) (fs : FMap) : FMap :=
  if ops.removeFail then fs else fDel fs ops.tmpName

/-- Embeds AtomicWrite of the filesys source over the file-system model with
the failure oracle: temp creation, write plus sync plus close with the first
error kept, error paths removing the temp file (a failed remove is only
logged), chmod, rename over the destination, and the ignored directory sync.
Returns the file system and whether an error was returned. -/
def AtomicWrite (ops : FSOps) (fs0 : FMap) (dst : String) (data : List Nat) (perm : Nat) :
    FMap × Bool :=
  if ops.createTempFail then (fs0, true)
  else
    let fs1 := fsCreateTemp fs0 ops.tmpName
    let fs2 := if ops.writeFail then fs1 else fsWriteContent fs1 ops.tmpName data
    if ops.writeFail || ops.syncFail || ops.closeFail then (removeTemp ops fs2, true)
    else if ops.chmodFail then (removeTemp ops fs2, true)
    else
      let fs3 := fsChmod fs2 ops.tmpName perm
      if ops.renameFail then (removeTemp ops fs3, true)
      else (fsRename fs3 ops.tmpName dst, false)

theorem fGet_fSet_same (m : FMap) (k : String) (v : List Nat × Nat) :
    fGet (fSet m k v) k = some v := by
  induction m with
  | nil =>
    unfold fSet fGet
    rw [if_pos rfl]
  | cons x t ih =>
    obtain ⟨k3, v3⟩ := x
    unfold fSet
    by_cases hx : k3 = k
    · rw [if_pos hx]
      unfold fGet
      rw [if_pos rfl]
    · rw [if_neg hx]
      unfold fGet
      rw [if_neg hx]
      exact ih

theorem fGet_fSet_ne (m : FMap) {k k2 : String} (h : k2 ≠ k) (v : List Nat × Nat) :
    fGet (fSet m k v) k2 = fGet m k2 := by
  induction m with
  | nil =>
    unfold fSet fGet
    rw [if_neg (fun he => h he.symm)]
    rfl
  | cons x t ih =>
    obtain ⟨k3, v3⟩ := x
    unfold fSet
    by_cases hx : k3 = k
    · rw [if_pos hx]
      unfold fGet
      rw [if_neg (fun he => h he.symm), if_neg (by rw [hx]; exact fun he => h he.symm)]
    · rw [if_neg hx]
      unfold fGet
      by_cases h32 : k3 = k2
      · rw [if_pos h32, if_pos h32]
      · rw [if_neg h32, if_neg h32]
        exact ih

theorem fGet_fDel_same (m : FMap) (k : String) : fGet (fDel m k) k = none := by
  induction m with
  | nil => rfl
  | cons x t ih =>
    obtain ⟨k3, v3⟩ := x
    unfold fDel
    rw [List.filter_cons]
    by_cases hx : k3 = k
    · rw [if_neg (by simp [hx])]
      exact ih
    · rw [if_pos (by simp [hx])]
      unfold fGet
      rw [if_neg hx]
      exact ih

theorem fGet_fDel_ne (m : FMap) {k k2 : String} (h : k2 ≠ k) :
    fGet (fDel m k) k2 = fGet m k2 := by
  induction m with
  | nil => rfl
  | cons x t ih =>
    obtain ⟨k3, v3⟩ := x
    have hcons : fGet ((k3, v3) :: t) k2 = if k3 = k2 then some v3 else fGet t k2 := rfl
    unfold fDel
    rw [List.filter_cons]
    by_cases hx : k3 = k
    · rw [if_neg (by simp [hx]), hcons, if_neg (by rw [hx]; exact fun he => h he.symm)]
      exact ih
    · rw [if_pos (by simp [hx]), hcons]
      have hcons2 : fGet ((k3, v3) :: List.filter (fun p => decide (p.1 ≠ k)) t) k2 =
          if k3 = k2 then some v3 else fGet (List.filter (fun p => decide (p.1 ≠ k)) t) k2 := rfl
      rw [hcons2]
      by_cases h32 : k3 = k2
      · rw [if_pos h32, if_pos h32]
      · rw [if_neg h32, if_neg h32]
        exact ih

end Filesys

namespace Filesys

theorem fGet_fsCreateTemp_ne (fs : FMap) {name k : String} (h : k ≠ name) :
    fGet (fsCreateTemp fs name) k = fGet fs k := fGet_fSet_ne fs h _

theorem fGet_fsCreateTemp_self (fs : FMap) (name : String) :
    fGet (fsCreateTemp fs name) name = some ([], 384) := fGet_fSet_same fs name _

theorem fGet_fsWriteContent_ne (fs : FMap) {name k : String} (h : k ≠ name) (data : List Nat) :
    fGet (fsWriteContent fs name data) k = fGet fs k := by
  unfold fsWriteContent
  cases hg : fGet fs name with
  | none => rfl
  | some e =>
    obtain ⟨c, m⟩ := e
    exact fGet_fSet_ne fs h _

theorem fGet_fsChmod_ne (fs : FMap) {name k : String} (h : k ≠ name) (perm : Nat) :
    fGet (fsChmod fs name perm) k = fGet fs k := by
  unfold fsChmod
  cases hg : fGet fs name with
  | none => rfl
  | some e =>
    obtain ⟨c, m⟩ := e
    exact fGet_fSet_ne fs h _

theorem fGet_removeTemp_ne (ops : FSOps) (fs : FMap) {k : String} (h : k ≠ ops.tmpName) :
    fGet (removeTemp ops fs) k = fGet fs k := by
  unfold removeTemp
  split
  · rfl
  · exact fGet_fDel_ne fs h

theorem fGet_removeTemp_self (ops : FSOps) (fs : FMap) (h : ops.removeFail = false) :
    fGet (removeTemp ops fs) ops.tmpName = none := by
  unfold removeTemp
  rw [if_neg (by rw [h]; exact Bool.false_ne_true)]
  exact fGet_fDel_same fs _

theorem fGet_fs2_dst (ops : FSOps) (fs0 : FMap) (dst : String) (data : List Nat)
    (hne : ops.tmpName ≠ dst) :
    fGet (if ops.writeFail = true then fsCreateTemp fs0 ops.tmpName
      else fsWriteContent (fsCreateTemp fs0 ops.tmpName) ops.tmpName data) dst = fGet fs0 dst := by
  by_cases hw : ops.writeFail = true
  · rw [if_pos hw, fGet_fsCreateTemp_ne fs0 (fun he => hne he.symm)]
  · rw [if_neg hw, fGet_fsWriteContent_ne _ (fun he => hne he.symm),
      fGet_fsCreateTemp_ne fs0 (fun he => hne he.symm)]

theorem fGet_fs2_tmp (ops : FSOps) (fs0 : FMap) (data : List Nat)
    (hw : ops.writeFail = false) :
    fGet (if ops.writeFail = true then fsCreateTemp fs0 ops.tmpName
      else fsWriteContent (fsCreateTemp fs0 ops.tmpName) ops.tmpName data) ops.tmpName =
      some (data, 384) := by
  rw [if_neg (by rw [hw]; exact Bool.false_ne_true)]
  unfold fsWriteContent
  rw [fGet_fsCreateTemp_self fs0 ops.tmpName]
  exact fGet_fSet_same _ _ _

end Filesys

namespace C8X

/-- Counterexample oracle: the chmod step fails and the error-path remove
also fails; every other call succeeds. -/
def ops : Filesys.FSOps :=
  { tmpName := ".void-1", createTempFail := false, writeFail := false, syncFail := false,
    closeFail := false, chmodFail := true, renameFail := false, removeFail := true }

end C8X

/-- C8 counterexample: when the chmod step fails and the error-path Remove
also fails (the code only logs that failure and continues), AtomicWrite
returns an error yet the temporary file is still present, so the temporary
file is not always unlinked on failure. -/
theorem atomicWrite_error_can_leave_temp_file :
    (Filesys.AtomicWrite C8X.ops [] "dst" [7] 420).2 = true ∧
      Filesys.fGet (Filesys.AtomicWrite C8X.ops [] "dst" [7] 420).1 ".void-1" =
        some ([7], 384) := by decide

/-- C8 amended: whenever AtomicWrite returns an error the destination is
unchanged and, provided the error-path Remove call itself succeeds, the
temporary file has been unlinked (a failed Remove is only logged and can
leave the temporary file behind); whenever it returns nil the destination
holds exactly the written data with the requested mode and the temporary
file is gone. The temp name is fresh and distinct from the destination, as
CreateTemp guarantees. -/
theorem atomicWrite_error_keeps_dst_and_attempts_unlink
    (ops : Filesys.FSOps) (fs0 : Filesys.FMap) (dst : String) (data : List Nat) (perm : Nat)
    (hne : ops.tmpName ≠ dst) (hfresh : Filesys.fGet fs0 ops.tmpName = none) :
    ((Filesys.AtomicWrite ops fs0 dst data perm).2 = true →
        Filesys.fGet (Filesys.AtomicWrite ops fs0 dst data perm).1 dst = Filesys.fGet fs0 dst ∧
        (ops.removeFail = false →
          Filesys.fGet (Filesys.AtomicWrite ops fs0 dst data perm).1 ops.tmpName = none)) ∧
      ((Filesys.AtomicWrite ops fs0 dst data perm).2 = false →
        Filesys.fGet (Filesys.AtomicWrite ops fs0 dst data perm).1 dst = some (data, perm) ∧
        Filesys.fGet (Filesys.AtomicWrite ops fs0 dst data perm).1 ops.tmpName = none) := by
  unfold Filesys.AtomicWrite
  by_cases hctf : ops.createTempFail = true
  · rw [if_pos hctf]
    refine ⟨fun _ => ⟨rfl, fun _ => hfresh⟩, fun hfalse => ?_⟩
    cases hfalse
  · rw [if_neg hctf]
    dsimp only
    by_cases hwsc : (ops.writeFail || ops.syncFail || ops.closeFail) = true
    · rw [if_pos hwsc]
      refine ⟨fun _ => ⟨?_, fun hrm => ?_⟩, fun hfalse => ?_⟩
      · rw [Filesys.fGet_removeTemp_ne ops _ (fun he => hne he.symm)]
        exact Filesys.fGet_fs2_dst ops fs0 dst data hne
      · exact Filesys.fGet_removeTemp_self ops _ hrm
      · cases hfalse
    · rw [if_neg hwsc]
      have hw : ops.writeFail = false := by
        cases hx : ops.writeFail
        · rfl
        · exfalso
          apply hwsc
          rw [hx]
          simp
      by_cases hch : ops.chmodFail = true
      · rw [if_pos hch]
        refine ⟨fun _ => ⟨?_, fun hrm => ?_⟩, fun hfalse => ?_⟩
        · rw [Filesys.fGet_removeTemp_ne ops _ (fun he => hne he.symm)]
          exact Filesys.fGet_fs2_dst ops fs0 dst data hne
        · exact Filesys.fGet_removeTemp_self ops _ hrm
        · cases hfalse
      · rw [if_neg hch]
        by_cases hrn : ops.renameFail = true
        · rw [if_pos hrn]
          refine ⟨fun _ => ⟨?_, fun hrm => ?_⟩, fun hfalse => ?_⟩
          · rw [Filesys.fGet_removeTemp_ne ops _ (fun he => hne he.symm),
              Filesys.fGet_fsChmod_ne _ (fun he => hne he.symm)]
            exact Filesys.fGet_fs2_dst ops fs0 dst data hne
          · exact Filesys.fGet_removeTemp_self ops _ hrm
          · cases hfalse
        · rw [if_neg hrn]
          have hg2 := Filesys.fGet_fs2_tmp ops fs0 data hw
          have hg3 : Filesys.fGet (Filesys.fsChmod
              (if ops.writeFail = true then Filesys.fsCreateTemp fs0 ops.tmpName
                else Filesys.fsWriteContent (Filesys.fsCreateTemp fs0 ops.tmpName) ops.tmpName data)
              ops.tmpName perm) ops.tmpName = some (data, perm) := by
            unfold Filesys.fsChmod
            rw [hg2]
            exact Filesys.fGet_fSet_same _ _ _
          refine ⟨fun htrue => ?_, fun _ => ⟨?_, ?_⟩⟩
          · cases htrue
          · show Filesys.fGet (Filesys.fsRename _ ops.tmpName dst) dst = some (data, perm)
            unfold Filesys.fsRename
            rw [hg3]
            exact Filesys.fGet_fSet_same _ _ _
          · show Filesys.fGet (Filesys.fsRename _ ops.tmpName dst) ops.tmpName = none
            unfold Filesys.fsRename
            rw [hg3]
            rw [Filesys.fGet_fSet_ne _ hne _]
            exact Filesys.fGet_fDel_same _ _

namespace C8W

/-- Witness oracle for the amended C8 theorem: the rename step fails and the
error-path remove succeeds. -/
def ops : Filesys.FSOps :=
  { tmpName := ".void-2", createTempFail := false, writeFail := false, syncFail := false,
    closeFail := false, chmodFail := false, renameFail := true, removeFail := false }

/-- Witness initial file system: the destination already holds one byte. -/
def fs0 : Filesys.FMap := [("dst", ([1], 420))]

end C8W

/-- Witness for the amended C8 theorem at a concrete oracle and file
system. -/
theorem atomicWrite_error_keeps_dst_and_attempts_unlink_witness :
    (C8W.ops.tmpName ≠ "dst" ∧ Filesys.fGet C8W.fs0 C8W.ops.tmpName = none) ∧
      (((Filesys.AtomicWrite C8W.ops C8W.fs0 "dst" [7] 420).2 = true →
          Filesys.fGet (Filesys.AtomicWrite C8W.ops C8W.fs0 "dst" [7] 420).1 "dst" =
            Filesys.fGet C8W.fs0 "dst" ∧
          (C8W.ops.removeFail = false →
            Filesys.fGet (Filesys.AtomicWrite C8W.ops C8W.fs0 "dst" [7] 420).1 C8W.ops.tmpName = none)) ∧
        ((Filesys.AtomicWrite C8W.ops C8W.fs0 "dst" [7] 420).2 = false →
          Filesys.fGet (Filesys.AtomicWrite C8W.ops C8W.fs0 "dst" [7] 420).1 "dst" = some ([7], 420) ∧
          Filesys.fGet (Filesys.AtomicWrite C8W.ops C8W.fs0 "dst" [7] 420).1 C8W.ops.tmpName = none)) :=
  ⟨⟨by decide, by decide⟩,
    atomicWrite_error_keeps_dst_and_attempts_unlink C8W.ops C8W.fs0 "dst" [7] 420
      (by decide) (by decide)⟩

namespace Dnsresolver

/-- Embeds Client.lookupIPs of resolver.go with the results of the two
record-type queries as parameters: addresses of successful queries are
collected and an empty collection returns the aggregated error. -/
def lookupIPs (resA resAAAA : Except Unit (List String)) : Except Unit (List String) :=
  let ips := (match resA with | .ok l => l | .error _ => []) ++
    (match resAAAA with | .ok l => l | .error _ => [])
  if ips.length = 0 then .error () else .ok ips

/-- Embeds Client.LookupHost of resolver.go; the standard-library helpers
strings.TrimSpace and net.ParseIP are parameters, as are the results of the
two DNS queries lookupIPs would issue. The Bool records whether DNS was
queried at all. -/
def LookupHost (trimSpace : String → String) (parseIP : String → Option String)
    (resA resAAAA : Except Unit (List String)) (hostname : String) :
    Except Unit (List String) × Bool :=
  if trimSpace hostname = "" then (.error (), false)
  else
    match parseIP hostname with
    | some ip => (.ok [ip], false)
    | none => (lookupIPs resA resAAAA, true)

end Dnsresolver

/-- C10: a hostname that parses as an IP literal (no IP literal trims to the
empty string) is returned as the single-element address list with no error
and with no DNS query issued; and every successful LookupHost result is a
non-empty address list. -/
theorem lookupHost_ip_literal_no_query_and_nonempty
    (trimSpace : String → String) (parseIP : String → Option String)
    (resA resAAAA : Except Unit (List String)) (hostname : String) :
    (∀ ip, parseIP hostname = some ip → trimSpace hostname ≠ "" →
        Dnsresolver.LookupHost trimSpace parseIP resA resAAAA hostname =
          (Except.ok [ip], false)) ∧
      (∀ ips, (Dnsresolver.LookupHost trimSpace parseIP resA resAAAA hostname).1 =
          Except.ok ips → ips ≠ []) := by
  constructor
  · intro ip hip hts
    unfold Dnsresolver.LookupHost
    rw [if_neg hts, hip]
  · intro ips hok
    unfold Dnsresolver.LookupHost at hok
    by_cases hts : trimSpace hostname = ""
    · rw [if_pos hts] at hok
      cases hok
    · rw [if_neg hts] at hok
      cases hp : parseIP hostname with
      | some ip =>
        rw [hp] at hok
        dsimp only at hok
        injection hok with h2
        intro hnil
        rw [hnil] at h2
        cases h2
      | none =>
        rw [hp] at hok
        dsimp only at hok
        unfold Dnsresolver.lookupIPs at hok
        dsimp only at hok
        split at hok
        · cases hok
        · injection hok with h2
          intro hnil
          rename_i hlen
          apply hlen
          rw [h2, hnil]
          rfl

namespace Pf

/-- Modelled from the spec: the opening text of a managed-block delimiter
line, up to the id token. -/
def beginPre : List Char := "# === VOID-RULE ".data

/-- Modelled from the spec: the tail of a BEGIN delimiter after the id. -/
def beginSuf : List Char := " BEGIN ===".data

/-- Modelled from the spec: the tail of an END delimiter after the id. -/
def endSuf : List Char := " END ===".data

/-- Modelled from the spec: the opening text of the Domain header line. -/
def domPre : List Char := "# Domain: ".data

/-- Modelled from the spec: the opening text of the Expires header line. -/
def expPre : List Char := "# Expires: ".data

/-- Modelled from the spec: the tcp body line up to the address. -/
def tcpPre : List Char := "block return out proto tcp from any to ".data

/-- Modelled from the spec: the udp body line up to the address. -/
def udpPre : List Char := "block return out proto udp from any to ".data

/-- Modelled from the spec: whether a line opens with the given text. -/
def hasPre (pre l : List Char) : Bool := decide (l.take pre.length = pre)

/-- Modelled from the spec: exact prefix/suffix recognition of a delimiter
line, returning the text between the two. -/
def stripEnds (pre suf l : List Char) : Option (List Char) :=
  if pre.length + suf.length ≤ l.length ∧ l.take pre.length = pre ∧
      l.drop (l.length - suf.length) = suf
  then some ((l.drop pre.length).take (l.length - pre.length - suf.length))
  else none

/-- Modelled from the spec: a delimiter id is any non-empty token of
non-whitespace characters. -/
def tokenOk (t : List Char) : Bool := decide (t ≠ []) && t.all (fun c => !c.isWhitespace)

/-- Modelled from the spec: recognition of a BEGIN delimiter line. -/
def parseBegin (l : List Char) : Option (List Char) :=
  match stripEnds beginPre beginSuf l with
  | some t => if tokenOk t then some t else none
  | none => none

/-- Modelled from the spec: recognition of an END delimiter line. -/
def parseEnd (l : List Char) : Option (List Char) :=
  match stripEnds beginPre endSuf l with
  | some t => if tokenOk t then some t else none
  | none => none

/-- Modelled from the spec: a managed block under construction between its
BEGIN and END delimiters. -/
structure OpenBlock where
  bid : List Char
  dom : List Char
  expires : Option Nat
  ips : List (List Char)
deriving Repr, DecidableEq

/-- Modelled from the spec: an address joins a block's IP set deduped across
the tcp and udp pair. -/
def addIP (acc : List (List Char)) (ip : List Char) : List (List Char) :=
  if ip ∈ acc then acc else acc ++ [ip]

/-- Modelled from the spec: the fatal parse errors of the walk. -/
inductive CodecErr
  | orphanEnd
  | nestedBegin
  | mismatchedId
  | duplicateId
deriving Repr, DecidableEq

/-- Modelled from the spec: the rule a completed block denotes; an Expires
header sets permanent false, its absence sets permanent true and leaves the
expiry zero; resolution time is not part of the anchor format. -/
def mkRule (b : OpenBlock) : Rules.Rule :=
  { ID := ⟨b.bid⟩, Domain := ⟨b.dom⟩, IPs := b.ips.map (fun l => (⟨l⟩ : String)),
    Expires := b.expires.getD 0, Permanent := b.expires.isNone, ResolvedAt := 0 }

/-- Modelled from the spec: the walk processes one line: delimiters drive
the open-block state (nested BEGIN, orphan END, mismatched END id and a
completed duplicate id are fatal), header and body lines of an open block
fill it, and all other lines are ignored. -/
def lineStep (parseTime : List Char → Option Nat) (st : Option OpenBlock)
    (seen : List (List Char)) (acc : List Rules.Rule) (l : List Char) :
    Except CodecErr (Option OpenBlock × List (List Char) × List Rules.Rule) :=
  match parseBegin l with
  | some id2 =>
    match st with
    | some _ => .error .nestedBegin
    | none => .ok (some ⟨id2, [], none, []⟩, seen, acc)
  | none =>
    match parseEnd l with
    | some id2 =>
      match st with
      | none => .error .orphanEnd
      | some b =>
        if b.bid ≠ id2 then .error .mismatchedId
        else if id2 ∈ seen then .error .duplicateId
        else .ok (none, seen ++ [id2], acc ++ [mkRule b])
    | none =>
      match st with
      | none => .ok (none, seen, acc)
      | some b =>
        if hasPre domPre l then
          .ok (some { b with dom := l.drop domPre.length }, seen, acc)
        else if hasPre expPre l then
          match parseTime (l.drop expPre.length) with
          | some t => .ok (some { b with expires := some t }, seen, acc)
          | none => .ok (some b, seen, acc)
        else if hasPre tcpPre l then
          .ok (some { b with ips := addIP b.ips (l.drop tcpPre.length) }, seen, acc)
        else if hasPre udpPre l then
          .ok (some { b with ips := addIP b.ips (l.drop udpPre.length) }, seen, acc)
        else .ok (some b, seen, acc)

/-- Modelled from the spec: the walk over all lines; a block left open at end
of input is dropped silently. -/
def walkLines (parseTime : List Char → Option Nat) :
    List (List Char) → Option OpenBlock → List (List Char) → List Rules.Rule →
    Except CodecErr (List Rules.Rule)
  | [], _, _, acc => .ok acc
  | l :: rest, st, seen, acc =>
    match lineStep parseTime st seen acc l with
    | .error e => .error e
    | .ok (st2, seen2, acc2) => walkLines parseTime rest st2 seen2 acc2

/-- Modelled from the spec: split the byte stream into lines at LF. -/
def splitNl : List Char → List (List Char)
  | [] => [[]]
  | c :: rest =>
    if c = '\n' then [] :: splitNl rest
    else
      match splitNl rest with
      | [] => [[c]]
      | l :: ls => (c :: l) :: ls

/-- Modelled from the spec: CRLF tolerance, one trailing CR per line is
dropped. -/
def stripCR (l : List Char) : List Char :=
  match l.reverse with
  | c :: rest => if c = '\r' then rest.reverse else l
  | [] => l

/-- Modelled from the spec: the parser over a byte stream. -/
def parse (parseTime : List Char → Option Nat) (cs : List Char) :
    Except CodecErr (List Rules.Rule) :=
  walkLines parseTime ((splitNl cs).map stripCR) none [] []

/-- Modelled from the spec: the canonical lines of one emitted block, each IP
written as a tcp plus udp pair and the Expires header only on non-permanent
rules. -/
def emitRule (fmtTime : Nat → List Char) (r : Rules.Rule) : List (List Char) :=
  [beginPre ++ r.ID.data ++ beginSuf, domPre ++ r.Domain.data]
    ++ (if r.Permanent then [] else [expPre ++ fmtTime r.Expires])
    ++ (r.IPs.map String.data).flatMap (fun ip => [tcpPre ++ ip, udpPre ++ ip])
    ++ [beginPre ++ r.ID.data ++ endSuf]

/-- Modelled from the spec: the fixed canonical header the emitter writes,
the void-anchor comment plus a PF set option line. -/
def headerLines : List (List Char) := ["# void-anchor".data, "set skip on lo0".data]

/-- Modelled from the spec: lines are written with an LF terminator each. -/
def joinLines (ls : List (List Char)) : List Char := ls.flatMap (fun l => l ++ ['\n'])

/-- Modelled from the spec: the emitter, canonical header then blocks in rule
order. -/
def emit (fmtTime : Nat → List Char) (xs : List Rules.Rule) : List Char :=
  joinLines (headerLines ++ xs.flatMap (emitRule fmtTime))

/-- The rule the parser reconstructs for an emitted rule: same fields up to
the resolution time being zeroed, the expiry zeroed on permanent rules, and
the IP list deduped. -/
def parsedOf (r : Rules.Rule) : Rules.Rule :=
  { ID := r.ID, Domain := r.Domain,
    IPs := ((r.IPs.map String.data).foldl addIP []).map (fun l => (⟨l⟩ : String)),
    Expires := if r.Permanent = true then 0 else r.Expires,
    Permanent := r.Permanent, ResolvedAt := 0 }

end Pf

namespace Pf

theorem take_app_le {P x : List Char} {k : Nat} (hk : k ≤ P.length) :
    (P ++ x).take k = P.take k := by
  rw [List.take_append_eq_append_take, Nat.sub_eq_zero_of_le hk]
  simp

theorem hasPre_app (P x : List Char) : hasPre P (P ++ x) = true := by
  unfold hasPre
  rw [decide_eq_true_eq]
  exact List.take_left P x

theorem hasPre_false_of_take {P l : List Char} (k : Nat) (hk : k ≤ P.length)
    (h : l.take k ≠ P.take k) : hasPre P l = false := by
  unfold hasPre
  rw [decide_eq_false_iff_not]
  intro he
  apply h
  have h2 := congrArg (List.take k) he
  rw [List.take_take, Nat.min_eq_left hk] at h2
  exact h2

theorem hasPre_app_false {P2 P : List Char} (x : List Char) (k : Nat) (hk2 : k ≤ P2.length)
    (hkP : k ≤ P.length) (hne2 : P.take k ≠ P2.take k) : hasPre P2 (P ++ x) = false :=
  hasPre_false_of_take k hk2 (by rw [take_app_le hkP]; exact hne2)

theorem stripEnds_exact (pre mid suf : List Char) :
    stripEnds pre suf (pre ++ mid ++ suf) = some mid := by
  unfold stripEnds
  have hlen : (pre ++ mid ++ suf).length = pre.length + mid.length + suf.length := by
    simp
    omega
  have hA : (pre ++ mid ++ suf).length - suf.length = (pre ++ mid).length := by
    rw [hlen, List.length_append]
    omega
  rw [if_pos ⟨by rw [hlen]; omega, by rw [List.append_assoc]; exact List.take_left pre _,
    by rw [hA]; exact List.drop_left _ suf⟩]
  congr 1
  have hm : (pre ++ mid ++ suf).length - pre.length - suf.length = mid.length := by
    rw [hlen]
    omega
  rw [hm, List.append_assoc, List.drop_left]
  exact List.take_left mid suf

theorem stripEnds_none_ofPre {pre suf l : List Char} (k : Nat) (hk : k ≤ pre.length)
    (h : l.take k ≠ pre.take k) : stripEnds pre suf l = none := by
  unfold stripEnds
  rw [if_neg]
  rintro ⟨h1, h2, h3⟩
  apply h
  have h4 := congrArg (List.take k) h2
  rw [List.take_take, Nat.min_eq_left hk] at h4
  exact h4

theorem stripEnds_none_ofSuf {pre suf l : List Char} (k : Nat) (hk : k ≤ suf.length)
    (h : l.drop (l.length - k) ≠ suf.drop (suf.length - k)) : stripEnds pre suf l = none := by
  unfold stripEnds
  rw [if_neg]
  rintro ⟨h1, h2, h3⟩
  apply h
  have h4 := congrArg (List.drop (suf.length - k)) h3
  rw [List.drop_drop] at h4
  have h5 : l.length - suf.length + (suf.length - k) = l.length - k := by omega
  rw [h5] at h4
  exact h4

theorem drop_last_of_app (A suf : List Char) (k : Nat) (hk : k ≤ suf.length) :
    (A ++ suf).drop ((A ++ suf).length - k) = suf.drop (suf.length - k) := by
  rw [List.length_append]
  have h2 : A.length + suf.length - k = A.length + (suf.length - k) := by omega
  rw [h2, ← List.drop_drop, List.drop_left]

end Pf

namespace Pf

theorem parseBegin_none_ofPre {l : List Char} (k : Nat) (hk : k ≤ beginPre.length)
    (h : l.take k ≠ beginPre.take k) : parseBegin l = none := by
  unfold parseBegin
  rw [stripEnds_none_ofPre k hk h]

theorem parseEnd_none_ofPre {l : List Char} (k : Nat) (hk : k ≤ beginPre.length)
    (h : l.take k ≠ beginPre.take k) : parseEnd l = none := by
  unfold parseEnd
  rw [stripEnds_none_ofPre k hk h]

theorem parseBegin_emit {id2 : List Char} (htok : tokenOk id2 = true) :
    parseBegin (beginPre ++ id2 ++ beginSuf) = some id2 := by
  unfold parseBegin
  rw [stripEnds_exact]
  show (if tokenOk id2 = true then some id2 else none) = some id2
  rw [if_pos htok]

theorem parseEnd_emit {id2 : List Char} (htok : tokenOk id2 = true) :
    parseEnd (beginPre ++ id2 ++ endSuf) = some id2 := by
  unfold parseEnd
  rw [stripEnds_exact]
  show (if tokenOk id2 = true then some id2 else none) = some id2
  rw [if_pos htok]

theorem parseEnd_of_begin_line (id2 : List Char) :
    parseEnd (beginPre ++ id2 ++ beginSuf) = none := by
  have h0 : stripEnds beginPre endSuf (beginPre ++ id2 ++ beginSuf) = none := by
    refine stripEnds_none_ofSuf 8 (by decide) ?_
    rw [drop_last_of_app (beginPre ++ id2) beginSuf 8 (by decide)]
    decide
  unfold parseEnd
  rw [h0]

theorem parseBegin_of_end_line (id2 : List Char) :
    parseBegin (beginPre ++ id2 ++ endSuf) = none := by
  have h0 : stripEnds beginPre beginSuf (beginPre ++ id2 ++ endSuf) = none := by
    refine stripEnds_none_ofSuf 8 (by decide) ?_
    rw [drop_last_of_app (beginPre ++ id2) endSuf 8 (by decide)]
    decide
  unfold parseBegin
  rw [h0]

theorem parseBegin_dom (x : List Char) : parseBegin (domPre ++ x) = none :=
  parseBegin_none_ofPre 10 (by decide) (by rw [@take_app_le domPre x 10 (by decide)]; decide)

theorem parseEnd_dom (x : List Char) : parseEnd (domPre ++ x) = none :=
  parseEnd_none_ofPre 10 (by decide) (by rw [@take_app_le domPre x 10 (by decide)]; decide)

theorem parseBegin_exp (x : List Char) : parseBegin (expPre ++ x) = none :=
  parseBegin_none_ofPre 11 (by decide) (by rw [@take_app_le expPre x 11 (by decide)]; decide)

theorem parseEnd_exp (x : List Char) : parseEnd (expPre ++ x) = none :=
  parseEnd_none_ofPre 11 (by decide) (by rw [@take_app_le expPre x 11 (by decide)]; decide)

theorem parseBegin_tcp (x : List Char) : parseBegin (tcpPre ++ x) = none :=
  parseBegin_none_ofPre 16 (by decide) (by rw [@take_app_le tcpPre x 16 (by decide)]; decide)

theorem parseEnd_tcp (x : List Char) : parseEnd (tcpPre ++ x) = none :=
  parseEnd_none_ofPre 16 (by decide) (by rw [@take_app_le tcpPre x 16 (by decide)]; decide)

theorem parseBegin_udp (x : List Char) : parseBegin (udpPre ++ x) = none :=
  parseBegin_none_ofPre 16 (by decide) (by rw [@take_app_le udpPre x 16 (by decide)]; decide)

theorem parseEnd_udp (x : List Char) : parseEnd (udpPre ++ x) = none :=
  parseEnd_none_ofPre 16 (by decide) (by rw [@take_app_le udpPre x 16 (by decide)]; decide)

theorem hasPre_dom_exp (x : List Char) : hasPre domPre (expPre ++ x) = false :=
  @hasPre_app_false domPre expPre x 10 (by decide) (by decide) (by decide)

theorem hasPre_dom_tcp (x : List Char) : hasPre domPre (tcpPre ++ x) = false :=
  @hasPre_app_false domPre tcpPre x 10 (by decide) (by decide) (by decide)

theorem hasPre_exp_tcp (x : List Char) : hasPre expPre (tcpPre ++ x) = false :=
  @hasPre_app_false expPre tcpPre x 11 (by decide) (by decide) (by decide)

theorem hasPre_dom_udp (x : List Char) : hasPre domPre (udpPre ++ x) = false :=
  @hasPre_app_false domPre udpPre x 10 (by decide) (by decide) (by decide)

theorem hasPre_exp_udp (x : List Char) : hasPre expPre (udpPre ++ x) = false :=
  @hasPre_app_false expPre udpPre x 11 (by decide) (by decide) (by decide)

theorem hasPre_tcp_udp (x : List Char) : hasPre tcpPre (udpPre ++ x) = false :=
  @hasPre_app_false tcpPre udpPre x 27 (by decide) (by decide) (by decide)

end Pf

namespace Pf

theorem lineStep_begin (parseTime : List Char → Option Nat) (seen : List (List Char))
    (acc : List Rules.Rule) {l id2 : List Char} (hB : parseBegin l = some id2) :
    lineStep parseTime none seen acc l = .ok (some ⟨id2, [], none, []⟩, seen, acc) := by
  unfold lineStep
  rw [hB]

theorem lineStep_end (parseTime : List Char → Option Nat) (b : OpenBlock)
    (seen : List (List Char)) (acc : List Rules.Rule) {l id2 : List Char}
    (hB : parseBegin l = none) (hE : parseEnd l = some id2)
    (hid : b.bid = id2) (hseen : id2 ∉ seen) :
    lineStep parseTime (some b) seen acc l = .ok (none, seen ++ [id2], acc ++ [mkRule b]) := by
  unfold lineStep
  rw [hB, hE]
  show (if b.bid ≠ id2 then Except.error CodecErr.mismatchedId
    else if id2 ∈ seen then Except.error CodecErr.duplicateId
    else .ok (none, seen ++ [id2], acc ++ [mkRule b])) = _
  rw [if_neg (fun hne => hne hid), if_neg hseen]

theorem lineStep_skip (parseTime : List Char → Option Nat) (seen : List (List Char))
    (acc : List Rules.Rule) {l : List Char} (hB : parseBegin l = none)
    (hE : parseEnd l = none) :
    lineStep parseTime none seen acc l = .ok (none, seen, acc) := by
  unfold lineStep
  rw [hB, hE]

theorem lineStep_dom (parseTime : List Char → Option Nat) (b : OpenBlock)
    (seen : List (List Char)) (acc : List Rules.Rule) (x : List Char) :
    lineStep parseTime (some b) seen acc (domPre ++ x) =
      .ok (some { b with dom := x }, seen, acc) := by
  unfold lineStep
  rw [parseBegin_dom x, parseEnd_dom x]
  show (if hasPre domPre (domPre ++ x) = true
    then Except.ok (some { b with dom := (domPre ++ x).drop domPre.length }, seen, acc)
    else _) = _
  rw [if_pos (hasPre_app domPre x), List.drop_left]

theorem lineStep_exp (parseTime : List Char → Option Nat) (b : OpenBlock)
    (seen : List (List Char)) (acc : List Rules.Rule) {x : List Char} {t : Nat}
    (ht : parseTime x = some t) :
    lineStep parseTime (some b) seen acc (expPre ++ x) =
      .ok (some { b with expires := some t }, seen, acc) := by
  unfold lineStep
  rw [parseBegin_exp x, parseEnd_exp x]
  show (if hasPre domPre (expPre ++ x) = true
    then Except.ok (some { b with dom := (expPre ++ x).drop domPre.length }, seen, acc)
    else if hasPre expPre (expPre ++ x) = true then
      match parseTime ((expPre ++ x).drop expPre.length) with
      | some t => Except.ok (some { b with expires := some t }, seen, acc)
      | none => Except.ok (some b, seen, acc)
    else _) = _
  rw [if_neg (by rw [hasPre_dom_exp x]; exact Bool.false_ne_true),
    if_pos (hasPre_app expPre x), List.drop_left, ht]

theorem lineStep_tcp (parseTime : List Char → Option Nat) (b : OpenBlock)
    (seen : List (List Char)) (acc : List Rules.Rule) (ip : List Char) :
    lineStep parseTime (some b) seen acc (tcpPre ++ ip) =
      .ok (some { b with ips := addIP b.ips ip }, seen, acc) := by
  unfold lineStep
  rw [parseBegin_tcp ip, parseEnd_tcp ip]
  show (if hasPre domPre (tcpPre ++ ip) = true
    then Except.ok (some { b with dom := (tcpPre ++ ip).drop domPre.length }, seen, acc)
    else if hasPre expPre (tcpPre ++ ip) = true then
      match parseTime ((tcpPre ++ ip).drop expPre.length) with
      | some t => Except.ok (some { b with expires := some t }, seen, acc)
      | none => Except.ok (some b, seen, acc)
    else if hasPre tcpPre (tcpPre ++ ip) = true then
      Except.ok (some { b with ips := addIP b.ips ((tcpPre ++ ip).drop tcpPre.length) }, seen, acc)
    else _) = _
  rw [if_neg (by rw [hasPre_dom_tcp ip]; exact Bool.false_ne_true),
    if_neg (by rw [hasPre_exp_tcp ip]; exact Bool.false_ne_true),
    if_pos (hasPre_app tcpPre ip), List.drop_left]

theorem lineStep_udp (parseTime : List Char → Option Nat) (b : OpenBlock)
    (seen : List (List Char)) (acc : List Rules.Rule) (ip : List Char) :
    lineStep parseTime (some b) seen acc (udpPre ++ ip) =
      .ok (some { b with ips := addIP b.ips ip }, seen, acc) := by
  unfold lineStep
  rw [parseBegin_udp ip, parseEnd_udp ip]
  show (if hasPre domPre (udpPre ++ ip) = true
    then Except.ok (some { b with dom := (udpPre ++ ip).drop domPre.length }, seen, acc)
    else if hasPre expPre (udpPre ++ ip) = true then
      match parseTime ((udpPre ++ ip).drop expPre.length) with
      | some t => Except.ok (some { b with expires := some t }, seen, acc)
      | none => Except.ok (some b, seen, acc)
    else if hasPre tcpPre (udpPre ++ ip) = true then
      Except.ok (some { b with ips := addIP b.ips ((udpPre ++ ip).drop tcpPre.length) }, seen, acc)
    else if hasPre udpPre (udpPre ++ ip) = true then
      Except.ok (some { b with ips := addIP b.ips ((udpPre ++ ip).drop udpPre.length) }, seen, acc)
    else _) = _
  rw [if_neg (by rw [hasPre_dom_udp ip]; exact Bool.false_ne_true),
    if_neg (by rw [hasPre_exp_udp ip]; exact Bool.false_ne_true),
    if_neg (by rw [hasPre_tcp_udp ip]; exact Bool.false_ne_true),
    if_pos (hasPre_app udpPre ip), List.drop_left]

theorem walk_cons (parseTime : List Char → Option Nat) (l : List Char)
    (rest : List (List Char)) (st : Option OpenBlock) (seen : List (List Char))
    (acc : List Rules.Rule) {st2 : Option OpenBlock} {seen2 : List (List Char)}
    {acc2 : List Rules.Rule}
    (h : lineStep parseTime st seen acc l = .ok (st2, seen2, acc2)) :
    walkLines parseTime (l :: rest) st seen acc =
      walkLines parseTime rest st2 seen2 acc2 := by
  have he : walkLines parseTime (l :: rest) st seen acc =
      match lineStep parseTime st seen acc l with
      | .error e => .error e
      | .ok (st3, seen3, acc3) => walkLines parseTime rest st3 seen3 acc3 := rfl
  rw [he, h]

end Pf

namespace Pf

theorem mem_addIP_self (A : List (List Char)) (x : List Char) : x ∈ addIP A x := by
  unfold addIP
  split
  · assumption
  · simp

theorem addIP_addIP (A : List (List Char)) (x : List Char) :
    addIP (addIP A x) x = addIP A x := by
  show (if x ∈ addIP A x then addIP A x else addIP A x ++ [x]) = addIP A x
  rw [if_pos (mem_addIP_self A x)]

theorem walk_body (parseTime : List Char → Option Nat) (ips : List (List Char)) :
    ∀ (b : OpenBlock) (rest : List (List Char)) (seen : List (List Char)) (acc : List Rules.Rule),
      walkLines parseTime (ips.flatMap (fun ip => [tcpPre ++ ip, udpPre ++ ip]) ++ rest)
          (some b) seen acc =
        walkLines parseTime rest (some { b with ips := ips.foldl addIP b.ips }) seen acc := by
  induction ips with
  | nil =>
    intro b rest seen acc
    rfl
  | cons ip t ih =>
    intro b rest seen acc
    rw [List.flatMap_cons, List.append_assoc]
    simp only [List.cons_append, List.nil_append]
    rw [walk_cons _ _ _ _ _ _ (lineStep_tcp parseTime b seen acc ip)]
    rw [walk_cons _ _ _ _ _ _
      (lineStep_udp parseTime { b with ips := addIP b.ips ip } seen acc ip)]
    dsimp only
    rw [addIP_addIP]
    rw [List.foldl_cons]
    exact ih _ rest seen acc

theorem mkRule_perm (r : Rules.Rule) (hperm : r.Permanent = true) :
    mkRule ⟨r.ID.data, r.Domain.data, none, (r.IPs.map String.data).foldl addIP []⟩ =
      parsedOf r := by
  unfold mkRule parsedOf
  have h0 : (if r.Permanent = true then 0 else r.Expires) = 0 := if_pos hperm
  rw [h0, hperm]
  rfl

theorem mkRule_temp (r : Rules.Rule) (hperm : r.Permanent = false) :
    mkRule ⟨r.ID.data, r.Domain.data, some r.Expires, (r.IPs.map String.data).foldl addIP []⟩ =
      parsedOf r := by
  unfold mkRule parsedOf
  have h0 : (if r.Permanent = true then 0 else r.Expires) = r.Expires :=
    if_neg (by rw [hperm]; exact Bool.false_ne_true)
  rw [h0, hperm]
  rfl

theorem lineStep_end_self (parseTime : List Char → Option Nat) (b : OpenBlock)
    (seen : List (List Char)) (acc : List Rules.Rule)
    (htok : tokenOk b.bid = true) (hseen : b.bid ∉ seen) :
    lineStep parseTime (some b) seen acc (beginPre ++ b.bid ++ endSuf) =
      .ok (none, seen ++ [b.bid], acc ++ [mkRule b]) :=
  lineStep_end parseTime b seen acc (parseBegin_of_end_line _) (parseEnd_emit htok) rfl hseen

theorem walk_rule (parseTime : List Char → Option Nat) (fmtTime : Nat → List Char)
    (r : Rules.Rule) (rest : List (List Char)) (seen : List (List Char)) (acc : List Rules.Rule)
    (htok : tokenOk r.ID.data = true)
    (htime : parseTime (fmtTime r.Expires) = some r.Expires)
    (hseen : r.ID.data ∉ seen) :
    walkLines parseTime (emitRule fmtTime r ++ rest) none seen acc =
      walkLines parseTime rest none (seen ++ [r.ID.data]) (acc ++ [parsedOf r]) := by
  unfold emitRule
  by_cases hperm : r.Permanent = true
  · rw [if_pos hperm]
    simp only [List.append_assoc, List.cons_append, List.nil_append]
    rw [← List.append_assoc beginPre r.ID.data beginSuf,
      ← List.append_assoc beginPre r.ID.data endSuf]
    rw [walk_cons _ _ _ _ _ _ (lineStep_begin parseTime seen acc (parseBegin_emit htok))]
    rw [walk_cons _ _ _ _ _ _
      (lineStep_dom parseTime ⟨r.ID.data, [], none, []⟩ seen acc r.Domain.data)]
    dsimp only
    rw [walk_body parseTime (r.IPs.map String.data) ⟨r.ID.data, r.Domain.data, none, []⟩ _ seen acc]
    dsimp only
    rw [walk_cons _ _ _ _ _ _
      (lineStep_end_self parseTime
        ⟨r.ID.data, r.Domain.data, none, (r.IPs.map String.data).foldl addIP []⟩
        seen acc htok hseen)]
    rw [mkRule_perm r hperm]
  · rw [if_neg hperm]
    simp only [List.append_assoc, List.cons_append, List.nil_append]
    rw [← List.append_assoc beginPre r.ID.data beginSuf,
      ← List.append_assoc beginPre r.ID.data endSuf]
    rw [walk_cons _ _ _ _ _ _ (lineStep_begin parseTime seen acc (parseBegin_emit htok))]
    rw [walk_cons _ _ _ _ _ _
      (lineStep_dom parseTime ⟨r.ID.data, [], none, []⟩ seen acc r.Domain.data)]
    dsimp only
    rw [walk_cons _ _ _ _ _ _
      (lineStep_exp parseTime ⟨r.ID.data, r.Domain.data, none, []⟩ seen acc htime)]
    dsimp only
    rw [walk_body parseTime (r.IPs.map String.data)
      ⟨r.ID.data, r.Domain.data, some r.Expires, []⟩ _ seen acc]
    dsimp only
    rw [walk_cons _ _ _ _ _ _
      (lineStep_end_self parseTime
        ⟨r.ID.data, r.Domain.data, some r.Expires, (r.IPs.map String.data).foldl addIP []⟩
        seen acc htok hseen)]
    rw [mkRule_temp r (by simpa using hperm)]

end Pf

namespace Pf

theorem walk_rules (parseTime : List Char → Option Nat) (fmtTime : Nat → List Char)
    (xs : List Rules.Rule) :
    ∀ (rest : List (List Char)) (seen : List (List Char)) (acc : List Rules.Rule),
      (∀ r ∈ xs, tokenOk r.ID.data = true) →
      (∀ r ∈ xs, parseTime (fmtTime r.Expires) = some r.Expires) →
      (∀ r ∈ xs, r.ID.data ∉ seen) →
      (xs.map (fun r => r.ID.data)).Nodup →
      walkLines parseTime (xs.flatMap (emitRule fmtTime) ++ rest) none seen acc =
        walkLines parseTime rest none (seen ++ xs.map (fun r => r.ID.data))
          (acc ++ xs.map parsedOf) := by
  induction xs with
  | nil =>
    intro rest seen acc _ _ _ _
    simp
  | cons r t ih =>
    intro rest seen acc htok htime hseen hnd
    have hnd1 : (r.ID.data :: t.map (fun r2 => r2.ID.data)).Nodup := by simpa using hnd
    have hhead : r.ID.data ∉ t.map (fun r2 => r2.ID.data) := (List.nodup_cons.mp hnd1).1
    rw [List.flatMap_cons, List.append_assoc]
    rw [walk_rule parseTime fmtTime r _ seen acc (htok r (List.mem_cons_self r t))
      (htime r (List.mem_cons_self r t)) (hseen r (List.mem_cons_self r t))]
    rw [ih _ (seen ++ [r.ID.data]) (acc ++ [parsedOf r])
      (fun r2 hr2 => htok r2 (List.mem_cons_of_mem r hr2))
      (fun r2 hr2 => htime r2 (List.mem_cons_of_mem r hr2))
      ?_ (List.nodup_cons.mp hnd1).2]
    · simp [List.append_assoc]
    · intro r2 hr2 hmem
      rcases List.mem_append.mp hmem with h1 | h1
      · exact hseen r2 (List.mem_cons_of_mem r hr2) h1
      · have he : r2.ID.data = r.ID.data := List.mem_singleton.mp h1
        apply hhead
        rw [← he]
        exact List.mem_map_of_mem (fun r3 => r3.ID.data) hr2

theorem splitNl_append (l : List Char) : ∀ rest, '\n' ∉ l →
    splitNl (l ++ '\n' :: rest) = l :: splitNl rest := by
  induction l with
  | nil =>
    intro rest _
    show splitNl ('\n' :: rest) = [] :: splitNl rest
    have hstep : splitNl ('\n' :: rest) =
        if ('\n' : Char) = '\n' then [] :: splitNl rest
        else match splitNl rest with
          | [] => [['\n']]
          | l :: ls => ('\n' :: l) :: ls := rfl
    rw [hstep, if_pos rfl]
  | cons c t ih =>
    intro rest h
    have hc : ¬ c = '\n' := fun he => h (he ▸ List.mem_cons_self c t)
    show splitNl (c :: (t ++ '\n' :: rest)) = (c :: t) :: splitNl rest
    have hstep : splitNl (c :: (t ++ '\n' :: rest)) =
        if c = '\n' then [] :: splitNl (t ++ '\n' :: rest)
        else match splitNl (t ++ '\n' :: rest) with
          | [] => [[c]]
          | l :: ls => (c :: l) :: ls := rfl
    rw [hstep, if_neg hc, ih rest (fun hm => h (List.mem_cons_of_mem c hm))]

theorem splitNl_joinLines : ∀ (ls : List (List Char)), (∀ l ∈ ls, '\n' ∉ l) →
    splitNl (joinLines ls) = ls ++ [[]] := by
  intro ls
  induction ls with
  | nil =>
    intro _
    rfl
  | cons l t ih =>
    intro h
    show splitNl ((l ++ ['\n']) ++ joinLines t) = (l :: t) ++ [[]]
    rw [List.append_assoc]
    show splitNl (l ++ '\n' :: joinLines t) = l :: (t ++ [[]])
    rw [splitNl_append l _ (h l (List.mem_cons_self l t)),
      ih (fun x hx => h x (List.mem_cons_of_mem l hx))]

theorem stripCR_id {l : List Char} (h : '\r' ∉ l) : stripCR l = l := by
  unfold stripCR
  cases hr : l.reverse with
  | nil => rfl
  | cons c rest =>
    have hc : c ∈ l := List.mem_reverse.mp (by rw [hr]; exact List.mem_cons_self c rest)
    show (if c = '\r' then rest.reverse else l) = l
    rw [if_neg (fun he : c = '\r' => h (he ▸ hc))]

theorem map_stripCR_id : ∀ {ls : List (List Char)}, (∀ l ∈ ls, '\r' ∉ l) →
    ls.map stripCR = ls := by
  intro ls
  induction ls with
  | nil =>
    intro _
    rfl
  | cons l t ih =>
    intro h
    rw [List.map_cons, stripCR_id (h l (List.mem_cons_self l t)),
      ih (fun x hx => h x (List.mem_cons_of_mem l hx))]

theorem mem_addIP (acc : List (List Char)) (a x : List Char) :
    x ∈ addIP acc a ↔ x ∈ acc ∨ x = a := by
  unfold addIP
  split
  · rename_i hmem
    constructor
    · exact Or.inl
    · rintro (h | h)
      · exact h
      · rw [h]
        exact hmem
  · rw [List.mem_append, List.mem_singleton]

theorem mem_foldl_addIP (l : List (List Char)) : ∀ (acc : List (List Char)) (x : List Char),
    x ∈ l.foldl addIP acc ↔ x ∈ acc ∨ x ∈ l := by
  induction l with
  | nil =>
    intro acc x
    simp
  | cons a t ih =>
    intro acc x
    rw [List.foldl_cons, ih, mem_addIP, List.mem_cons]
    tauto

theorem mem_parsedOf_IPs (r : Rules.Rule) (x : String) :
    x ∈ (parsedOf r).IPs ↔ x ∈ r.IPs := by
  unfold parsedOf
  dsimp only
  rw [List.mem_map]
  constructor
  · rintro ⟨l, hl, hlx⟩
    rcases (mem_foldl_addIP _ _ l).mp hl with h | h
    · exact absurd h (List.not_mem_nil l)
    · obtain ⟨s, hs, hse⟩ := List.mem_map.mp h
      rw [← hlx, ← hse]
      exact hs
  · intro hx
    refine ⟨x.data, ?_, rfl⟩
    rw [mem_foldl_addIP]
    exact Or.inr (List.mem_map_of_mem String.data hx)

end Pf

namespace Pf

theorem no_ctl_app {a b : List Char} (ha : '\n' ∉ a ∧ '\r' ∉ a) (hb : '\n' ∉ b ∧ '\r' ∉ b) :
    '\n' ∉ a ++ b ∧ '\r' ∉ a ++ b := by
  constructor <;> intro h
  · rcases List.mem_append.mp h with h2 | h2
    · exact ha.1 h2
    · exact hb.1 h2
  · rcases List.mem_append.mp h with h2 | h2
    · exact ha.2 h2
    · exact hb.2 h2

theorem no_ctl_of_chars {a : List Char} (h : ∀ c ∈ a, c ≠ '\n' ∧ c ≠ '\r') :
    '\n' ∉ a ∧ '\r' ∉ a := by
  constructor <;> intro hm
  · exact (h _ hm).1 rfl
  · exact (h _ hm).2 rfl

theorem id_chars_of_tokenOk {t : List Char} (h : tokenOk t = true) :
    ∀ c ∈ t, c ≠ '\n' ∧ c ≠ '\r' := by
  intro c hc
  unfold tokenOk at h
  rw [Bool.and_eq_true] at h
  have hall := h.2
  rw [List.all_eq_true] at hall
  have hw := hall c hc
  constructor <;> intro he <;> rw [he] at hw <;> exact absurd hw (by decide)

theorem emitRule_no_ctl (fmtTime : Nat → List Char) (r : Rules.Rule)
    (htok : tokenOk r.ID.data = true)
    (hdomc : ∀ c ∈ r.Domain.data, c ≠ '\n' ∧ c ≠ '\r')
    (hipc : ∀ ip ∈ r.IPs, ∀ c ∈ ip.data, c ≠ '\n' ∧ c ≠ '\r')
    (htimec : ∀ c ∈ fmtTime r.Expires, c ≠ '\n' ∧ c ≠ '\r') :
    ∀ l ∈ emitRule fmtTime r, '\n' ∉ l ∧ '\r' ∉ l := by
  have hid := no_ctl_of_chars (id_chars_of_tokenOk htok)
  have hBpre : '\n' ∉ beginPre ∧ '\r' ∉ beginPre := by decide
  have hBsuf : '\n' ∉ beginSuf ∧ '\r' ∉ beginSuf := by decide
  have hEsuf : '\n' ∉ endSuf ∧ '\r' ∉ endSuf := by decide
  have hDpre : '\n' ∉ domPre ∧ '\r' ∉ domPre := by decide
  have hEpre : '\n' ∉ expPre ∧ '\r' ∉ expPre := by decide
  have hTpre : '\n' ∉ tcpPre ∧ '\r' ∉ tcpPre := by decide
  have hUpre : '\n' ∉ udpPre ∧ '\r' ∉ udpPre := by decide
  intro l hl
  unfold emitRule at hl
  rcases List.mem_append.mp hl with h1 | h1
  case inr =>
    rw [List.mem_singleton.mp h1]
    exact no_ctl_app (no_ctl_app hBpre hid) hEsuf
  rcases List.mem_append.mp h1 with h2 | h2
  case inr =>
    obtain ⟨ipd, hipd, hmem⟩ := List.mem_flatMap.mp h2
    obtain ⟨s, hsmem, hse⟩ := List.mem_map.mp hipd
    have hip2 : ∀ c ∈ ipd, c ≠ '\n' ∧ c ≠ '\r' := by
      intro c hc
      apply hipc s hsmem
      rw [hse]
      exact hc
    rcases List.mem_cons.mp hmem with he | he
    · rw [he]
      exact no_ctl_app hTpre (no_ctl_of_chars hip2)
    · rw [List.mem_singleton.mp he]
      exact no_ctl_app hUpre (no_ctl_of_chars hip2)
  rcases List.mem_append.mp h2 with h3 | h3
  case inr =>
    by_cases hperm : r.Permanent = true
    · rw [if_pos hperm] at h3
      exact absurd h3 (List.not_mem_nil l)
    · rw [if_neg hperm] at h3
      rw [List.mem_singleton.mp h3]
      exact no_ctl_app hEpre (no_ctl_of_chars htimec)
  rcases List.mem_cons.mp h3 with he | he
  · rw [he]
    exact no_ctl_app (no_ctl_app hBpre hid) hBsuf
  · rw [List.mem_singleton.mp he]
    exact no_ctl_app hDpre (no_ctl_of_chars hdomc)

end Pf

/-- C2 amended (the codec implementation is absent from src/, so parser and
emitter are modelled from the spec, section 4.1): for every rule list whose
ids are distinct non-whitespace tokens, whose domains and addresses are free
of line terminators, whose resolution times are zero (the anchor format does
not carry resolution times, so any other value is lost), whose permanent
rules have zero expiry, and for any timestamp codec that round-trips and
emits no line terminators, parsing the emitted bytes succeeds and returns
the rules in order, each equal to its original up to the IP list, whose
members are exactly the original IP set. -/
theorem parse_emit_roundtrip_modulo_resolvedAt
    (fmtTime : Nat → List Char) (parseTime : List Char → Option Nat)
    (xs : List Rules.Rule)
    (htime : ∀ t, parseTime (fmtTime t) = some t)
    (htimec : ∀ t, ∀ c ∈ fmtTime t, c ≠ '\n' ∧ c ≠ '\r')
    (htok : ∀ r ∈ xs, Pf.tokenOk r.ID.data = true)
    (hdomc : ∀ r ∈ xs, ∀ c ∈ r.Domain.data, c ≠ '\n' ∧ c ≠ '\r')
    (hipc : ∀ r ∈ xs, ∀ ip ∈ r.IPs, ∀ c ∈ ip.data, c ≠ '\n' ∧ c ≠ '\r')
    (hids : (xs.map (fun r => r.ID.data)).Nodup)
    (hres : ∀ r ∈ xs, r.ResolvedAt = 0)
    (hwf : ∀ r ∈ xs, r.Permanent = true → r.Expires = 0) :
    Pf.parse parseTime (Pf.emit fmtTime xs) = Except.ok (xs.map Pf.parsedOf) ∧
      ∀ r ∈ xs, Pf.parsedOf r = { r with IPs := (Pf.parsedOf r).IPs } ∧
        ∀ ip, ip ∈ (Pf.parsedOf r).IPs ↔ ip ∈ r.IPs := by
  have hctl : ∀ l ∈ Pf.headerLines ++ xs.flatMap (Pf.emitRule fmtTime),
      '\n' ∉ l ∧ '\r' ∉ l := by
    intro l hl
    rcases List.mem_append.mp hl with h1 | h1
    · rcases List.mem_cons.mp h1 with he | he
      · rw [he]
        exact ⟨by decide, by decide⟩
      · rw [List.mem_singleton.mp he]
        exact ⟨by decide, by decide⟩
    · obtain ⟨r, hr, hmem⟩ := List.mem_flatMap.mp h1
      exact Pf.emitRule_no_ctl fmtTime r (htok r hr) (hdomc r hr) (hipc r hr)
        (htimec r.Expires) l hmem
  constructor
  · unfold Pf.parse Pf.emit
    rw [Pf.splitNl_joinLines _ (fun l hl => (hctl l hl).1)]
    have hcr : ∀ l ∈ (Pf.headerLines ++ xs.flatMap (Pf.emitRule fmtTime)) ++ [[]], '\r' ∉ l := by
      intro l hl
      rcases List.mem_append.mp hl with h1 | h1
      · exact (hctl l h1).2
      · rw [List.mem_singleton.mp h1]
        exact List.not_mem_nil _
    rw [Pf.map_stripCR_id hcr]
    have hshape : (Pf.headerLines ++ xs.flatMap (Pf.emitRule fmtTime)) ++ [[]] =
        "# void-anchor".data :: "set skip on lo0".data ::
          (xs.flatMap (Pf.emitRule fmtTime) ++ [[]]) := rfl
    rw [hshape]
    rw [Pf.walk_cons _ _ _ _ _ _ (Pf.lineStep_skip parseTime _ _
      (show Pf.parseBegin ("# void-anchor".data) = none from by decide)
      (show Pf.parseEnd ("# void-anchor".data) = none from by decide))]
    rw [Pf.walk_cons _ _ _ _ _ _ (Pf.lineStep_skip parseTime _ _
      (show Pf.parseBegin ("set skip on lo0".data) = none from by decide)
      (show Pf.parseEnd ("set skip on lo0".data) = none from by decide))]
    rw [Pf.walk_rules parseTime fmtTime xs [[]] [] [] htok
      (fun r _ => htime r.Expires) (fun r _ => List.not_mem_nil _) hids]
    rw [Pf.walk_cons _ _ _ _ _ _ (Pf.lineStep_skip parseTime _ _
      (show Pf.parseBegin ([] : List Char) = none from by decide)
      (show Pf.parseEnd ([] : List Char) = none from by decide))]
    show Except.ok (([] : List Rules.Rule) ++ xs.map Pf.parsedOf) = Except.ok (xs.map Pf.parsedOf)
    rw [List.nil_append]
  · intro r hr
    constructor
    · have h1 : (if r.Permanent = true then 0 else r.Expires) = r.Expires := by
        by_cases hp : r.Permanent = true
        · rw [if_pos hp, hwf r hr hp]
        · rw [if_neg hp]
      unfold Pf.parsedOf
      dsimp only
      rw [h1, hres r hr]
    · exact Pf.mem_parsedOf_IPs r

namespace C2X

/-- Counterexample time codec: a timestamp is printed in unary. -/
def fmtTime (t : Nat) : List Char := List.replicate t 'x'

/-- Counterexample time codec inverse: the printed length. -/
def parseTime (l : List Char) : Option Nat := some l.length

/-- Counterexample rule list: one permanent rule with a non-zero resolution
time. -/
def xs : List Rules.Rule :=
  [ { ID := "a", Domain := "d.com", IPs := ["1.2.3.4"], Expires := 0, Permanent := true, ResolvedAt := 5 } ]

/-- The list the parser actually returns for the emitted bytes: the
resolution time comes back zero. -/
def ys : List Rules.Rule :=
  [ { ID := "a", Domain := "d.com", IPs := ["1.2.3.4"], Expires := 0, Permanent := true, ResolvedAt := 0 } ]

end C2X

/-- C2 counterexample (codec modelled from the spec): the anchor format does
not carry resolution times, so parsing the emitter output of a rule with a
non-zero ResolvedAt yields a different rule list and the round-trip law
parse(emit(xs)) = xs fails. -/
theorem anchor_roundtrip_drops_resolvedAt :
    Pf.parse C2X.parseTime (Pf.emit C2X.fmtTime C2X.xs) = Except.ok C2X.ys ∧
      C2X.ys ≠ C2X.xs := by
  constructor
  · rfl
  · decide

namespace C2W

/-- Witness rule list for the amended C2 theorem: one temporary rule with
zero resolution time. -/
def xs : List Rules.Rule :=
  [ { ID := "a", Domain := "d.com", IPs := ["1.2.3.4"], Expires := 3, Permanent := false, ResolvedAt := 0 } ]

end C2W

/-- Witness for the amended C2 theorem at a concrete rule list and time
codec. -/
theorem parse_emit_roundtrip_modulo_resolvedAt_witness :
    ((∀ t, C2X.parseTime (C2X.fmtTime t) = some t) ∧
      (∀ r ∈ C2W.xs, Pf.tokenOk r.ID.data = true) ∧
      (C2W.xs.map (fun r => r.ID.data)).Nodup ∧
      (∀ r ∈ C2W.xs, r.ResolvedAt = 0)) ∧
    (Pf.parse C2X.parseTime (Pf.emit C2X.fmtTime C2W.xs) = Except.ok (C2W.xs.map Pf.parsedOf) ∧
      ∀ r ∈ C2W.xs, Pf.parsedOf r = { r with IPs := (Pf.parsedOf r).IPs } ∧
        ∀ ip, ip ∈ (Pf.parsedOf r).IPs ↔ ip ∈ r.IPs) :=
  ⟨⟨fun t => congrArg some (List.length_replicate t 'x'), by decide, by decide, by decide⟩,
    parse_emit_roundtrip_modulo_resolvedAt C2X.fmtTime C2X.parseTime C2W.xs
      (fun t => congrArg some (List.length_replicate t 'x'))
      (fun t c hc => by
        have h2 : c = 'x' := List.eq_of_mem_replicate hc
        rw [h2]
        exact ⟨by decide, by decide⟩)
      (by decide) (by decide) (by decide) (by decide) (by decide) (by decide)⟩
